import Mathlib

/-!
Eureka editor: the undoable editing model (`e_basis.cc`)

A shallow embedding of the document of map objects and of the transaction
manager `Basis` (begin / end / abort, addNew / del / change, undo / redo),
followed by theorems about it.

Conventions of the embedding

* C++ `int` is `Int`.  The only arithmetic in the file is `x--` guarded by
  `x > objnum` (with `objnum >= 0`) and `x++` on values that were produced by
  such a decrement, so no computation studied here leaves the 32-bit range.
* A collection `std::vector<std::unique_ptr<T>>` is a `List T`; an object
  detached from the document and owned by an edit operation is the payload of
  that operation.
* `BugError` and a failed `SYS_ASSERT` are fatal: the embedded function
  returns `none`.
* Calls into the listener are recorded, in order, in the field `listener`;
  the listener and `Clipboard_ClearLocals` are collaborators outside the
  basis and do not write to the document or to the basis.
* The header that declares the types and the inline members of `UndoGroup`
  is not among the sources; what it must contain is modelled from the spec
  and from the way the sources use it.
-/

namespace Eureka

/-! ## Data model -/

/-- Modelled from the spec: the object kinds of the document (`ObjType`,
declared in a header that is not part of the sources at hand). -/
inductive ObjType where
  | things | linedefs | sidedefs | vertices | sectors
  deriving DecidableEq, Repr

/-- Modelled from the spec: the action tag of an edit operation
(`EditType`), a variant over insert, delete and change. -/
inductive EditType where
  | change | insert | del
  deriving DecidableEq, Repr

/-- Modelled from the spec: a thing (position, angle, type code, flags and
the Hexen extension), with the field names used by the sources. -/
structure Thing where
  raw_x : Int
  raw_y : Int
  angle : Int
  type : Int
  options : Int
  raw_h : Int
  tid : Int
  special : Int
  arg1 : Int
  arg2 : Int
  arg3 : Int
  arg4 : Int
  arg5 : Int
  deriving DecidableEq, Repr

/-- Modelled from the spec: a vertex, a fixed-point coordinate pair. -/
structure Vertex where
  raw_x : Int
  raw_y : Int
  deriving DecidableEq, Repr

/-- Modelled from the spec: a sector.  The textures are string-table
handles. -/
structure Sector where
  floorh : Int
  ceilh : Int
  floor_tex : Int
  ceil_tex : Int
  light : Int
  type : Int
  tag : Int
  deriving DecidableEq, Repr

/-- Modelled from the spec: a sidedef; `sector` is an index into the sectors
of the document. -/
structure SideDef where
  x_offset : Int
  y_offset : Int
  upper_tex : Int
  mid_tex : Int
  lower_tex : Int
  sector : Int
  deriving DecidableEq, Repr

/-- Modelled from the spec: a linedef; `start` and `end_` (the source's
`end`) index the vertices, `right` and `left` index the sidedefs, `-1`
meaning no side. -/
structure LineDef where
  start : Int
  end_ : Int
  right : Int
  left : Int
  flags : Int
  type : Int
  tag : Int
  arg2 : Int
  arg3 : Int
  arg4 : Int
  arg5 : Int
  deriving DecidableEq, Repr

/-- Modelled from the spec: selector of one scalar field of a thing (the
source uses a pointer to member `int Thing::*`). -/
inductive ThingField where
  | raw_x | raw_y | angle | type | options | raw_h | tid | special
  | arg1 | arg2 | arg3 | arg4 | arg5
  deriving DecidableEq, Repr

/-- Modelled from the spec: selector of one scalar field of a vertex. -/
inductive VertexField where
  | raw_x | raw_y
  deriving DecidableEq, Repr

/-- Modelled from the spec: selector of one scalar field of a sector. -/
inductive SectorField where
  | floorh | ceilh | floor_tex | ceil_tex | light | type | tag
  deriving DecidableEq, Repr

/-- Modelled from the spec: selector of one scalar field of a sidedef. -/
inductive SideDefField where
  | x_offset | y_offset | upper_tex | mid_tex | lower_tex | sector
  deriving DecidableEq, Repr

/-- Modelled from the spec: selector of one scalar field of a linedef. -/
inductive LineDefField where
  | start | end_ | right | left | flags | type | tag | arg2 | arg3 | arg4 | arg5
  deriving DecidableEq, Repr

/-- Read `t.*f`. -/
def Thing.get (t : Thing) : ThingField → Int
  | .raw_x => t.raw_x | .raw_y => t.raw_y | .angle => t.angle | .type => t.type
  | .options => t.options | .raw_h => t.raw_h | .tid => t.tid
  | .special => t.special | .arg1 => t.arg1 | .arg2 => t.arg2
  | .arg3 => t.arg3 | .arg4 => t.arg4 | .arg5 => t.arg5

/-- Write `t.*f = v`. -/
def Thing.set (t : Thing) (f : ThingField) (v : Int) : Thing :=
  match f with
  | .raw_x => { t with raw_x := v } | .raw_y => { t with raw_y := v }
  | .angle => { t with angle := v } | .type => { t with type := v }
  | .options => { t with options := v } | .raw_h => { t with raw_h := v }
  | .tid => { t with tid := v } | .special => { t with special := v }
  | .arg1 => { t with arg1 := v } | .arg2 => { t with arg2 := v }
  | .arg3 => { t with arg3 := v } | .arg4 => { t with arg4 := v }
  | .arg5 => { t with arg5 := v }

/-- Read `v.*f`. -/
def Vertex.get (v : Vertex) : VertexField → Int
  | .raw_x => v.raw_x | .raw_y => v.raw_y

/-- Write `v.*f = x`. -/
def Vertex.set (v : Vertex) (f : VertexField) (x : Int) : Vertex :=
  match f with
  | .raw_x => { v with raw_x := x } | .raw_y => { v with raw_y := x }

/-- Read `s.*f`. -/
def Sector.get (s : Sector) : SectorField → Int
  | .floorh => s.floorh | .ceilh => s.ceilh | .floor_tex => s.floor_tex
  | .ceil_tex => s.ceil_tex | .light => s.light | .type => s.type
  | .tag => s.tag

/-- Write `s.*f = v`. -/
def Sector.set (s : Sector) (f : SectorField) (v : Int) : Sector :=
  match f with
  | .floorh => { s with floorh := v } | .ceilh => { s with ceilh := v }
  | .floor_tex => { s with floor_tex := v }
  | .ceil_tex => { s with ceil_tex := v } | .light => { s with light := v }
  | .type => { s with type := v } | .tag => { s with tag := v }

/-- Read `s.*f`. -/
def SideDef.get (s : SideDef) : SideDefField → Int
  | .x_offset => s.x_offset | .y_offset => s.y_offset
  | .upper_tex => s.upper_tex | .mid_tex => s.mid_tex
  | .lower_tex => s.lower_tex | .sector => s.sector

/-- Write `s.*f = v`. -/
def SideDef.set (s : SideDef) (f : SideDefField) (v : Int) : SideDef :=
  match f with
  | .x_offset => { s with x_offset := v } | .y_offset => { s with y_offset := v }
  | .upper_tex => { s with upper_tex := v } | .mid_tex => { s with mid_tex := v }
  | .lower_tex => { s with lower_tex := v } | .sector => { s with sector := v }

/-- Read `L.*f`. -/
def LineDef.get (L : LineDef) : LineDefField → Int
  | .start => L.start | .end_ => L.end_ | .right => L.right | .left => L.left
  | .flags => L.flags | .type => L.type | .tag => L.tag | .arg2 => L.arg2
  | .arg3 => L.arg3 | .arg4 => L.arg4 | .arg5 => L.arg5

/-- Write `L.*f = v`. -/
def LineDef.set (L : LineDef) (f : LineDefField) (v : Int) : LineDef :=
  match f with
  | .start => { L with start := v } | .end_ => { L with end_ := v }
  | .right => { L with right := v } | .left => { L with left := v }
  | .flags => { L with flags := v } | .type => { L with type := v }
  | .tag => { L with tag := v } | .arg2 => { L with arg2 := v }
  | .arg3 => { L with arg3 := v } | .arg4 => { L with arg4 := v }
  | .arg5 => { L with arg5 := v }

/-- Modelled from the spec: the union `ItemField` of the five kinds of
pointer to member; `unset` is the value-initialised union of an operation
that is not a change. -/
inductive ItemField where
  | unset
  | thing (f : ThingField)
  | vertex (f : VertexField)
  | sector (f : SectorField)
  | side (f : SideDefField)
  | line (f : LineDefField)
  deriving DecidableEq, Repr

/-- Modelled from the spec: the anonymous union of `EditOperation`
(`ptr`, `value`, `thing`, `vertex`, `sector`, `sidedef`, `linedef`); `null`
is `ptr == nullptr`. -/
inductive Payload where
  | null
  | value (v : Int)
  | thing (t : Thing)
  | vertex (v : Vertex)
  | sector (s : Sector)
  | sidedef (s : SideDef)
  | linedef (l : LineDef)
  deriving DecidableEq, Repr

/-- Modelled from the spec: the document, five ordered collections addressed
by dense index, and three opaque byte blobs. -/
structure Document where
  things : List Thing
  vertices : List Vertex
  sidedefs : List SideDef
  linedefs : List LineDef
  sectors : List Sector
  headerData : List Nat
  behaviorData : List Nat
  scriptsData : List Nat
  deriving DecidableEq, Repr

/-- Number of things, as the `int` the source works with. -/
def Document.numThings (doc : Document) : Int := doc.things.length

/-- Number of vertices. -/
def Document.numVertices (doc : Document) : Int := doc.vertices.length

/-- Number of sidedefs. -/
def Document.numSidedefs (doc : Document) : Int := doc.sidedefs.length

/-- Number of linedefs. -/
def Document.numLinedefs (doc : Document) : Int := doc.linedefs.length

/-- Number of sectors. -/
def Document.numSectors (doc : Document) : Int := doc.sectors.length

/-- Number of objects of the given kind. -/
def Document.numObjects (doc : Document) : ObjType → Int
  | .things => doc.numThings
  | .linedefs => doc.numLinedefs
  | .sidedefs => doc.numSidedefs
  | .vertices => doc.numVertices
  | .sectors => doc.numSectors

/-- Modelled from the spec: one reified mutation (`Basis::EditOperation`). -/
structure EditOperation where
  action : EditType
  objtype : ObjType
  field : ItemField
  objnum : Int
  payload : Payload
  deriving DecidableEq, Repr

/-- Modelled from the spec: an ordered batch of operations with its message
and its direction `mDir` (`0` inactive, `+1` forward, `-1` backward). -/
structure UndoGroup where
  mOps : List EditOperation
  mMessage : String
  mDir : Int
  deriving DecidableEq, Repr

/-- A call made to the listener of the basis. -/
inductive Event where
  | basisNotifyBegin
  | basisNotifyEnd
  | basisMadeChanges
  | basisSetStatus (text : String)
  | basisOnChangeItem (type : ObjType) (field : ItemField) (value : Int)
  | basisNotifyChange (objtype : ObjType) (objnum : Int) (field : ItemField)
  | basisNotifyDelete (objtype : ObjType) (objnum : Int)
  | basisNotifyInsert (objtype : ObjType) (objnum : Int)
  deriving DecidableEq, Repr

/-- Modelled from the spec: the transaction manager.  The two stacks are
lists whose head is the top; `listener` is the trace of listener calls. -/
structure Basis where
  doc : Document
  mCurrentGroup : UndoGroup
  mUndoHistory : List UndoGroup
  mRedoFuture : List UndoGroup
  mDidMakeChanges : Bool
  listener : List Event
  deriving DecidableEq, Repr

/-- Modelled from the spec: the objects `new T` makes in `addNew`; their
field values are fixed by the missing header and are left open here. -/
structure Defaults where
  thing : Thing
  vertex : Vertex
  sidedef : SideDef
  linedef : LineDef
  sector : Sector
  deriving DecidableEq, Repr

/-- Modelled from the spec: message of a group that was given none. -/
def DEFAULT_UNDO_GROUP_MESSAGE : String := "[something]"

/-! ## Undo group: the inline members -/

/-- Modelled from the spec: a group is active when its direction is set. -/
def UndoGroup.isActive (g : UndoGroup) : Bool := g.mDir != 0

/-- Modelled from the spec: group-begin, the direction becomes forward. -/
def UndoGroup.activate (g : UndoGroup) : UndoGroup := { g with mDir := 1 }

/-- Modelled from the spec: group-end, the direction becomes backward, so
that the next replay undoes the group. -/
def UndoGroup.end_ (g : UndoGroup) : UndoGroup := { g with mDir := -1 }

/-- Modelled from the spec: a group without operations. -/
def UndoGroup.isEmpty (g : UndoGroup) : Bool := g.mOps.isEmpty

/-- Modelled from the spec: the message accessor. -/
def UndoGroup.getMessage (g : UndoGroup) : String := g.mMessage

/-- Source `Basis::UndoGroup::reset`: back to the initial, inactive state. -/
def UndoGroup.reset (_g : UndoGroup) : UndoGroup :=
  { mOps := [], mDir := 0, mMessage := DEFAULT_UNDO_GROUP_MESSAGE }

/-! ## Raw primitives of an edit operation -/

/-- The effect of `std::swap(xs[i].get()->*f, value)`: the new collection and
the new content of the value slot. -/
def swapField {α F : Type} (get : α → F → Int) (set : α → F → Int → α)
    (xs : List α) (i : Nat) (f : F) (value : Int) : Option (List α × Int) :=
  match xs[i]? with
  | none => none
  | some x => some (xs.set i (set x f value), get x f)

/-- Source `Basis::EditOperation::rawChange`.  A field selector of the wrong
kind for `objtype`, or a payload that is not a value, cannot be built by
the basis and is treated as fatal. -/
def EditOperation.rawChange (op : EditOperation) (basis : Basis) :
    Option (EditOperation × Basis) :=
  let swapped : Option (Document × Int) :=
    match op.objtype, op.field, op.payload with
    | .things, .thing f, .value v =>
      if 0 ≤ op.objnum ∧ op.objnum < basis.doc.numThings then
        (swapField Thing.get Thing.set basis.doc.things op.objnum.toNat f v).map
          fun r => ({ basis.doc with things := r.1 }, r.2)
      else none
    | .vertices, .vertex f, .value v =>
      if 0 ≤ op.objnum ∧ op.objnum < basis.doc.numVertices then
        (swapField Vertex.get Vertex.set basis.doc.vertices op.objnum.toNat f v).map
          fun r => ({ basis.doc with vertices := r.1 }, r.2)
      else none
    | .sectors, .sector f, .value v =>
      if 0 ≤ op.objnum ∧ op.objnum < basis.doc.numSectors then
        (swapField Sector.get Sector.set basis.doc.sectors op.objnum.toNat f v).map
          fun r => ({ basis.doc with sectors := r.1 }, r.2)
      else none
    | .sidedefs, .side f, .value v =>
      if 0 ≤ op.objnum ∧ op.objnum < basis.doc.numSidedefs then
        (swapField SideDef.get SideDef.set basis.doc.sidedefs op.objnum.toNat f v).map
          fun r => ({ basis.doc with sidedefs := r.1 }, r.2)
      else none
    | .linedefs, .line f, .value v =>
      if 0 ≤ op.objnum ∧ op.objnum < basis.doc.numLinedefs then
        (swapField LineDef.get LineDef.set basis.doc.linedefs op.objnum.toNat f v).map
          fun r => ({ basis.doc with linedefs := r.1 }, r.2)
      else none
    | _, _, _ => none
  match swapped with
  | none => none
  | some (doc, value) =>
    some ({ op with payload := .value value },
      { basis with
        doc := doc
        mDidMakeChanges := true
        listener := basis.listener ++ [Event.basisNotifyChange op.objtype op.objnum op.field] })

/-- Source `Basis::EditOperation::rawDeleteThing`. -/
def EditOperation.rawDeleteThing (op : EditOperation) (doc : Document) :
    Option (Thing × Document) :=
  if 0 ≤ op.objnum ∧ op.objnum < doc.numThings then
    match doc.things[op.objnum.toNat]? with
    | none => none
    | some result =>
      some (result, { doc with things := doc.things.eraseIdx op.objnum.toNat })
  else none

/-- The body of the fix-up loop of `rawDeleteVertex` for one linedef. -/
def LineDef.vertexDeleted (objnum : Int) (L : LineDef) : LineDef :=
  let L := if L.start > objnum then { L with start := L.start - 1 } else L
  if L.end_ > objnum then { L with end_ := L.end_ - 1 } else L

/-- Source `Basis::EditOperation::rawDeleteVertex`.  The loop over the
linedefs updates each element independently and is a `map`. -/
def EditOperation.rawDeleteVertex (op : EditOperation) (doc : Document) :
    Option (Vertex × Document) :=
  if 0 ≤ op.objnum ∧ op.objnum < doc.numVertices then
    match doc.vertices[op.objnum.toNat]? with
    | none => none
    | some result =>
      let doc := { doc with vertices := doc.vertices.eraseIdx op.objnum.toNat }
      let doc :=
        if op.objnum < doc.numVertices then
          { doc with linedefs := doc.linedefs.map (LineDef.vertexDeleted op.objnum) }
        else doc
      some (result, doc)
  else none

/-- The body of the fix-up loop of `rawDeleteSector` for one sidedef. -/
def SideDef.sectorDeleted (objnum : Int) (S : SideDef) : SideDef :=
  if S.sector > objnum then { S with sector := S.sector - 1 } else S

/-- Source `Basis::EditOperation::rawDeleteSector`. -/
def EditOperation.rawDeleteSector (op : EditOperation) (doc : Document) :
    Option (Sector × Document) :=
  if 0 ≤ op.objnum ∧ op.objnum < doc.numSectors then
    match doc.sectors[op.objnum.toNat]? with
    | none => none
    | some result =>
      let doc := { doc with sectors := doc.sectors.eraseIdx op.objnum.toNat }
      let doc :=
        if op.objnum < doc.numSectors then
          { doc with sidedefs := doc.sidedefs.map (SideDef.sectorDeleted op.objnum) }
        else doc
      some (result, doc)
  else none

/-- The body of the fix-up loop of `rawDeleteSidedef` for one linedef. -/
def LineDef.sidedefDeleted (objnum : Int) (L : LineDef) : LineDef :=
  let L := if L.right > objnum then { L with right := L.right - 1 } else L
  if L.left > objnum then { L with left := L.left - 1 } else L

/-- Source `Basis::EditOperation::rawDeleteSidedef`. -/
def EditOperation.rawDeleteSidedef (op : EditOperation) (doc : Document) :
    Option (SideDef × Document) :=
  if 0 ≤ op.objnum ∧ op.objnum < doc.numSidedefs then
    match doc.sidedefs[op.objnum.toNat]? with
    | none => none
    | some result =>
      let doc := { doc with sidedefs := doc.sidedefs.eraseIdx op.objnum.toNat }
      let doc :=
        if op.objnum < doc.numSidedefs then
          { doc with linedefs := doc.linedefs.map (LineDef.sidedefDeleted op.objnum) }
        else doc
      some (result, doc)
  else none

/-- Source `Basis::EditOperation::rawDeleteLinedef`. -/
def EditOperation.rawDeleteLinedef (op : EditOperation) (doc : Document) :
    Option (LineDef × Document) :=
  if 0 ≤ op.objnum ∧ op.objnum < doc.numLinedefs then
    match doc.linedefs[op.objnum.toNat]? with
    | none => none
    | some result =>
      some (result, { doc with linedefs := doc.linedefs.eraseIdx op.objnum.toNat })
  else none

/-- Source `Basis::EditOperation::rawDelete`: the detached object (as the
payload that will own it) and the new state of the basis. -/
def EditOperation.rawDelete (op : EditOperation) (basis : Basis) :
    Option (Payload × Basis) :=
  let basis : Basis := { basis with mDidMakeChanges := true }
  let basis : Basis :=
    { basis with listener := basis.listener ++ [Event.basisNotifyDelete op.objtype op.objnum] }
  match op.objtype with
  | .things =>
    (op.rawDeleteThing basis.doc).map fun r => (Payload.thing r.1, { basis with doc := r.2 })
  | .vertices =>
    (op.rawDeleteVertex basis.doc).map fun r => (Payload.vertex r.1, { basis with doc := r.2 })
  | .sectors =>
    (op.rawDeleteSector basis.doc).map fun r => (Payload.sector r.1, { basis with doc := r.2 })
  | .sidedefs =>
    (op.rawDeleteSidedef basis.doc).map fun r => (Payload.sidedef r.1, { basis with doc := r.2 })
  | .linedefs =>
    (op.rawDeleteLinedef basis.doc).map fun r => (Payload.linedef r.1, { basis with doc := r.2 })

/-- Source `Basis::EditOperation::rawInsertThing`. -/
def EditOperation.rawInsertThing (op : EditOperation) (thing : Thing) (doc : Document) :
    Option Document :=
  if 0 ≤ op.objnum ∧ op.objnum ≤ doc.numThings then
    some { doc with things := doc.things.insertIdx op.objnum.toNat thing }
  else none

/-- The body of the fix-up loop of `rawInsertVertex` for one linedef. -/
def LineDef.vertexInserted (objnum : Int) (L : LineDef) : LineDef :=
  let L := if L.start ≥ objnum then { L with start := L.start + 1 } else L
  if L.end_ ≥ objnum then { L with end_ := L.end_ + 1 } else L

/-- Source `Basis::EditOperation::rawInsertVertex`. -/
def EditOperation.rawInsertVertex (op : EditOperation) (vertex : Vertex) (doc : Document) :
    Option Document :=
  if 0 ≤ op.objnum ∧ op.objnum ≤ doc.numVertices then
    let doc := { doc with vertices := doc.vertices.insertIdx op.objnum.toNat vertex }
    if op.objnum + 1 < doc.numVertices then
      some { doc with linedefs := doc.linedefs.map (LineDef.vertexInserted op.objnum) }
    else some doc
  else none

/-- The body of the fix-up loop of `rawInsertSector` for one sidedef. -/
def SideDef.sectorInserted (objnum : Int) (S : SideDef) : SideDef :=
  if S.sector ≥ objnum then { S with sector := S.sector + 1 } else S

/-- Source `Basis::EditOperation::rawInsertSector`. -/
def EditOperation.rawInsertSector (op : EditOperation) (sector : Sector) (doc : Document) :
    Option Document :=
  if 0 ≤ op.objnum ∧ op.objnum ≤ doc.numSectors then
    let doc := { doc with sectors := doc.sectors.insertIdx op.objnum.toNat sector }
    if op.objnum + 1 < doc.numSectors then
      some { doc with sidedefs := doc.sidedefs.map (SideDef.sectorInserted op.objnum) }
    else some doc
  else none

/-- The body of the fix-up loop of `rawInsertSidedef` for one linedef. -/
def LineDef.sidedefInserted (objnum : Int) (L : LineDef) : LineDef :=
  let L := if L.right ≥ objnum then { L with right := L.right + 1 } else L
  if L.left ≥ objnum then { L with left := L.left + 1 } else L

/-- Source `Basis::EditOperation::rawInsertSidedef`. -/
def EditOperation.rawInsertSidedef (op : EditOperation) (sidedef : SideDef) (doc : Document) :
    Option Document :=
  if 0 ≤ op.objnum ∧ op.objnum ≤ doc.numSidedefs then
    let doc := { doc with sidedefs := doc.sidedefs.insertIdx op.objnum.toNat sidedef }
    if op.objnum + 1 < doc.numSidedefs then
      some { doc with linedefs := doc.linedefs.map (LineDef.sidedefInserted op.objnum) }
    else some doc
  else none

/-- Source `Basis::EditOperation::rawInsertLinedef`. -/
def EditOperation.rawInsertLinedef (op : EditOperation) (linedef : LineDef) (doc : Document) :
    Option Document :=
  if 0 ≤ op.objnum ∧ op.objnum ≤ doc.numLinedefs then
    some { doc with linedefs := doc.linedefs.insertIdx op.objnum.toNat linedef }
  else none

/-- Source `Basis::EditOperation::rawInsert`.  The member of the union read
by each case must be the one that was stored; any other payload is treated
as fatal. -/
def EditOperation.rawInsert (op : EditOperation) (basis : Basis) : Option Basis :=
  let basis : Basis := { basis with mDidMakeChanges := true }
  let basis : Basis :=
    { basis with listener := basis.listener ++ [Event.basisNotifyInsert op.objtype op.objnum] }
  match op.objtype, op.payload with
  | .things, .thing t =>
    (op.rawInsertThing t basis.doc).map fun d => { basis with doc := d }
  | .vertices, .vertex v =>
    (op.rawInsertVertex v basis.doc).map fun d => { basis with doc := d }
  | .sidedefs, .sidedef s =>
    (op.rawInsertSidedef s basis.doc).map fun d => { basis with doc := d }
  | .sectors, .sector s =>
    (op.rawInsertSector s basis.doc).map fun d => { basis with doc := d }
  | .linedefs, .linedef l =>
    (op.rawInsertLinedef l basis.doc).map fun d => { basis with doc := d }
  | _, _ => none

/-- Source `Basis::EditOperation::apply`: run the operation and turn it into
its own inverse. -/
def EditOperation.apply (op : EditOperation) (basis : Basis) :
    Option (EditOperation × Basis) :=
  match op.action with
  | .change => op.rawChange basis
  | .del =>
    (op.rawDelete basis).map fun r =>
      ({ op with payload := r.1, action := EditType.insert }, r.2)
  | .insert =>
    (op.rawInsert basis).map fun b =>
      ({ op with payload := Payload.null, action := EditType.del }, b)

/-! ## Undo group: add, apply and replay -/

/-- Source `Basis::UndoGroup::addApply` on the current group of the basis:
the operation is appended and applied at once, so the stored copy is the
already flipped one. -/
def Basis.addApply (basis : Basis) (op : EditOperation) : Option Basis :=
  match op.apply basis with
  | none => none
  | some (op', basis') =>
    some { basis' with
      mCurrentGroup :=
        { basis'.mCurrentGroup with mOps := basis'.mCurrentGroup.mOps ++ [op'] } }

/-- Apply the operations from the first to the last (the forward loop of
`reapply`), collecting the flipped operations in place. -/
def applyForward : List EditOperation → Basis → Option (List EditOperation × Basis)
  | [], basis => some ([], basis)
  | op :: ops, basis =>
    match op.apply basis with
    | none => none
    | some (op', basis') =>
      match applyForward ops basis' with
      | none => none
      | some (ops', basis'') => some (op' :: ops', basis'')

/-- Apply the operations from the last to the first (the loop of `reapply`
over `rbegin .. rend`), each flipped operation staying at its position. -/
def applyBackward (ops : List EditOperation) (basis : Basis) :
    Option (List EditOperation × Basis) :=
  (applyForward ops.reverse basis).map fun r => (r.1.reverse, r.2)

/-- Source `Basis::UndoGroup::reapply`. -/
def UndoGroup.reapply (g : UndoGroup) (basis : Basis) : Option (UndoGroup × Basis) :=
  let replayed : Option (List EditOperation × Basis) :=
    if g.mDir > 0 then applyForward g.mOps basis
    else if g.mDir < 0 then applyBackward g.mOps basis
    else some (g.mOps, basis)
  replayed.map fun r => ({ g with mOps := r.1, mDir := -g.mDir }, r.2)

/-! ## The basis API -/

/-- Source `Basis::doClearChangeStatus`. -/
def Basis.doClearChangeStatus (basis : Basis) : Basis :=
  { basis with
    mDidMakeChanges := false
    listener := basis.listener ++ [Event.basisNotifyBegin] }

/-- Source `Basis::doProcessChangeStatus`. -/
def Basis.doProcessChangeStatus (basis : Basis) : Basis :=
  let basis : Basis :=
    if basis.mDidMakeChanges then
      { basis with listener := basis.listener ++ [Event.basisMadeChanges] }
    else basis
  { basis with listener := basis.listener ++ [Event.basisNotifyEnd] }

/-- Source `Basis::begin`. -/
def Basis.begin (basis : Basis) : Option Basis :=
  if basis.mCurrentGroup.isActive then none
  else
    let basis : Basis := { basis with mRedoFuture := [] }
    let basis : Basis := { basis with mCurrentGroup := basis.mCurrentGroup.activate }
    some basis.doClearChangeStatus

/-- Source `Basis::end`.  Moving the current group onto the history leaves
it in the default state (the move resets its source). -/
def Basis.end_ (basis : Basis) : Option Basis :=
  if !basis.mCurrentGroup.isActive then none
  else
    let basis : Basis := { basis with mCurrentGroup := basis.mCurrentGroup.end_ }
    let basis : Basis :=
      if basis.mCurrentGroup.isEmpty then
        { basis with mCurrentGroup := basis.mCurrentGroup.reset }
      else
        let message := basis.mCurrentGroup.getMessage
        { basis with
          mUndoHistory := basis.mCurrentGroup :: basis.mUndoHistory
          mCurrentGroup := basis.mCurrentGroup.reset
          listener := basis.listener ++ [Event.basisSetStatus message] }
    some basis.doProcessChangeStatus

/-- Source `Basis::abort`. -/
def Basis.abort (basis : Basis) (keepChanges : Bool) : Option Basis :=
  if !basis.mCurrentGroup.isActive then none
  else
    let basis : Basis := { basis with mCurrentGroup := basis.mCurrentGroup.end_ }
    let replayed : Option Basis :=
      if !keepChanges && !basis.mCurrentGroup.isEmpty then
        (basis.mCurrentGroup.reapply basis).map fun r =>
          { r.2 with mCurrentGroup := r.1 }
      else some basis
    replayed.map fun basis =>
      let basis : Basis := { basis with mCurrentGroup := basis.mCurrentGroup.reset }
      let basis : Basis := { basis with mDidMakeChanges := false }
      basis.doProcessChangeStatus

/-- Source `Basis::addNew`: the index of the new object and the new state. -/
def Basis.addNew (dflt : Defaults) (basis : Basis) (type : ObjType) : Option (Int × Basis) :=
  if !basis.mCurrentGroup.isActive then none
  else
    let op : EditOperation :=
      match type with
      | .things =>
        { action := .insert, objtype := type, field := .unset,
          objnum := basis.doc.numThings, payload := .thing dflt.thing }
      | .vertices =>
        { action := .insert, objtype := type, field := .unset,
          objnum := basis.doc.numVertices, payload := .vertex dflt.vertex }
      | .sidedefs =>
        { action := .insert, objtype := type, field := .unset,
          objnum := basis.doc.numSidedefs, payload := .sidedef dflt.sidedef }
      | .linedefs =>
        { action := .insert, objtype := type, field := .unset,
          objnum := basis.doc.numLinedefs, payload := .linedef dflt.linedef }
      | .sectors =>
        { action := .insert, objtype := type, field := .unset,
          objnum := basis.doc.numSectors, payload := .sector dflt.sector }
    (basis.addApply op).map fun b => (op.objnum, b)

/-- Source `Basis::change`. -/
def Basis.change (basis : Basis) (type : ObjType) (objnum : Int) (field : ItemField)
    (value : Int) : Option Basis :=
  let op : EditOperation :=
    { action := .change, objtype := type, field := field, objnum := objnum,
      payload := .value value }
  if !basis.mCurrentGroup.isActive then none
  else basis.addApply op

/-- Source `Basis::changeThing`. -/
def Basis.changeThing (basis : Basis) (thing : Int) (field : ThingField) (value : Int) :
    Option Basis :=
  if 0 ≤ thing ∧ thing < basis.doc.numThings then
    let basis : Basis :=
      { basis with
        listener := basis.listener ++ [Event.basisOnChangeItem .things (.thing field) value] }
    basis.change .things thing (.thing field) value
  else none

/-- Source `Basis::changeVertex`. -/
def Basis.changeVertex (basis : Basis) (vert : Int) (field : VertexField) (value : Int) :
    Option Basis :=
  if 0 ≤ vert ∧ vert < basis.doc.numVertices then
    basis.change .vertices vert (.vertex field) value
  else none

/-- Source `Basis::changeSector`. -/
def Basis.changeSector (basis : Basis) (sec : Int) (field : SectorField) (value : Int) :
    Option Basis :=
  if 0 ≤ sec ∧ sec < basis.doc.numSectors then
    let basis : Basis :=
      { basis with
        listener := basis.listener ++ [Event.basisOnChangeItem .sectors (.sector field) value] }
    basis.change .sectors sec (.sector field) value
  else none

/-- Source `Basis::changeSidedef`. -/
def Basis.changeSidedef (basis : Basis) (side : Int) (field : SideDefField) (value : Int) :
    Option Basis :=
  if 0 ≤ side ∧ side < basis.doc.numSidedefs then
    let basis : Basis :=
      { basis with
        listener := basis.listener ++ [Event.basisOnChangeItem .sidedefs (.side field) value] }
    basis.change .sidedefs side (.side field) value
  else none

/-- Source `Basis::changeLinedef`. -/
def Basis.changeLinedef (basis : Basis) (line : Int) (field : LineDefField) (value : Int) :
    Option Basis :=
  if 0 ≤ line ∧ line < basis.doc.numLinedefs then
    basis.change .linedefs line (.line field) value
  else none

/-- The sidedef cascade of `Basis::del`: the loop
`for(n = numLinedefs - 1; n >= 0; n--)`, entered with `k = n + 1`, that
unbinds the sidedef `objnum` from every linedef using it.  The linedef is
read again after the first change, as the source reads through a pointer
to the live object. -/
def Basis.unbindLoop (objnum : Int) : Nat → Basis → Option Basis
  | 0, basis => some basis
  | n + 1, basis =>
    match basis.doc.linedefs[n]? with
    | none => none
    | some L =>
      let first : Option Basis :=
        if L.right = objnum then basis.changeLinedef n .right (-1) else some basis
      first.bind fun basis =>
        match basis.doc.linedefs[n]? with
        | none => none
        | some L =>
          let second : Option Basis :=
            if L.left = objnum then basis.changeLinedef n .left (-1) else some basis
          second.bind (Basis.unbindLoop objnum n)

/-- The vertex cascade of `Basis::del`: the backward loop deleting every
linedef bound to the vertex `objnum`; `del` is the recursive call. -/
def Basis.vertexLoop (del : ObjType → Int → Basis → Option Basis) (objnum : Int) :
    Nat → Basis → Option Basis
  | 0, basis => some basis
  | n + 1, basis =>
    match basis.doc.linedefs[n]? with
    | none => none
    | some L =>
      if L.start = objnum ∨ L.end_ = objnum then
        (del .linedefs n basis).bind (Basis.vertexLoop del objnum n)
      else Basis.vertexLoop del objnum n basis

/-- The sector cascade of `Basis::del`: the backward loop deleting every
sidedef bound to the sector `objnum`; `del` is the recursive call. -/
def Basis.sectorLoop (del : ObjType → Int → Basis → Option Basis) (objnum : Int) :
    Nat → Basis → Option Basis
  | 0, basis => some basis
  | n + 1, basis =>
    match basis.doc.sidedefs[n]? with
    | none => none
    | some S =>
      if S.sector = objnum then
        (del .sidedefs n basis).bind (Basis.sectorLoop del objnum n)
      else Basis.sectorLoop del objnum n basis

/-- The body of source `Basis::del`, its recursive calls going to `del`. -/
def Basis.delWith (del : ObjType → Int → Basis → Option Basis) (type : ObjType)
    (objnum : Int) (basis : Basis) : Option Basis :=
  if !basis.mCurrentGroup.isActive then none
  else
    let op : EditOperation :=
      { action := .del, objtype := type, field := .unset, objnum := objnum,
        payload := .null }
    let cascaded : Option Basis :=
      match type with
      | .sidedefs => Basis.unbindLoop objnum basis.doc.linedefs.length basis
      | .vertices => Basis.vertexLoop del objnum basis.doc.linedefs.length basis
      | .sectors => Basis.sectorLoop del objnum basis.doc.sidedefs.length basis
      | _ => some basis
    cascaded.bind fun basis =>
      if !basis.mCurrentGroup.isActive then none
      else basis.addApply op

/-- Source `Basis::del`.  The recursion of the source is at most three calls
deep (sector, sidedef, and no further), so the body is unrolled three times;
`Basis.del_unfold` below shows that this is the recursive function. -/
def Basis.del (type : ObjType) (objnum : Int) (basis : Basis) : Option Basis :=
  Basis.delWith (Basis.delWith (Basis.delWith fun _ _ _ => none)) type objnum basis

/-- Source `Basis::undo`: the returned flag and the new state. -/
def Basis.undo (basis : Basis) : Option (Bool × Basis) :=
  match basis.mUndoHistory with
  | [] => some (false, basis)
  | grp :: rest =>
    let basis : Basis := basis.doClearChangeStatus
    let basis : Basis := { basis with mUndoHistory := rest }
    let basis : Basis :=
      { basis with
        listener := basis.listener ++ [Event.basisSetStatus ("UNDO: " ++ grp.getMessage)] }
    match grp.reapply basis with
    | none => none
    | some (grp, basis) =>
      let basis : Basis := { basis with mRedoFuture := grp :: basis.mRedoFuture }
      some (true, basis.doProcessChangeStatus)

/-- Source `Basis::redo`. -/
def Basis.redo (basis : Basis) : Option (Bool × Basis) :=
  match basis.mRedoFuture with
  | [] => some (false, basis)
  | grp :: rest =>
    let basis : Basis := basis.doClearChangeStatus
    let basis : Basis := { basis with mRedoFuture := rest }
    let basis : Basis :=
      { basis with
        listener := basis.listener ++ [Event.basisSetStatus ("Redo: " ++ grp.getMessage)] }
    match grp.reapply basis with
    | none => none
    | some (grp, basis) =>
      let basis : Basis := { basis with mUndoHistory := grp :: basis.mUndoHistory }
      some (true, basis.doProcessChangeStatus)

/-- Source `Basis::clearAll`. -/
def Basis.clearAll (basis : Basis) : Basis :=
  { basis with
    doc :=
      { things := [], vertices := [], sectors := [], sidedefs := [], linedefs := [],
        headerData := [], behaviorData := [], scriptsData := [] }
    mUndoHistory := []
    mRedoFuture := [] }

/-! ## Sequences of calls inside a group -/

/-- One call of the editing API made between `begin` and `end`. -/
inductive Cmd where
  | addNew (type : ObjType)
  | del (type : ObjType) (objnum : Int)
  | changeThing (thing : Int) (field : ThingField) (value : Int)
  | changeVertex (vert : Int) (field : VertexField) (value : Int)
  | changeSector (sec : Int) (field : SectorField) (value : Int)
  | changeSidedef (side : Int) (field : SideDefField) (value : Int)
  | changeLinedef (line : Int) (field : LineDefField) (value : Int)
  deriving DecidableEq, Repr

/-- Perform one call. -/
def Cmd.run (dflt : Defaults) (c : Cmd) (basis : Basis) : Option Basis :=
  match c with
  | .addNew type => (basis.addNew dflt type).map fun r => r.2
  | .del type objnum => Basis.del type objnum basis
  | .changeThing n f v => basis.changeThing n f v
  | .changeVertex n f v => basis.changeVertex n f v
  | .changeSector n f v => basis.changeSector n f v
  | .changeSidedef n f v => basis.changeSidedef n f v
  | .changeLinedef n f v => basis.changeLinedef n f v

/-- Perform the calls one after the other. -/
def Cmd.runAll (dflt : Defaults) : List Cmd → Basis → Option Basis
  | [], basis => some basis
  | c :: cs, basis => (c.run dflt basis).bind (Cmd.runAll dflt cs)

/-- The object index of the call is in range for the document. -/
def Cmd.InRange (doc : Document) : Cmd → Prop
  | .addNew _ => True
  | .del type objnum => 0 ≤ objnum ∧ objnum < doc.numObjects type
  | .changeThing n _ _ => 0 ≤ n ∧ n < doc.numThings
  | .changeVertex n _ _ => 0 ≤ n ∧ n < doc.numVertices
  | .changeSector n _ _ => 0 ≤ n ∧ n < doc.numSectors
  | .changeSidedef n _ _ => 0 ≤ n ∧ n < doc.numSidedefs
  | .changeLinedef n _ _ => 0 ≤ n ∧ n < doc.numLinedefs

/-- Every call of the sequence has its index in range for the document it
is issued on.  Nothing is asked of the calls that follow a fatal one. -/
def Cmd.AllInRange (dflt : Defaults) : List Cmd → Basis → Prop
  | [], _ => True
  | c :: cs, basis =>
    c.InRange basis.doc ∧
      match c.run dflt basis with
      | none => True
      | some basis' => Cmd.AllInRange dflt cs basis'

/-- The bracket `begin(); calls; end()`. -/
def Basis.transaction (dflt : Defaults) (cmds : List Cmd) (basis : Basis) : Option Basis :=
  (basis.begin.bind (Cmd.runAll dflt cmds)).bind Basis.end_

/-- Every sidedef is bound to an existing sector. -/
def Document.SectorsOk (doc : Document) : Prop :=
  ∀ S ∈ doc.sidedefs, 0 ≤ S.sector ∧ S.sector < doc.numSectors

/-- Every linedef runs between two existing, distinct vertices. -/
def Document.VerticesOk (doc : Document) : Prop :=
  ∀ L ∈ doc.linedefs,
    0 ≤ L.start ∧ L.start < doc.numVertices ∧
    0 ≤ L.end_ ∧ L.end_ < doc.numVertices ∧ L.start ≠ L.end_

/-- Every side of a linedef is `-1` or an existing sidedef. -/
def Document.SidesOk (doc : Document) : Prop :=
  ∀ L ∈ doc.linedefs,
    (L.right = -1 ∨ (0 ≤ L.right ∧ L.right < doc.numSidedefs)) ∧
    (L.left = -1 ∨ (0 ≤ L.left ∧ L.left < doc.numSidedefs))

/-- The referential invariants of the data model. -/
def Document.Valid (doc : Document) : Prop :=
  doc.SectorsOk ∧ doc.VerticesOk ∧ doc.SidesOk


/-! ## String table -/

/-- Modelled from the spec: the string table (`StringTable`, whose
definition is not among the sources): the strings stored so far, the
handle of a string being its position. -/
structure StringTable where
  strs : List String
  deriving DecidableEq, Repr

/-- Modelled from the spec: `intern(string) -> handle` (`StringTable::add`)
returns the existing handle if the exact string was already stored,
otherwise stores it and returns a new handle. -/
def StringTable.add (tab : StringTable) (str : String) : Int × StringTable :=
  if str ∈ tab.strs then (tab.strs.indexOf str, tab)
  else (tab.strs.length, { strs := tab.strs ++ [str] })

/-- Modelled from the spec: `resolve(handle) -> string` (`StringTable::get`),
the inverse of `intern`; a handle never returned resolves to the empty
string. -/
def StringTable.get (tab : StringTable) (offset : Int) : String :=
  if 0 ≤ offset then tab.strs.getD offset.toNat "" else ""

/-- The program state the string functions and `clearAll` act on: the basis
of the instance and the global `basis_strtab`. -/
structure Program where
  basis : Basis
  basis_strtab : StringTable

/-- Source `BA_InternaliseString`: the handle and the new state. -/
def BA_InternaliseString (str : String) (p : Program) : Int × Program :=
  ((p.basis_strtab.add str).1, { p with basis_strtab := (p.basis_strtab.add str).2 })

/-- Source `BA_GetString`. -/
def BA_GetString (offset : Int) (p : Program) : String :=
  p.basis_strtab.get offset

/-- Source `Basis::clearAll` as a step of the program: it has no statement
on `global::basis_strtab`. -/
def Program.clearAll (p : Program) : Program :=
  { p with basis := p.basis.clearAll }

/-! ## Auxiliary notions for the proofs -/

/-- The listener call made by applying the operation. -/
def EditOperation.event (op : EditOperation) : Event :=
  match op.action with
  | .change => Event.basisNotifyChange op.objtype op.objnum op.field
  | .del => Event.basisNotifyDelete op.objtype op.objnum
  | .insert => Event.basisNotifyInsert op.objtype op.objnum

/-- The switch of `rawChange` as a function of the document alone. -/
def EditOperation.changeDoc (op : EditOperation) (doc : Document) : Option (Document × Int) :=
  match op.objtype, op.field, op.payload with
  | .things, .thing f, .value v =>
    if 0 ≤ op.objnum ∧ op.objnum < doc.numThings then
      (swapField Thing.get Thing.set doc.things op.objnum.toNat f v).map
        fun r => ({ doc with things := r.1 }, r.2)
    else none
  | .vertices, .vertex f, .value v =>
    if 0 ≤ op.objnum ∧ op.objnum < doc.numVertices then
      (swapField Vertex.get Vertex.set doc.vertices op.objnum.toNat f v).map
        fun r => ({ doc with vertices := r.1 }, r.2)
    else none
  | .sectors, .sector f, .value v =>
    if 0 ≤ op.objnum ∧ op.objnum < doc.numSectors then
      (swapField Sector.get Sector.set doc.sectors op.objnum.toNat f v).map
        fun r => ({ doc with sectors := r.1 }, r.2)
    else none
  | .sidedefs, .side f, .value v =>
    if 0 ≤ op.objnum ∧ op.objnum < doc.numSidedefs then
      (swapField SideDef.get SideDef.set doc.sidedefs op.objnum.toNat f v).map
        fun r => ({ doc with sidedefs := r.1 }, r.2)
    else none
  | .linedefs, .line f, .value v =>
    if 0 ≤ op.objnum ∧ op.objnum < doc.numLinedefs then
      (swapField LineDef.get LineDef.set doc.linedefs op.objnum.toNat f v).map
        fun r => ({ doc with linedefs := r.1 }, r.2)
    else none
  | _, _, _ => none

/-- The switch of `rawDelete` as a function of the document alone. -/
def EditOperation.deleteDoc (op : EditOperation) (doc : Document) : Option (Payload × Document) :=
  match op.objtype with
  | .things => (op.rawDeleteThing doc).map fun r => (Payload.thing r.1, r.2)
  | .vertices => (op.rawDeleteVertex doc).map fun r => (Payload.vertex r.1, r.2)
  | .sectors => (op.rawDeleteSector doc).map fun r => (Payload.sector r.1, r.2)
  | .sidedefs => (op.rawDeleteSidedef doc).map fun r => (Payload.sidedef r.1, r.2)
  | .linedefs => (op.rawDeleteLinedef doc).map fun r => (Payload.linedef r.1, r.2)

/-- The switch of `rawInsert` as a function of the document alone. -/
def EditOperation.insertDoc (op : EditOperation) (doc : Document) : Option Document :=
  match op.objtype, op.payload with
  | .things, .thing t => op.rawInsertThing t doc
  | .vertices, .vertex v => op.rawInsertVertex v doc
  | .sidedefs, .sidedef s => op.rawInsertSidedef s doc
  | .sectors, .sector s => op.rawInsertSector s doc
  | .linedefs, .linedef l => op.rawInsertLinedef l doc
  | _, _ => none

/-- What `apply` does to the operation and to the document. -/
def EditOperation.applyDoc (op : EditOperation) (doc : Document) :
    Option (EditOperation × Document) :=
  match op.action with
  | .change => (op.changeDoc doc).map fun r => ({ op with payload := Payload.value r.2 }, r.1)
  | .del =>
    (op.deleteDoc doc).map fun r =>
      ({ op with payload := r.1, action := EditType.insert }, r.2)
  | .insert =>
    (op.insertDoc doc).map fun d =>
      ({ op with payload := Payload.null, action := EditType.del }, d)

/-- The state of the basis after operations took the document to `doc` and
made the listener calls `evs`, one call for each operation. -/
def Basis.moved (basis : Basis) (doc : Document) (evs : List Event) : Basis :=
  { basis with
    doc := doc
    mDidMakeChanges := basis.mDidMakeChanges || !evs.isEmpty
    listener := basis.listener ++ evs }


/-- The forward replay as a function of the document alone. -/
def applyForwardDoc : List EditOperation → Document → Option (List EditOperation × Document)
  | [], doc => some ([], doc)
  | op :: ops, doc =>
    match op.applyDoc doc with
    | none => none
    | some (op', doc') =>
      match applyForwardDoc ops doc' with
      | none => none
      | some (ops', doc'') => some (op' :: ops', doc'')

/-- The backward replay as a function of the document alone. -/
def applyBackwardDoc (ops : List EditOperation) (doc : Document) :
    Option (List EditOperation × Document) :=
  (applyForwardDoc ops.reverse doc).map fun r => (r.1.reverse, r.2)

/-- Applying `op` takes `d` to `d'` and flips `op` to `op'`, and applying
`op'` takes `d'` back to `d` and flips `op'` back to `op`. -/
def Inverts (d : Document) (op : EditOperation) (d' : Document) (op' : EditOperation) : Prop :=
  op.applyDoc d = some (op', d') ∧ op'.applyDoc d' = some (op, d)

/-- The stored operations `ops` record a passage from `d0` to `d1`: replayed
backward they lead from `d1` to `d0` and become `ops0`, and `ops0` replayed
forward lead from `d0` to `d1` and become `ops` again. -/
structure Seg (d0 : Document) (ops0 ops : List EditOperation) (d1 : Document) : Prop where
  back : applyBackwardDoc ops d1 = some (ops0, d0)
  forth : applyForwardDoc ops0 d0 = some (ops, d1)

/-- Between `b` and `b'` the current group grew by the operations `ops`,
which record the passage from the document of `b` to that of `b'`; the rest
of the group and the two stacks are as they were. -/
structure Basis.Grew (b : Basis) (ops0 ops : List EditOperation) (b' : Basis) : Prop where
  mOps : b'.mCurrentGroup.mOps = b.mCurrentGroup.mOps ++ ops
  seg : Seg b.doc ops0 ops b'.doc
  mDir : b'.mCurrentGroup.mDir = b.mCurrentGroup.mDir
  mMessage : b'.mCurrentGroup.mMessage = b.mCurrentGroup.mMessage
  mUndoHistory : b'.mUndoHistory = b.mUndoHistory
  mRedoFuture : b'.mRedoFuture = b.mRedoFuture

/-- No object of the document refers to object `n` of the given kind. -/
def Document.Unreferenced (doc : Document) : ObjType → Int → Prop
  | .vertices, n => ∀ L ∈ doc.linedefs, L.start ≠ n ∧ L.end_ ≠ n
  | .sidedefs, n => ∀ L ∈ doc.linedefs, L.right ≠ n ∧ L.left ≠ n
  | .sectors, n => ∀ S ∈ doc.sidedefs, S.sector ≠ n
  | _, _ => True

/-- The document with the default object of the given kind added at the end
of its collection. -/
def Document.pushed (doc : Document) (dflt : Defaults) : ObjType → Document
  | .things => { doc with things := doc.things ++ [dflt.thing] }
  | .vertices => { doc with vertices := doc.vertices ++ [dflt.vertex] }
  | .sidedefs => { doc with sidedefs := doc.sidedefs ++ [dflt.sidedef] }
  | .linedefs => { doc with linedefs := doc.linedefs ++ [dflt.linedef] }
  | .sectors => { doc with sectors := doc.sectors ++ [dflt.sector] }

/-- The operation `addNew` builds for the given kind. -/
def Basis.newOp (dflt : Defaults) (doc : Document) : ObjType → EditOperation
  | .things =>
    { action := .insert, objtype := .things, field := .unset,
      objnum := doc.numThings, payload := .thing dflt.thing }
  | .vertices =>
    { action := .insert, objtype := .vertices, field := .unset,
      objnum := doc.numVertices, payload := .vertex dflt.vertex }
  | .sidedefs =>
    { action := .insert, objtype := .sidedefs, field := .unset,
      objnum := doc.numSidedefs, payload := .sidedef dflt.sidedef }
  | .linedefs =>
    { action := .insert, objtype := .linedefs, field := .unset,
      objnum := doc.numLinedefs, payload := .linedef dflt.linedef }
  | .sectors =>
    { action := .insert, objtype := .sectors, field := .unset,
      objnum := doc.numSectors, payload := .sector dflt.sector }

/-- The operation `del` builds for the primary object. -/
def Basis.delOp (type : ObjType) (objnum : Int) : EditOperation :=
  { action := .del, objtype := type, field := .unset, objnum := objnum, payload := .null }

/-- The operation `change` builds. -/
def Basis.changeOp (type : ObjType) (objnum : Int) (field : ItemField) (value : Int) :
    EditOperation :=
  { action := .change, objtype := type, field := field, objnum := objnum,
    payload := .value value }

/-- What the raw deletion of object `n` of the given kind does to the
document: the object leaves its collection and, unless it was the last one,
the references above `n` are shifted down. -/
def Document.erased (doc : Document) (type : ObjType) (n : Int) : Document :=
  match type with
  | .things => { doc with things := doc.things.eraseIdx n.toNat }
  | .linedefs => { doc with linedefs := doc.linedefs.eraseIdx n.toNat }
  | .sidedefs =>
    { doc with
      sidedefs := doc.sidedefs.eraseIdx n.toNat
      linedefs :=
        if n + 1 < doc.numSidedefs then doc.linedefs.map (LineDef.sidedefDeleted n)
        else doc.linedefs }
  | .vertices =>
    { doc with
      vertices := doc.vertices.eraseIdx n.toNat
      linedefs :=
        if n + 1 < doc.numVertices then doc.linedefs.map (LineDef.vertexDeleted n)
        else doc.linedefs }
  | .sectors =>
    { doc with
      sectors := doc.sectors.eraseIdx n.toNat
      sidedefs :=
        if n + 1 < doc.numSectors then doc.sidedefs.map (SideDef.sectorDeleted n)
        else doc.sidedefs }

/-- The linedef after the sidedef cascade of `del` for sidedef `n`: a side
equal to `n` becomes `-1`. -/
def LineDef.unbound (n : Int) (L : LineDef) : LineDef :=
  let L := if L.right = n then L.set .right (-1) else L
  if L.left = n then L.set .left (-1) else L

/-- The document after `del(sidedefs, n)`: unbind, then erase. -/
def Document.withoutSidedef (doc : Document) (n : Int) : Document :=
  Document.erased { doc with linedefs := doc.linedefs.map (LineDef.unbound n) } .sidedefs n

/-- The document after the sector cascade of `del` has visited the sidedefs
below `k`, from the highest to the lowest. -/
def Document.sectorLoop (objnum : Int) : Nat → Document → Document
  | 0, doc => doc
  | k + 1, doc =>
    match doc.sidedefs[k]? with
    | none => doc
    | some S =>
      if S.sector = objnum then Document.sectorLoop objnum k (doc.withoutSidedef k)
      else Document.sectorLoop objnum k doc

/-- The document after the cascade of `del(type, n)`, before the primary
object is erased. -/
def Document.cascaded (doc : Document) (type : ObjType) (n : Int) : Document :=
  match type with
  | .sidedefs => { doc with linedefs := doc.linedefs.map (LineDef.unbound n) }
  | .vertices =>
    { doc with linedefs := doc.linedefs.filter fun L => !decide (L.start = n ∨ L.end_ = n) }
  | .sectors => Document.sectorLoop n doc.sidedefs.length doc
  | _ => doc

/-- The document after `del(type, n)`. -/
def Document.deleted (doc : Document) (type : ObjType) (n : Int) : Document :=
  (doc.cascaded type n).erased type n

/-- No group is open and the current group is in the state `reset` leaves
it in; this is the state of the basis outside a begin/end bracket. -/
def Basis.Idle (b : Basis) : Prop :=
  b.mCurrentGroup.mDir = 0 ∧ b.mCurrentGroup.mOps = []

/-- The calls of a bracket have their indices in range, from the state
`begin` leaves. -/
def Basis.TxInRange (dflt : Defaults) (cmds : List Cmd) (b : Basis) : Prop :=
  match b.begin with
  | none => True
  | some b1 => Cmd.AllInRange dflt cmds b1

/-- The undo stack fits the document: the top group is closed and records a
passage that ends at the document, and the rest of the stack fits the
document that passage started from. -/
def Undoable : Document → List UndoGroup → Prop
  | _, [] => True
  | d, g :: rest => g.mDir = -1 ∧ ∃ ops0 d0, Seg d0 ops0 g.mOps d ∧ Undoable d0 rest

/-- The redo stack fits the document: the top group is an undone one whose
passage starts at the document, and the rest of the stack fits the document
that passage ends at. -/
def Redoable : Document → List UndoGroup → Prop
  | _, [] => True
  | d, g :: rest => g.mDir = 1 ∧ ∃ ops d1, Seg d g.mOps ops d1 ∧ Redoable d1 rest

/-- The state of a basis whose history was built by brackets, undo and redo
alone: idle, and both stacks fit the document. -/
def Basis.Consistent (b : Basis) : Prop :=
  b.Idle ∧ Undoable b.doc b.mUndoHistory ∧ Redoable b.doc b.mRedoFuture

/-- Call `undo` `n` times; the flag tells whether every call returned true. -/
def Basis.undoTimes : Nat → Basis → Option (Bool × Basis)
  | 0, b => some (true, b)
  | n + 1, b =>
    match b.undo with
    | none => none
    | some (ok, b') => (Basis.undoTimes n b').map fun r => (ok && r.1, r.2)

/-- Call `redo` `n` times; the flag tells whether every call returned true. -/
def Basis.redoTimes : Nat → Basis → Option (Bool × Basis)
  | 0, b => some (true, b)
  | n + 1, b =>
    match b.redo with
    | none => none
    | some (ok, b') => (Basis.redoTimes n b').map fun r => (ok && r.1, r.2)

/-- Perform the brackets one after the other; the documents reached after
each of them are collected, the first bracket first. -/
def Basis.transactions (dflt : Defaults) : List (List Cmd) → Basis → Option (List Document × Basis)
  | [], b => some ([], b)
  | cmds :: rest, b =>
    match b.transaction dflt cmds with
    | none => none
    | some b1 => (Basis.transactions dflt rest b1).map fun r => (b1.doc :: r.1, r.2)

/-- Every bracket of the list is non-empty and has its indices in range. -/
def Basis.TxsInRange (dflt : Defaults) : List (List Cmd) → Basis → Prop
  | [], _ => True
  | cmds :: rest, b =>
    cmds ≠ [] ∧ b.TxInRange dflt cmds ∧
      match b.transaction dflt cmds with
      | none => True
      | some b1 => Basis.TxsInRange dflt rest b1

/-- A newly constructed basis over the given document: no group is open and
both stacks are empty. -/
def Basis.fresh (doc : Document) : Basis :=
  { doc := doc
    mCurrentGroup := { mOps := [], mMessage := DEFAULT_UNDO_GROUP_MESSAGE, mDir := 0 }
    mUndoHistory := []
    mRedoFuture := []
    mDidMakeChanges := false
    listener := [] }

instance Cmd.decInRange (doc : Document) : (c : Cmd) → Decidable (c.InRange doc)
  | .addNew _ => inferInstanceAs (Decidable True)
  | .del type objnum => inferInstanceAs (Decidable (0 ≤ objnum ∧ objnum < doc.numObjects type))
  | .changeThing n _ _ => inferInstanceAs (Decidable (0 ≤ n ∧ n < doc.numThings))
  | .changeVertex n _ _ => inferInstanceAs (Decidable (0 ≤ n ∧ n < doc.numVertices))
  | .changeSector n _ _ => inferInstanceAs (Decidable (0 ≤ n ∧ n < doc.numSectors))
  | .changeSidedef n _ _ => inferInstanceAs (Decidable (0 ≤ n ∧ n < doc.numSidedefs))
  | .changeLinedef n _ _ => inferInstanceAs (Decidable (0 ≤ n ∧ n < doc.numLinedefs))

instance Cmd.decAllInRange (dflt : Defaults) :
    (cmds : List Cmd) → (b : Basis) → Decidable (Cmd.AllInRange dflt cmds b)
  | [], _ => inferInstanceAs (Decidable True)
  | c :: cs, b =>
    match h : c.run dflt b with
    | none => decidable_of_iff (c.InRange b.doc) (by simp [Cmd.AllInRange, h])
    | some b' =>
      have := Cmd.decAllInRange dflt cs b'
      decidable_of_iff (c.InRange b.doc ∧ Cmd.AllInRange dflt cs b')
        (by simp [Cmd.AllInRange, h])

instance Basis.decIdle (b : Basis) : Decidable b.Idle :=
  inferInstanceAs (Decidable (b.mCurrentGroup.mDir = 0 ∧ b.mCurrentGroup.mOps = []))

instance Basis.decTxInRange (dflt : Defaults) (cmds : List Cmd) (b : Basis) :
    Decidable (b.TxInRange dflt cmds) :=
  match h : b.begin with
  | none => isTrue (by simp [Basis.TxInRange, h])
  | some b1 => decidable_of_iff (Cmd.AllInRange dflt cmds b1) (by simp [Basis.TxInRange, h])

/-- A linedef between two vertices with the given sides and no other
attribute. -/
def LineDef.simple (start end_ right left : Int) : LineDef :=
  { start := start, end_ := end_, right := right, left := left, flags := 0, type := 0,
    tag := 0, arg2 := 0, arg3 := 0, arg4 := 0, arg5 := 0 }

/-- A sidedef bound to the given sector, with no other attribute. -/
def SideDef.simple (sector : Int) : SideDef :=
  { x_offset := 0, y_offset := 0, upper_tex := 0, mid_tex := 0, lower_tex := 0,
    sector := sector }

/-- A sector of the given floor height, with no other attribute. -/
def Sector.simple (floorh : Int) : Sector :=
  { floorh := floorh, ceilh := 128, floor_tex := 0, ceil_tex := 0, light := 176, type := 0,
    tag := 0 }

/-- Sample default objects: all fields zero, both sides of a linedef absent. -/
def Defaults.sample : Defaults :=
  { thing :=
      { raw_x := 0, raw_y := 0, angle := 0, type := 0, options := 0, raw_h := 0, tid := 0,
        special := 0, arg1 := 0, arg2 := 0, arg3 := 0, arg4 := 0, arg5 := 0 }
    vertex := { raw_x := 0, raw_y := 0 }
    sidedef := SideDef.simple 0
    linedef := LineDef.simple 0 0 (-1) (-1)
    sector := Sector.simple 0 }

/-- A sample map: a triangle of three one-sided linedefs around sector 0, a
fourth vertex, and a two-sided linedef whose back faces sector 1. -/
def Document.sample : Document :=
  { things := []
    vertices :=
      [{ raw_x := 0, raw_y := 0 }, { raw_x := 64, raw_y := 0 }, { raw_x := 0, raw_y := 64 },
        { raw_x := 64, raw_y := 64 }]
    sidedefs := [SideDef.simple 0, SideDef.simple 0, SideDef.simple 0, SideDef.simple 1,
      SideDef.simple 0]
    linedefs :=
      [LineDef.simple 0 1 0 (-1), LineDef.simple 1 2 1 (-1), LineDef.simple 2 0 2 (-1),
        LineDef.simple 1 3 4 3]
    sectors := [Sector.simple 0, Sector.simple 8]
    headerData := []
    behaviorData := []
    scriptsData := [] }

/-- The undo stack `gs` fits the document `d`, and `ds` lists the documents
that successive undos reach, the nearest first. -/
def UndoChain : List Document → Document → List UndoGroup → Prop
  | [], _, [] => True
  | d0 :: ds, d, g :: gs => g.mDir = -1 ∧ ∃ ops0, Seg d0 ops0 g.mOps d ∧ UndoChain ds d0 gs
  | _, _, _ => False

/-- The redo stack `gs` fits the document `d`, and `ds` lists the documents
that successive redos reach, the nearest first. -/
def RedoChain : List Document → Document → List UndoGroup → Prop
  | [], _, [] => True
  | d1 :: ds, d, g :: gs => g.mDir = 1 ∧ ∃ ops, Seg d g.mOps ops d1 ∧ RedoChain ds d1 gs
  | _, _, _ => False

/-- What `reapply` does to the group and to the document. -/
def UndoGroup.reapplyDoc (g : UndoGroup) (doc : Document) : Option (UndoGroup × Document) :=
  (if g.mDir > 0 then applyForwardDoc g.mOps doc
    else if g.mDir < 0 then applyBackwardDoc g.mOps doc
    else some (g.mOps, doc)).map fun r => ({ g with mOps := r.1, mDir := -g.mDir }, r.2)

/-- The listener calls made by a replay of the group. -/
def UndoGroup.events (g : UndoGroup) : List Event :=
  if g.mDir > 0 then g.mOps.map EditOperation.event
  else if g.mDir < 0 then g.mOps.reverse.map EditOperation.event
  else []

instance Basis.decTxsInRange (dflt : Defaults) :
    (txs : List (List Cmd)) → (b : Basis) → Decidable (Basis.TxsInRange dflt txs b)
  | [], _ => inferInstanceAs (Decidable True)
  | cmds :: rest, b =>
    match h : b.transaction dflt cmds with
    | none =>
      decidable_of_iff (cmds ≠ [] ∧ b.TxInRange dflt cmds) (by simp [Basis.TxsInRange, h])
    | some b1 =>
      have := Basis.decTxsInRange dflt rest b1
      decidable_of_iff (cmds ≠ [] ∧ b.TxInRange dflt cmds ∧ Basis.TxsInRange dflt rest b1)
        (by simp [Basis.TxsInRange, h])

/-- A vertex at the given coordinates. -/
def Vertex.at (x y : Int) : Vertex := { raw_x := x, raw_y := y }

/-- A document holding only the given vertices, sidedefs, linedefs and
sectors. -/
def Document.ofMap (vertices : List Vertex) (sidedefs : List SideDef) (linedefs : List LineDef)
    (sectors : List Sector) : Document :=
  { things := [], vertices := vertices, sidedefs := sidedefs, linedefs := linedefs,
    sectors := sectors, headerData := [], behaviorData := [], scriptsData := [] }

/-- A basis over the given document with a group open, as `begin` leaves
it. -/
def Basis.opened (doc : Document) : Basis :=
  { doc := doc
    mCurrentGroup := { mOps := [], mMessage := DEFAULT_UNDO_GROUP_MESSAGE, mDir := 1 }
    mUndoHistory := []
    mRedoFuture := []
    mDidMakeChanges := false
    listener := [Event.basisNotifyBegin] }

instance Document.decSectorsOk (doc : Document) : Decidable doc.SectorsOk :=
  inferInstanceAs (Decidable (∀ S ∈ doc.sidedefs, 0 ≤ S.sector ∧ S.sector < doc.numSectors))

instance Document.decVerticesOk (doc : Document) : Decidable doc.VerticesOk :=
  inferInstanceAs (Decidable (∀ L ∈ doc.linedefs,
    0 ≤ L.start ∧ L.start < doc.numVertices ∧
    0 ≤ L.end_ ∧ L.end_ < doc.numVertices ∧ L.start ≠ L.end_))

instance Document.decSidesOk (doc : Document) : Decidable doc.SidesOk :=
  inferInstanceAs (Decidable (∀ L ∈ doc.linedefs,
    (L.right = -1 ∨ (0 ≤ L.right ∧ L.right < doc.numSidedefs)) ∧
    (L.left = -1 ∨ (0 ≤ L.left ∧ L.left < doc.numSidedefs))))

instance Document.decValid (doc : Document) : Decidable doc.Valid :=
  inferInstanceAs (Decidable (doc.SectorsOk ∧ doc.VerticesOk ∧ doc.SidesOk))

/-- The map of the cascade example: sector 0 with the sidedefs 0 and 1 bound
to it, sidedef 2 bound to sector 1; linedef 0 has sidedef 0 on its right,
linedef 1 has sidedef 2 on its right and sidedef 1 on its left. -/
def Document.cascadeExample : Document :=
  Document.ofMap [Vertex.at 0 0, Vertex.at 64 0, Vertex.at 64 64]
    [SideDef.simple 0, SideDef.simple 0, SideDef.simple 1]
    [LineDef.simple 0 1 0 (-1), LineDef.simple 1 2 2 1]
    [Sector.simple 0, Sector.simple 8]

/-- The call cannot break a reference: it deletes, it adds an object that
holds no reference, or it changes a field that is not a reference. -/
def Cmd.KeepsRefs : Cmd → Prop
  | .addNew type => type = .things ∨ type = .vertices ∨ type = .sectors
  | .del _ _ => True
  | .changeThing _ _ _ => True
  | .changeVertex _ _ _ => True
  | .changeSector _ _ _ => True
  | .changeSidedef _ f _ => f ≠ .sector
  | .changeLinedef _ f _ => f ≠ .start ∧ f ≠ .end_ ∧ f ≠ .right ∧ f ≠ .left

instance Cmd.decKeepsRefs : (c : Cmd) → Decidable c.KeepsRefs
  | .addNew type =>
    inferInstanceAs (Decidable (type = .things ∨ type = .vertices ∨ type = .sectors))
  | .del _ _ => inferInstanceAs (Decidable True)
  | .changeThing _ _ _ => inferInstanceAs (Decidable True)
  | .changeVertex _ _ _ => inferInstanceAs (Decidable True)
  | .changeSector _ _ _ => inferInstanceAs (Decidable True)
  | .changeSidedef _ f _ => inferInstanceAs (Decidable (f ≠ .sector))
  | .changeLinedef _ f _ =>
    inferInstanceAs (Decidable (f ≠ .start ∧ f ≠ .end_ ∧ f ≠ .right ∧ f ≠ .left))

/-- The open bracket `begin(); calls`, before `end` or `abort`. -/
def Basis.bracket (dflt : Defaults) (cmds : List Cmd) (basis : Basis) : Option Basis :=
  basis.begin.bind (Cmd.runAll dflt cmds)

/-- The value of field `field` of object `n` of the given kind, when there
is such an object and the selector is one of its kind. -/
def Document.getField (doc : Document) : ObjType → Nat → ItemField → Option Int
  | .things, n, .thing f => doc.things[n]?.map fun x => x.get f
  | .vertices, n, .vertex f => doc.vertices[n]?.map fun x => x.get f
  | .sectors, n, .sector f => doc.sectors[n]?.map fun x => x.get f
  | .sidedefs, n, .side f => doc.sidedefs[n]?.map fun x => x.get f
  | .linedefs, n, .line f => doc.linedefs[n]?.map fun x => x.get f
  | _, _, _ => none

/-- A sample state with a non-empty redo stack: on a new basis over the
sample map, one bracket deleting vertex 1 and then one `undo`. -/
def Basis.sampleUndone : Basis :=
  (((Basis.fresh Document.sample).transaction Defaults.sample [.del .vertices 1]).bind
    fun b => b.undo.map fun r => r.2).getD (Basis.fresh Document.sample)

/-- A sample state with a non-empty undo stack and an empty redo stack: on a
new basis over the sample map, one bracket deleting vertex 1. -/
def Basis.sampleEdited : Basis :=
  ((Basis.fresh Document.sample).transaction Defaults.sample [.del .vertices 1]).getD
    (Basis.fresh Document.sample)

/-- A sample state inside a bracket: the sample map with a group open in
which vertex 1 was deleted. -/
def Basis.sampleOpenEdited : Basis :=
  (Basis.del .vertices 1 (Basis.opened Document.sample)).getD (Basis.opened Document.sample)

/-- The listener call reports one edit (a changed item, a change, an
insertion or a deletion), as opposed to the begin or the end of a group, a
status text, or the signal that changes were made. -/
def Event.isEdit : Event → Bool
  | .basisOnChangeItem _ _ _ => true
  | .basisNotifyChange _ _ _ => true
  | .basisNotifyDelete _ _ => true
  | .basisNotifyInsert _ _ => true
  | _ => false

/-- Between `b` and `b'` the operations `ops` were appended to the current
group and the listener calls `evs` were made, each of them reporting one
edit; the change flag is raised as soon as one operation was applied. -/
structure Basis.Traced (b : Basis) (ops : List EditOperation) (evs : List Event)
    (b' : Basis) : Prop where
  mOps : b'.mCurrentGroup.mOps = b.mCurrentGroup.mOps ++ ops
  listener : b'.listener = b.listener ++ evs
  edits : ∀ e ∈ evs, e.isEdit = true
  dirty : b'.mDidMakeChanges = (b.mDidMakeChanges || !ops.isEmpty)

/-- The action an operation has after `apply`: insert and delete are
exchanged, change stays. -/
def EditType.flip : EditType → EditType
  | .change => .change
  | .insert => .del
  | .del => .insert

/-- The stored operation is a change of the right or the left side of a
linedef. -/
def EditOperation.isSideChange (op : EditOperation) : Bool :=
  op.action == .change && op.objtype == .linedefs &&
    (op.field == .line .right || op.field == .line .left)

/-- The stored operation is an applied deletion of an object of the given
kind: `apply` has flipped its action to insert. -/
def EditOperation.isDeletion (type : ObjType) (op : EditOperation) : Bool :=
  op.action == .insert && op.objtype == type

/-- What the cascade of `del(type, _)` may append to the group: for a sidedef
changes of linedef sides, for a vertex deletions of linedefs in strictly
decreasing index order, for a sector changes of linedef sides and deletions
of sidedefs, these in strictly decreasing index order, and nothing for a
thing or a linedef. -/
def CascadeOk : ObjType → List EditOperation → Prop
  | .sidedefs, casc => ∀ op ∈ casc, op.isSideChange = true
  | .vertices, casc =>
    (∀ op ∈ casc, op.isDeletion .linedefs = true) ∧
      casc.Pairwise fun a b => a.objnum > b.objnum
  | .sectors, casc =>
    (∀ op ∈ casc, op.isSideChange = true ∨ op.isDeletion .sidedefs = true) ∧
      (casc.filter (EditOperation.isDeletion .sidedefs)).Pairwise
        fun a b => a.objnum > b.objnum
  | _, casc => casc = []

/-- Every successful call of `r` appends a cascade of the allowed form and
then, last, the deletion of the object itself. -/
def Shaped (r : ObjType → Int → Basis → Option Basis) : Prop :=
  ∀ type n b b', r type n b = some b' →
    ∃ casc prim evs, b.Traced (casc ++ [prim]) evs b' ∧ prim.isDeletion type = true ∧
      prim.objnum = n ∧ CascadeOk type casc

/-- The collection of the given kind, each object as the payload an
operation would hold it in. -/
def Document.objects (doc : Document) : ObjType → List Payload
  | .things => doc.things.map Payload.thing
  | .linedefs => doc.linedefs.map Payload.linedef
  | .sidedefs => doc.sidedefs.map Payload.sidedef
  | .vertices => doc.vertices.map Payload.vertex
  | .sectors => doc.sectors.map Payload.sector

/-- The kind of object a payload holds, if it holds one. -/
def Payload.kind : Payload → Option ObjType
  | .thing _ => some .things
  | .linedef _ => some .linedefs
  | .sidedef _ => some .sidedefs
  | .vertex _ => some .vertices
  | .sector _ => some .sectors
  | _ => none

/-- A run of `undo` (`true`) and `redo` (`false`) calls, one after the
other. -/
def Basis.replay : List Bool → Basis → Option Basis
  | [], b => some b
  | true :: steps, b => b.undo.bind fun r => Basis.replay steps r.2
  | false :: steps, b => b.redo.bind fun r => Basis.replay steps r.2

/-! ## Lemmas -/

/-- `begin` on a new basis gives the opened basis used in the examples. -/
theorem Basis.begin_fresh (doc : Document) : (Basis.fresh doc).begin = some (Basis.opened doc) :=
  rfl

theorem EditOperation.rawChange_eq (op : EditOperation) (basis : Basis) :
    op.rawChange basis =
      (op.changeDoc basis.doc).map fun r =>
        ({ op with payload := Payload.value r.2 },
          basis.moved r.1 [Event.basisNotifyChange op.objtype op.objnum op.field]) := by
  have h : op.rawChange basis =
      match op.changeDoc basis.doc with
      | none => none
      | some (doc, value) =>
        some ({ op with payload := Payload.value value },
          { basis with
            doc := doc
            mDidMakeChanges := true
            listener := basis.listener ++
              [Event.basisNotifyChange op.objtype op.objnum op.field] }) := rfl
  rw [h]
  cases op.changeDoc basis.doc <;> simp [Basis.moved]

theorem EditOperation.rawDelete_eq (op : EditOperation) (basis : Basis) :
    op.rawDelete basis =
      (op.deleteDoc basis.doc).map fun r =>
        (r.1, basis.moved r.2 [Event.basisNotifyDelete op.objtype op.objnum]) := by
  unfold EditOperation.rawDelete EditOperation.deleteDoc
  cases op.objtype <;> simp [Option.map_map, Basis.moved, Function.comp_def]

theorem EditOperation.rawInsert_eq (op : EditOperation) (basis : Basis) :
    op.rawInsert basis =
      (op.insertDoc basis.doc).map fun d =>
        basis.moved d [Event.basisNotifyInsert op.objtype op.objnum] := by
  unfold EditOperation.rawInsert EditOperation.insertDoc
  cases op.objtype <;> cases op.payload <;> simp [Basis.moved]

theorem EditOperation.apply_eq (op : EditOperation) (basis : Basis) :
    op.apply basis =
      (op.applyDoc basis.doc).map fun r => (r.1, basis.moved r.2 [op.event]) := by
  unfold EditOperation.apply EditOperation.applyDoc EditOperation.event
  cases hact : op.action
  · simp only [EditOperation.rawChange_eq, Option.map_map, hact]; rfl
  · simp only [EditOperation.rawInsert_eq, Option.map_map]; rfl
  · simp only [EditOperation.rawDelete_eq, Option.map_map]; rfl
theorem Basis.moved_nil (basis : Basis) : basis.moved basis.doc [] = basis := by
  cases basis; simp [Basis.moved]

theorem Basis.moved_moved (basis : Basis) (d1 d2 : Document) (e1 e2 : List Event) :
    (basis.moved d1 e1).moved d2 e2 = basis.moved d2 (e1 ++ e2) := by
  cases e1 <;> cases e2 <;> simp [Basis.moved]

@[simp] theorem Basis.moved_doc (basis : Basis) (d : Document) (e : List Event) :
    (basis.moved d e).doc = d := rfl

@[simp] theorem Basis.moved_mCurrentGroup (basis : Basis) (d : Document) (e : List Event) :
    (basis.moved d e).mCurrentGroup = basis.mCurrentGroup := rfl

@[simp] theorem Basis.moved_mUndoHistory (basis : Basis) (d : Document) (e : List Event) :
    (basis.moved d e).mUndoHistory = basis.mUndoHistory := rfl

@[simp] theorem Basis.moved_mRedoFuture (basis : Basis) (d : Document) (e : List Event) :
    (basis.moved d e).mRedoFuture = basis.mRedoFuture := rfl

theorem applyForward_eq (ops : List EditOperation) (basis : Basis) :
    applyForward ops basis =
      (applyForwardDoc ops basis.doc).map fun r =>
        (r.1, basis.moved r.2 (ops.map EditOperation.event)) := by
  induction ops generalizing basis with
  | nil => simp [applyForward, applyForwardDoc, Basis.moved_nil]
  | cons op ops ih =>
    simp only [applyForward, applyForwardDoc, EditOperation.apply_eq]
    cases h1 : op.applyDoc basis.doc with
    | none => simp
    | some r =>
      obtain ⟨op', d'⟩ := r
      simp only [Option.map_some', ih, Basis.moved_doc]
      cases h2 : applyForwardDoc ops d' with
      | none => simp
      | some r2 =>
        obtain ⟨ops', d''⟩ := r2
        simp [Basis.moved_moved]

theorem applyBackward_eq (ops : List EditOperation) (basis : Basis) :
    applyBackward ops basis =
      (applyBackwardDoc ops basis.doc).map fun r =>
        (r.1, basis.moved r.2 (ops.reverse.map EditOperation.event)) := by
  simp [applyBackward, applyBackwardDoc, applyForward_eq, Option.map_map, Function.comp_def]

theorem applyForwardDoc_cons (op : EditOperation) (ops : List EditOperation) (d : Document) :
    applyForwardDoc (op :: ops) d =
      (op.applyDoc d).bind fun r =>
        (applyForwardDoc ops r.2).map fun s => (r.1 :: s.1, s.2) := by
  rw [applyForwardDoc]
  cases h1 : op.applyDoc d with
  | none => rfl
  | some r =>
    obtain ⟨op', d'⟩ := r
    simp only [Option.some_bind]
    cases h2 : applyForwardDoc ops d' with
    | none => rfl
    | some r2 => rfl

theorem applyForwardDoc_append (a b : List EditOperation) (d : Document) :
    applyForwardDoc (a ++ b) d =
      (applyForwardDoc a d).bind fun r =>
        (applyForwardDoc b r.2).map fun s => (r.1 ++ s.1, s.2) := by
  induction a generalizing d with
  | nil => simp [applyForwardDoc]
  | cons op a ih =>
    simp only [List.cons_append, applyForwardDoc_cons, ih]
    cases h1 : op.applyDoc d with
    | none => simp
    | some r =>
      simp only [Option.some_bind]
      cases h2 : applyForwardDoc a r.2 with
      | none => simp
      | some r2 =>
        simp only [Option.some_bind, Option.map_some']
        cases h3 : applyForwardDoc b r2.2 with
        | none => simp
        | some r3 => simp

theorem applyBackwardDoc_append (a b : List EditOperation) (d : Document) :
    applyBackwardDoc (a ++ b) d =
      (applyBackwardDoc b d).bind fun s =>
        (applyBackwardDoc a s.2).map fun r => (r.1 ++ s.1, r.2) := by
  simp only [applyBackwardDoc, List.reverse_append, applyForwardDoc_append]
  cases h1 : applyForwardDoc b.reverse d with
  | none => simp
  | some r =>
    simp only [Option.some_bind, Option.map_some']
    cases h2 : applyForwardDoc a.reverse r.2 with
    | none => simp
    | some r2 => simp

theorem Seg.nil (d : Document) : Seg d [] [] d :=
  ⟨by simp [applyBackwardDoc, applyForwardDoc], by simp [applyForwardDoc]⟩

theorem Seg.single {d d' : Document} {op op' : EditOperation} (h : Inverts d op d' op') :
    Seg d [op] [op'] d' := by
  constructor
  · simp [applyBackwardDoc, applyForwardDoc, h.2]
  · simp [applyForwardDoc, h.1]

theorem Seg.append {d0 d1 d2 : Document} {a0 a b0 b : List EditOperation}
    (h1 : Seg d0 a0 a d1) (h2 : Seg d1 b0 b d2) : Seg d0 (a0 ++ b0) (a ++ b) d2 := by
  constructor
  · simp [applyBackwardDoc_append, h2.back, h1.back]
  · simp [applyForwardDoc_append, h1.forth, h2.forth]

theorem Basis.Grew.refl (b : Basis) : b.Grew [] [] b :=
  ⟨by simp, Seg.nil _, rfl, rfl, rfl, rfl⟩

theorem Basis.Grew.trans {b b1 b2 : Basis} {a0 a c0 c : List EditOperation}
    (h1 : b.Grew a0 a b1) (h2 : b1.Grew c0 c b2) : b.Grew (a0 ++ c0) (a ++ c) b2 :=
  ⟨by rw [h2.mOps, h1.mOps, List.append_assoc], h1.seg.append h2.seg,
    h2.mDir.trans h1.mDir, h2.mMessage.trans h1.mMessage,
    h2.mUndoHistory.trans h1.mUndoHistory, h2.mRedoFuture.trans h1.mRedoFuture⟩

theorem Basis.addApply_grew {b : Basis} {op op' : EditOperation} {d' : Document}
    (h : Inverts b.doc op d' op') :
    ∃ b', b.addApply op = some b' ∧ b.Grew [op] [op'] b' ∧ b'.doc = d' := by
  have e : b.addApply op = some
      { b.moved d' [op.event] with
        mCurrentGroup := { b.mCurrentGroup with mOps := b.mCurrentGroup.mOps ++ [op'] } } := by
    simp only [Basis.addApply, EditOperation.apply_eq, h.1, Option.map_some']
    rfl
  exact ⟨_, e, ⟨rfl, Seg.single h, rfl, rfl, rfl, rfl⟩, rfl⟩
theorem Thing.get_set_thing (t : Thing) (f : ThingField) (v : Int) : (t.set f v).get f = v := by
  cases f <;> rfl

theorem Thing.set_get_thing (t : Thing) (f : ThingField) (v : Int) :
    (t.set f v).set f (t.get f) = t := by
  cases t; cases f <;> rfl

theorem Vertex.get_set_vertex (t : Vertex) (f : VertexField) (v : Int) : (t.set f v).get f = v := by
  cases f <;> rfl

theorem Vertex.set_get_vertex (t : Vertex) (f : VertexField) (v : Int) :
    (t.set f v).set f (t.get f) = t := by
  cases t; cases f <;> rfl

theorem Sector.get_set_sector (t : Sector) (f : SectorField) (v : Int) : (t.set f v).get f = v := by
  cases f <;> rfl

theorem Sector.set_get_sector (t : Sector) (f : SectorField) (v : Int) :
    (t.set f v).set f (t.get f) = t := by
  cases t; cases f <;> rfl

theorem SideDef.get_set_sidedef (t : SideDef) (f : SideDefField) (v : Int) : (t.set f v).get f = v := by
  cases f <;> rfl

theorem SideDef.set_get_sidedef (t : SideDef) (f : SideDefField) (v : Int) :
    (t.set f v).set f (t.get f) = t := by
  cases t; cases f <;> rfl

theorem LineDef.get_set_linedef (t : LineDef) (f : LineDefField) (v : Int) : (t.set f v).get f = v := by
  cases f <;> rfl

theorem LineDef.set_get_linedef (t : LineDef) (f : LineDefField) (v : Int) :
    (t.set f v).set f (t.get f) = t := by
  cases t; cases f <;> rfl

theorem List.set_of_getElem? {α : Type} {xs : List α} {i : Nat} {x : α} (h : xs[i]? = some x) :
    xs.set i x = xs := by
  induction xs generalizing i with
  | nil => rfl
  | cons y ys ih =>
    cases i with
    | zero => simp at h; simp [h]
    | succ i => simp at h; simp [ih h]

theorem List.insertIdx_eraseIdx_of_getElem? {α : Type} {xs : List α} {i : Nat} {x : α}
    (h : xs[i]? = some x) : (xs.eraseIdx i).insertIdx i x = xs := by
  induction xs generalizing i with
  | nil => simp at h
  | cons y ys ih =>
    cases i with
    | zero => simp at h; simp [h]
    | succ i => simp at h; simp [ih h]

/-- Swapping a field with the value slot twice restores both. -/
theorem swapField_twice {α F : Type} {get : α → F → Int} {set : α → F → Int → α}
    (hgs : ∀ x f v, get (set x f v) f = v) (hss : ∀ x f v, set (set x f v) f (get x f) = x)
    {xs xs' : List α} {i : Nat} {f : F} {v v' : Int}
    (h : swapField get set xs i f v = some (xs', v')) :
    xs'.length = xs.length ∧ swapField get set xs' i f v' = some (xs, v) := by
  unfold swapField at h
  cases hx : xs[i]? with
  | none => simp [hx] at h
  | some x =>
    simp only [hx, Option.some.injEq, Prod.mk.injEq] at h
    obtain ⟨rfl, rfl⟩ := h
    have hi : i < xs.length := by
      rcases List.getElem?_eq_some_iff.mp hx with ⟨hi, _⟩
      exact hi
    have hxe : xs[i] = x := by
      rcases List.getElem?_eq_some_iff.mp hx with ⟨_, e⟩
      exact e
    refine ⟨by simp, ?_⟩
    unfold swapField
    have : (xs.set i (set x f v))[i]? = some (set x f v) := by
      simp [List.getElem?_set, hi]
    rw [this]
    simp only [hgs, hss, List.set_set, Option.some.injEq, Prod.mk.injEq, and_true]
    exact List.set_of_getElem? hx

theorem Inverts.change (op : EditOperation) {d d' : Document} {v' : Int}
    (hact : op.action = .change) (h : op.changeDoc d = some (d', v')) :
    Inverts d op d' { op with payload := Payload.value v' } := by
  obtain ⟨action, objtype, field, objnum, payload⟩ := op
  simp only at hact
  subst hact
  refine ⟨by simp [EditOperation.applyDoc, h], ?_⟩
  simp only [EditOperation.applyDoc]
  unfold EditOperation.changeDoc at h
  split at h
  · rename_i f v e1 e2 e3
    simp only at e1 e2 e3
    subst e1 e2 e3
    split at h
    · rename_i hr
      cases hs : swapField Thing.get Thing.set d.things objnum.toNat f v with
      | none => simp [hs] at h
      | some r =>
        simp only [hs, Option.map_some', Option.some.injEq, Prod.mk.injEq] at h
        obtain ⟨rfl, rfl⟩ := h
        obtain ⟨hl, hb⟩ := swapField_twice Thing.get_set_thing Thing.set_get_thing hs
        simp [EditOperation.changeDoc, Document.numThings, hl, hb]
        simpa [Document.numThings] using hr
    · simp at h
  · rename_i f v e1 e2 e3
    simp only at e1 e2 e3
    subst e1 e2 e3
    split at h
    · rename_i hr
      cases hs : swapField Vertex.get Vertex.set d.vertices objnum.toNat f v with
      | none => simp [hs] at h
      | some r =>
        simp only [hs, Option.map_some', Option.some.injEq, Prod.mk.injEq] at h
        obtain ⟨rfl, rfl⟩ := h
        obtain ⟨hl, hb⟩ := swapField_twice Vertex.get_set_vertex Vertex.set_get_vertex hs
        simp [EditOperation.changeDoc, Document.numVertices, hl, hb]
        simpa [Document.numVertices] using hr
    · simp at h
  · rename_i f v e1 e2 e3
    simp only at e1 e2 e3
    subst e1 e2 e3
    split at h
    · rename_i hr
      cases hs : swapField Sector.get Sector.set d.sectors objnum.toNat f v with
      | none => simp [hs] at h
      | some r =>
        simp only [hs, Option.map_some', Option.some.injEq, Prod.mk.injEq] at h
        obtain ⟨rfl, rfl⟩ := h
        obtain ⟨hl, hb⟩ := swapField_twice Sector.get_set_sector Sector.set_get_sector hs
        simp [EditOperation.changeDoc, Document.numSectors, hl, hb]
        simpa [Document.numSectors] using hr
    · simp at h
  · rename_i f v e1 e2 e3
    simp only at e1 e2 e3
    subst e1 e2 e3
    split at h
    · rename_i hr
      cases hs : swapField SideDef.get SideDef.set d.sidedefs objnum.toNat f v with
      | none => simp [hs] at h
      | some r =>
        simp only [hs, Option.map_some', Option.some.injEq, Prod.mk.injEq] at h
        obtain ⟨rfl, rfl⟩ := h
        obtain ⟨hl, hb⟩ := swapField_twice SideDef.get_set_sidedef SideDef.set_get_sidedef hs
        simp [EditOperation.changeDoc, Document.numSidedefs, hl, hb]
        simpa [Document.numSidedefs] using hr
    · simp at h
  · rename_i f v e1 e2 e3
    simp only at e1 e2 e3
    subst e1 e2 e3
    split at h
    · rename_i hr
      cases hs : swapField LineDef.get LineDef.set d.linedefs objnum.toNat f v with
      | none => simp [hs] at h
      | some r =>
        simp only [hs, Option.map_some', Option.some.injEq, Prod.mk.injEq] at h
        obtain ⟨rfl, rfl⟩ := h
        obtain ⟨hl, hb⟩ := swapField_twice LineDef.get_set_linedef LineDef.set_get_linedef hs
        simp [EditOperation.changeDoc, Document.numLinedefs, hl, hb]
        simpa [Document.numLinedefs] using hr
    · simp at h
  · simp at h
theorem LineDef.vertexInserted_vertexDeleted {n : Int} {L : LineDef}
    (h1 : L.start ≠ n) (h2 : L.end_ ≠ n) :
    LineDef.vertexInserted n (LineDef.vertexDeleted n L) = L := by
  obtain ⟨s, e, r, l, fl, ty, tg, a2, a3, a4, a5⟩ := L
  simp only at h1 h2
  simp only [LineDef.vertexInserted, LineDef.vertexDeleted]
  split_ifs <;> simp_all <;> omega

theorem LineDef.sidedefInserted_sidedefDeleted {n : Int} {L : LineDef}
    (h1 : L.right ≠ n) (h2 : L.left ≠ n) :
    LineDef.sidedefInserted n (LineDef.sidedefDeleted n L) = L := by
  obtain ⟨s, e, r, l, fl, ty, tg, a2, a3, a4, a5⟩ := L
  simp only at h1 h2
  simp only [LineDef.sidedefInserted, LineDef.sidedefDeleted]
  split_ifs <;> simp_all <;> omega

theorem SideDef.sectorInserted_sectorDeleted {n : Int} {S : SideDef} (h : S.sector ≠ n) :
    SideDef.sectorInserted n (SideDef.sectorDeleted n S) = S := by
  obtain ⟨x, y, u, m, l, s⟩ := S
  simp only at h
  simp only [SideDef.sectorInserted, SideDef.sectorDeleted]
  split_ifs <;> simp_all <;> omega

theorem List.getElem?_toNat_of_range {α : Type} (xs : List α) {n : Int}
    (h : 0 ≤ n ∧ n < (xs.length : Int)) : ∃ x, xs[n.toNat]? = some x := by
  have : n.toNat < xs.length := by omega
  exact ⟨xs[n.toNat], List.getElem?_eq_getElem this⟩

theorem List.map_eq_self_of_forall {α : Type} {f : α → α} {xs : List α}
    (h : ∀ x ∈ xs, f x = x) : xs.map f = xs := by
  induction xs with
  | nil => rfl
  | cons y ys ih =>
    simp only [List.map_cons]
    rw [h y (by simp), ih (fun x hx => h x (by simp [hx]))]

theorem Inverts.del (op : EditOperation) (d : Document) (hact : op.action = .del)
    (hp : op.payload = .null) (hr : 0 ≤ op.objnum ∧ op.objnum < d.numObjects op.objtype)
    (hfree : d.Unreferenced op.objtype op.objnum) :
    ∃ p d', op.deleteDoc d = some (p, d') ∧
      Inverts d op d' { op with action := EditType.insert, payload := p } := by
  obtain ⟨action, objtype, field, objnum, payload⟩ := op
  simp only at hact hp hr hfree
  subst hact hp
  cases objtype
  · -- things
    obtain ⟨x, hx⟩ := List.getElem?_toNat_of_range d.things hr
    have hr' : 0 ≤ objnum ∧ objnum < d.numThings := hr
    refine ⟨Payload.thing x, { d with things := d.things.eraseIdx objnum.toNat }, ?_, ?_, ?_⟩
    · simp [EditOperation.deleteDoc, EditOperation.rawDeleteThing, hr', hx]
    · simp [EditOperation.applyDoc, EditOperation.deleteDoc, EditOperation.rawDeleteThing, hr', hx]
    · have hlen : objnum ≤ ((d.things.eraseIdx objnum.toNat).length : Int) := by
        have := hr'.2
        simp only [Document.numThings] at this
        rw [List.length_eraseIdx]
        split_ifs <;> omega
      simp [EditOperation.applyDoc, EditOperation.insertDoc, EditOperation.rawInsertThing,
        Document.numThings, hr'.1, hlen, List.insertIdx_eraseIdx_of_getElem? hx]
  · -- linedefs
    obtain ⟨x, hx⟩ := List.getElem?_toNat_of_range d.linedefs hr
    have hr' : 0 ≤ objnum ∧ objnum < d.numLinedefs := hr
    refine ⟨Payload.linedef x, { d with linedefs := d.linedefs.eraseIdx objnum.toNat }, ?_, ?_, ?_⟩
    · simp [EditOperation.deleteDoc, EditOperation.rawDeleteLinedef, hr', hx]
    · simp [EditOperation.applyDoc, EditOperation.deleteDoc, EditOperation.rawDeleteLinedef, hr', hx]
    · have hlen : objnum ≤ ((d.linedefs.eraseIdx objnum.toNat).length : Int) := by
        have := hr'.2
        simp only [Document.numLinedefs] at this
        rw [List.length_eraseIdx]
        split_ifs <;> omega
      simp [EditOperation.applyDoc, EditOperation.insertDoc, EditOperation.rawInsertLinedef,
        Document.numLinedefs, hr'.1, hlen, List.insertIdx_eraseIdx_of_getElem? hx]
  · -- sidedefs
    obtain ⟨x, hx⟩ := List.getElem?_toNat_of_range d.sidedefs hr
    have hr' : 0 ≤ objnum ∧ objnum < d.numSidedefs := hr
    have hlt : objnum.toNat < d.sidedefs.length := by
      have := hr'.2
      simp only [Document.numSidedefs] at this
      omega
    have hr2 : objnum < (d.sidedefs.length : Int) := hr'.2
    have hlen : ((d.sidedefs.eraseIdx objnum.toNat).length : Int) = d.sidedefs.length - 1 := by
      rw [List.length_eraseIdx]
      rw [if_pos hlt]
      omega
    have hfix : (d.linedefs.map (LineDef.sidedefDeleted objnum)).map (LineDef.sidedefInserted objnum)
        = d.linedefs := by
      rw [List.map_map]
      apply List.map_eq_self_of_forall
      intro L hL
      exact LineDef.sidedefInserted_sidedefDeleted (hfree L hL).1 (hfree L hL).2
    by_cases hc : objnum < (d.sidedefs.length : Int) - 1
    · refine ⟨Payload.sidedef x,
        { d with sidedefs := d.sidedefs.eraseIdx objnum.toNat,
                  linedefs := d.linedefs.map (LineDef.sidedefDeleted objnum) }, ?_, ?_, ?_⟩
      · simp [EditOperation.deleteDoc, EditOperation.rawDeleteSidedef, hr', hx, Document.numSidedefs,
          hlen, hc, hr2]
      · simp [EditOperation.applyDoc, EditOperation.deleteDoc, EditOperation.rawDeleteSidedef,
          hr', hx, Document.numSidedefs, hlen, hc, hr2]
      · have h1 : objnum ≤ (d.sidedefs.length : Int) - 1 := by omega
        have h2 : objnum.toNat ≤ (d.sidedefs.eraseIdx objnum.toNat).length := by omega
        have h3 : objnum + 1 < (d.sidedefs.length : Int) := by omega
        simp [EditOperation.applyDoc, EditOperation.insertDoc, EditOperation.rawInsertSidedef,
          Document.numSidedefs, hr'.1, hlen, h1, h3,
          List.insertIdx_eraseIdx_of_getElem? hx, hfix]
    · refine ⟨Payload.sidedef x,
        { d with sidedefs := d.sidedefs.eraseIdx objnum.toNat }, ?_, ?_, ?_⟩
      · simp [EditOperation.deleteDoc, EditOperation.rawDeleteSidedef, hr', hx, Document.numSidedefs,
          hlen, hc, hr2]
      · simp [EditOperation.applyDoc, EditOperation.deleteDoc, EditOperation.rawDeleteSidedef,
          hr', hx, Document.numSidedefs, hlen, hc, hr2]
      · have h1 : objnum ≤ (d.sidedefs.length : Int) - 1 := by
          have := hr'.2
          simp only [Document.numSidedefs] at this
          omega
        have h3 : ¬ objnum + 1 < (d.sidedefs.length : Int) := by omega
        simp [EditOperation.applyDoc, EditOperation.insertDoc, EditOperation.rawInsertSidedef,
          Document.numSidedefs, hr'.1, hlen, h1, h3,
          List.insertIdx_eraseIdx_of_getElem? hx]
  · -- vertices
    obtain ⟨x, hx⟩ := List.getElem?_toNat_of_range d.vertices hr
    have hr' : 0 ≤ objnum ∧ objnum < d.numVertices := hr
    have hlt : objnum.toNat < d.vertices.length := by
      have := hr'.2
      simp only [Document.numVertices] at this
      omega
    have hr2 : objnum < (d.vertices.length : Int) := hr'.2
    have hlen : ((d.vertices.eraseIdx objnum.toNat).length : Int) = d.vertices.length - 1 := by
      rw [List.length_eraseIdx]
      rw [if_pos hlt]
      omega
    have hfix : (d.linedefs.map (LineDef.vertexDeleted objnum)).map (LineDef.vertexInserted objnum)
        = d.linedefs := by
      rw [List.map_map]
      apply List.map_eq_self_of_forall
      intro L hL
      exact LineDef.vertexInserted_vertexDeleted (hfree L hL).1 (hfree L hL).2
    by_cases hc : objnum < (d.vertices.length : Int) - 1
    · refine ⟨Payload.vertex x,
        { d with vertices := d.vertices.eraseIdx objnum.toNat,
                  linedefs := d.linedefs.map (LineDef.vertexDeleted objnum) }, ?_, ?_, ?_⟩
      · simp [EditOperation.deleteDoc, EditOperation.rawDeleteVertex, hr', hx, Document.numVertices,
          hlen, hc, hr2]
      · simp [EditOperation.applyDoc, EditOperation.deleteDoc, EditOperation.rawDeleteVertex,
          hr', hx, Document.numVertices, hlen, hc, hr2]
      · have h1 : objnum ≤ (d.vertices.length : Int) - 1 := by omega
        have h2 : objnum.toNat ≤ (d.vertices.eraseIdx objnum.toNat).length := by omega
        have h3 : objnum + 1 < (d.vertices.length : Int) := by omega
        simp [EditOperation.applyDoc, EditOperation.insertDoc, EditOperation.rawInsertVertex,
          Document.numVertices, hr'.1, hlen, h1, h3,
          List.insertIdx_eraseIdx_of_getElem? hx, hfix]
    · refine ⟨Payload.vertex x,
        { d with vertices := d.vertices.eraseIdx objnum.toNat }, ?_, ?_, ?_⟩
      · simp [EditOperation.deleteDoc, EditOperation.rawDeleteVertex, hr', hx, Document.numVertices,
          hlen, hc, hr2]
      · simp [EditOperation.applyDoc, EditOperation.deleteDoc, EditOperation.rawDeleteVertex,
          hr', hx, Document.numVertices, hlen, hc, hr2]
      · have h1 : objnum ≤ (d.vertices.length : Int) - 1 := by
          have := hr'.2
          simp only [Document.numVertices] at this
          omega
        have h3 : ¬ objnum + 1 < (d.vertices.length : Int) := by omega
        simp [EditOperation.applyDoc, EditOperation.insertDoc, EditOperation.rawInsertVertex,
          Document.numVertices, hr'.1, hlen, h1, h3,
          List.insertIdx_eraseIdx_of_getElem? hx]
  · -- sectors
    obtain ⟨x, hx⟩ := List.getElem?_toNat_of_range d.sectors hr
    have hr' : 0 ≤ objnum ∧ objnum < d.numSectors := hr
    have hlt : objnum.toNat < d.sectors.length := by
      have := hr'.2
      simp only [Document.numSectors] at this
      omega
    have hr2 : objnum < (d.sectors.length : Int) := hr'.2
    have hlen : ((d.sectors.eraseIdx objnum.toNat).length : Int) = d.sectors.length - 1 := by
      rw [List.length_eraseIdx]
      rw [if_pos hlt]
      omega
    have hfix : (d.sidedefs.map (SideDef.sectorDeleted objnum)).map (SideDef.sectorInserted objnum)
        = d.sidedefs := by
      rw [List.map_map]
      apply List.map_eq_self_of_forall
      intro L hL
      exact SideDef.sectorInserted_sectorDeleted (hfree L hL)
    by_cases hc : objnum < (d.sectors.length : Int) - 1
    · refine ⟨Payload.sector x,
        { d with sectors := d.sectors.eraseIdx objnum.toNat,
                  sidedefs := d.sidedefs.map (SideDef.sectorDeleted objnum) }, ?_, ?_, ?_⟩
      · simp [EditOperation.deleteDoc, EditOperation.rawDeleteSector, hr', hx, Document.numSectors,
          hlen, hc, hr2]
      · simp [EditOperation.applyDoc, EditOperation.deleteDoc, EditOperation.rawDeleteSector,
          hr', hx, Document.numSectors, hlen, hc, hr2]
      · have h1 : objnum ≤ (d.sectors.length : Int) - 1 := by omega
        have h2 : objnum.toNat ≤ (d.sectors.eraseIdx objnum.toNat).length := by omega
        have h3 : objnum + 1 < (d.sectors.length : Int) := by omega
        simp [EditOperation.applyDoc, EditOperation.insertDoc, EditOperation.rawInsertSector,
          Document.numSectors, hr'.1, hlen, h1, h3,
          List.insertIdx_eraseIdx_of_getElem? hx, hfix]
    · refine ⟨Payload.sector x,
        { d with sectors := d.sectors.eraseIdx objnum.toNat }, ?_, ?_, ?_⟩
      · simp [EditOperation.deleteDoc, EditOperation.rawDeleteSector, hr', hx, Document.numSectors,
          hlen, hc, hr2]
      · simp [EditOperation.applyDoc, EditOperation.deleteDoc, EditOperation.rawDeleteSector,
          hr', hx, Document.numSectors, hlen, hc, hr2]
      · have h1 : objnum ≤ (d.sectors.length : Int) - 1 := by
          have := hr'.2
          simp only [Document.numSectors] at this
          omega
        have h3 : ¬ objnum + 1 < (d.sectors.length : Int) := by omega
        simp [EditOperation.applyDoc, EditOperation.insertDoc, EditOperation.rawInsertSector,
          Document.numSectors, hr'.1, hlen, h1, h3,
          List.insertIdx_eraseIdx_of_getElem? hx]
theorem List.eraseIdx_length_append_singleton {α : Type} (xs : List α) (x : α) :
    (xs ++ [x]).eraseIdx xs.length = xs := by
  induction xs with
  | nil => rfl
  | cons y ys ih => simp [ih]

theorem Inverts.addNew (dflt : Defaults) (d : Document) (type : ObjType) :
    Inverts d (Basis.newOp dflt d type) (d.pushed dflt type)
      { Basis.newOp dflt d type with action := EditType.del, payload := Payload.null } := by
  cases type
  · constructor
    · simp [Basis.newOp, EditOperation.applyDoc, EditOperation.insertDoc,
        EditOperation.rawInsertThing, Document.numThings, Document.pushed,
        List.insertIdx_length_self]
    · simp [Basis.newOp, EditOperation.applyDoc, EditOperation.deleteDoc,
        EditOperation.rawDeleteThing, Document.numThings, Document.pushed,
        List.eraseIdx_length_append_singleton]
  · constructor
    · simp [Basis.newOp, EditOperation.applyDoc, EditOperation.insertDoc,
        EditOperation.rawInsertLinedef, Document.numLinedefs, Document.pushed,
        List.insertIdx_length_self]
    · simp [Basis.newOp, EditOperation.applyDoc, EditOperation.deleteDoc,
        EditOperation.rawDeleteLinedef, Document.numLinedefs, Document.pushed,
        List.eraseIdx_length_append_singleton]
  · constructor
    · simp [Basis.newOp, EditOperation.applyDoc, EditOperation.insertDoc,
        EditOperation.rawInsertSidedef, Document.numSidedefs, Document.pushed,
        List.insertIdx_length_self]
    · simp [Basis.newOp, EditOperation.applyDoc, EditOperation.deleteDoc,
        EditOperation.rawDeleteSidedef, Document.numSidedefs, Document.pushed,
        List.eraseIdx_length_append_singleton]
  · constructor
    · simp [Basis.newOp, EditOperation.applyDoc, EditOperation.insertDoc,
        EditOperation.rawInsertVertex, Document.numVertices, Document.pushed,
        List.insertIdx_length_self]
    · simp [Basis.newOp, EditOperation.applyDoc, EditOperation.deleteDoc,
        EditOperation.rawDeleteVertex, Document.numVertices, Document.pushed,
        List.eraseIdx_length_append_singleton]
  · constructor
    · simp [Basis.newOp, EditOperation.applyDoc, EditOperation.insertDoc,
        EditOperation.rawInsertSector, Document.numSectors, Document.pushed,
        List.insertIdx_length_self]
    · simp [Basis.newOp, EditOperation.applyDoc, EditOperation.deleteDoc,
        EditOperation.rawDeleteSector, Document.numSectors, Document.pushed,
        List.eraseIdx_length_append_singleton]

theorem Basis.addNew_eq (dflt : Defaults) (b : Basis) (type : ObjType) :
    b.addNew dflt type =
      if !b.mCurrentGroup.isActive then none
      else (b.addApply (Basis.newOp dflt b.doc type)).map fun b' =>
        ((Basis.newOp dflt b.doc type).objnum, b') := by
  cases type <;> rfl

theorem Basis.delWith_eq (del : ObjType → Int → Basis → Option Basis) (type : ObjType)
    (objnum : Int) (basis : Basis) :
    Basis.delWith del type objnum basis =
      if !basis.mCurrentGroup.isActive then none
      else
        (match type with
          | .sidedefs => Basis.unbindLoop objnum basis.doc.linedefs.length basis
          | .vertices => Basis.vertexLoop del objnum basis.doc.linedefs.length basis
          | .sectors => Basis.sectorLoop del objnum basis.doc.sidedefs.length basis
          | _ => some basis).bind fun basis =>
            if !basis.mCurrentGroup.isActive then none
            else basis.addApply (Basis.delOp type objnum) := rfl
theorem Basis.Grew.isActive {b b' : Basis} {ops0 ops : List EditOperation}
    (h : b.Grew ops0 ops b') : b'.mCurrentGroup.isActive = b.mCurrentGroup.isActive := by
  simp [UndoGroup.isActive, h.mDir]

/-- A listener call alone does not touch what `Grew` speaks about. -/
theorem Basis.Grew.of_listener {b b' : Basis} {ops0 ops : List EditOperation} {evs : List Event}
    (h : Basis.Grew { b with listener := evs } ops0 ops b') : b.Grew ops0 ops b' :=
  ⟨h.mOps, h.seg, h.mDir, h.mMessage, h.mUndoHistory, h.mRedoFuture⟩

theorem Basis.change_grew {b : Basis} {type : ObjType} {objnum : Int} {field : ItemField}
    {value : Int} {d' : Document} {v' : Int} (hact : b.mCurrentGroup.isActive = true)
    (h : (Basis.changeOp type objnum field value).changeDoc b.doc = some (d', v')) :
    ∃ b', b.change type objnum field value = some b' ∧
      b.Grew [Basis.changeOp type objnum field value]
        [{ Basis.changeOp type objnum field value with payload := Payload.value v' }] b' ∧
      b'.doc = d' := by
  have hi := Inverts.change (Basis.changeOp type objnum field value) rfl h
  obtain ⟨b', e, g, hd⟩ := Basis.addApply_grew (b := b) hi
  refine ⟨b', ?_, g, hd⟩
  simp only [Basis.change, hact]
  exact e

theorem EditOperation.changeDoc_things {d : Document} {n : Int} {x : Thing} (f : ThingField)
    (v : Int) (h0 : 0 ≤ n) (hx : d.things[n.toNat]? = some x) :
    (Basis.changeOp .things n (.thing f) v).changeDoc d =
      some ({ d with things := d.things.set n.toNat (x.set f v) }, x.get f) := by
  have hlt : n < d.numThings := by
    have := (List.getElem?_eq_some_iff.mp hx).1
    simp only [Document.numThings]
    omega
  simp [EditOperation.changeDoc, Basis.changeOp, swapField, h0, hlt, hx]

theorem EditOperation.changeDoc_vertices {d : Document} {n : Int} {x : Vertex} (f : VertexField)
    (v : Int) (h0 : 0 ≤ n) (hx : d.vertices[n.toNat]? = some x) :
    (Basis.changeOp .vertices n (.vertex f) v).changeDoc d =
      some ({ d with vertices := d.vertices.set n.toNat (x.set f v) }, x.get f) := by
  have hlt : n < d.numVertices := by
    have := (List.getElem?_eq_some_iff.mp hx).1
    simp only [Document.numVertices]
    omega
  simp [EditOperation.changeDoc, Basis.changeOp, swapField, h0, hlt, hx]

theorem EditOperation.changeDoc_sectors {d : Document} {n : Int} {x : Sector} (f : SectorField)
    (v : Int) (h0 : 0 ≤ n) (hx : d.sectors[n.toNat]? = some x) :
    (Basis.changeOp .sectors n (.sector f) v).changeDoc d =
      some ({ d with sectors := d.sectors.set n.toNat (x.set f v) }, x.get f) := by
  have hlt : n < d.numSectors := by
    have := (List.getElem?_eq_some_iff.mp hx).1
    simp only [Document.numSectors]
    omega
  simp [EditOperation.changeDoc, Basis.changeOp, swapField, h0, hlt, hx]

theorem EditOperation.changeDoc_sidedefs {d : Document} {n : Int} {x : SideDef}
    (f : SideDefField) (v : Int) (h0 : 0 ≤ n) (hx : d.sidedefs[n.toNat]? = some x) :
    (Basis.changeOp .sidedefs n (.side f) v).changeDoc d =
      some ({ d with sidedefs := d.sidedefs.set n.toNat (x.set f v) }, x.get f) := by
  have hlt : n < d.numSidedefs := by
    have := (List.getElem?_eq_some_iff.mp hx).1
    simp only [Document.numSidedefs]
    omega
  simp [EditOperation.changeDoc, Basis.changeOp, swapField, h0, hlt, hx]

theorem EditOperation.changeDoc_linedefs {d : Document} {n : Int} {x : LineDef}
    (f : LineDefField) (v : Int) (h0 : 0 ≤ n) (hx : d.linedefs[n.toNat]? = some x) :
    (Basis.changeOp .linedefs n (.line f) v).changeDoc d =
      some ({ d with linedefs := d.linedefs.set n.toNat (x.set f v) }, x.get f) := by
  have hlt : n < d.numLinedefs := by
    have := (List.getElem?_eq_some_iff.mp hx).1
    simp only [Document.numLinedefs]
    omega
  simp [EditOperation.changeDoc, Basis.changeOp, swapField, h0, hlt, hx]

theorem Basis.changeLinedef_grew {b : Basis} {n : Int} {x : LineDef} (f : LineDefField)
    (v : Int) (hact : b.mCurrentGroup.isActive = true) (h0 : 0 ≤ n)
    (hx : b.doc.linedefs[n.toNat]? = some x) :
    ∃ b', b.changeLinedef n f v = some b' ∧
      b.Grew [Basis.changeOp .linedefs n (.line f) v]
        [Basis.changeOp .linedefs n (.line f) (x.get f)] b' ∧
      b'.doc = { b.doc with linedefs := b.doc.linedefs.set n.toNat (x.set f v) } := by
  obtain ⟨b', e, g, hd⟩ := Basis.change_grew hact (EditOperation.changeDoc_linedefs f v h0 hx)
  refine ⟨b', ?_, g, hd⟩
  have hlt : n < b.doc.numLinedefs := by
    have := (List.getElem?_eq_some_iff.mp hx).1
    simp only [Document.numLinedefs]
    omega
  simp [Basis.changeLinedef, h0, hlt, e]

theorem Basis.changeVertex_grew {b : Basis} {n : Int} {x : Vertex} (f : VertexField)
    (v : Int) (hact : b.mCurrentGroup.isActive = true) (h0 : 0 ≤ n)
    (hx : b.doc.vertices[n.toNat]? = some x) :
    ∃ b', b.changeVertex n f v = some b' ∧
      b.Grew [Basis.changeOp .vertices n (.vertex f) v]
        [Basis.changeOp .vertices n (.vertex f) (x.get f)] b' ∧
      b'.doc = { b.doc with vertices := b.doc.vertices.set n.toNat (x.set f v) } := by
  obtain ⟨b', e, g, hd⟩ := Basis.change_grew hact (EditOperation.changeDoc_vertices f v h0 hx)
  refine ⟨b', ?_, g, hd⟩
  have hlt : n < b.doc.numVertices := by
    have := (List.getElem?_eq_some_iff.mp hx).1
    simp only [Document.numVertices]
    omega
  simp [Basis.changeVertex, h0, hlt, e]

theorem Basis.changeThing_grew {b : Basis} {n : Int} {x : Thing} (f : ThingField)
    (v : Int) (hact : b.mCurrentGroup.isActive = true) (h0 : 0 ≤ n)
    (hx : b.doc.things[n.toNat]? = some x) :
    ∃ b', b.changeThing n f v = some b' ∧
      b.Grew [Basis.changeOp .things n (.thing f) v]
        [Basis.changeOp .things n (.thing f) (x.get f)] b' ∧
      b'.doc = { b.doc with things := b.doc.things.set n.toNat (x.set f v) } := by
  obtain ⟨b', e, g, hd⟩ := Basis.change_grew
    (b := { b with
      listener := b.listener ++ [Event.basisOnChangeItem .things (.thing f) v] })
    hact (EditOperation.changeDoc_things f v h0 hx)
  refine ⟨b', ?_, g.of_listener, hd⟩
  have hlt : n < b.doc.numThings := by
    have := (List.getElem?_eq_some_iff.mp hx).1
    simp only [Document.numThings]
    omega
  simp [Basis.changeThing, h0, hlt, e]

theorem Basis.changeSector_grew {b : Basis} {n : Int} {x : Sector} (f : SectorField)
    (v : Int) (hact : b.mCurrentGroup.isActive = true) (h0 : 0 ≤ n)
    (hx : b.doc.sectors[n.toNat]? = some x) :
    ∃ b', b.changeSector n f v = some b' ∧
      b.Grew [Basis.changeOp .sectors n (.sector f) v]
        [Basis.changeOp .sectors n (.sector f) (x.get f)] b' ∧
      b'.doc = { b.doc with sectors := b.doc.sectors.set n.toNat (x.set f v) } := by
  obtain ⟨b', e, g, hd⟩ := Basis.change_grew
    (b := { b with
      listener := b.listener ++ [Event.basisOnChangeItem .sectors (.sector f) v] })
    hact (EditOperation.changeDoc_sectors f v h0 hx)
  refine ⟨b', ?_, g.of_listener, hd⟩
  have hlt : n < b.doc.numSectors := by
    have := (List.getElem?_eq_some_iff.mp hx).1
    simp only [Document.numSectors]
    omega
  simp [Basis.changeSector, h0, hlt, e]

theorem Basis.changeSidedef_grew {b : Basis} {n : Int} {x : SideDef} (f : SideDefField)
    (v : Int) (hact : b.mCurrentGroup.isActive = true) (h0 : 0 ≤ n)
    (hx : b.doc.sidedefs[n.toNat]? = some x) :
    ∃ b', b.changeSidedef n f v = some b' ∧
      b.Grew [Basis.changeOp .sidedefs n (.side f) v]
        [Basis.changeOp .sidedefs n (.side f) (x.get f)] b' ∧
      b'.doc = { b.doc with sidedefs := b.doc.sidedefs.set n.toNat (x.set f v) } := by
  obtain ⟨b', e, g, hd⟩ := Basis.change_grew
    (b := { b with
      listener := b.listener ++ [Event.basisOnChangeItem .sidedefs (.side f) v] })
    hact (EditOperation.changeDoc_sidedefs f v h0 hx)
  refine ⟨b', ?_, g.of_listener, hd⟩
  have hlt : n < b.doc.numSidedefs := by
    have := (List.getElem?_eq_some_iff.mp hx).1
    simp only [Document.numSidedefs]
    omega
  simp [Basis.changeSidedef, h0, hlt, e]

theorem Basis.addNew_grew (dflt : Defaults) {b : Basis} (type : ObjType)
    (hact : b.mCurrentGroup.isActive = true) :
    ∃ b', b.addNew dflt type = some (b.doc.numObjects type, b') ∧
      b.Grew [Basis.newOp dflt b.doc type]
        [{ Basis.newOp dflt b.doc type with action := EditType.del, payload := Payload.null }]
        b' ∧
      b'.doc = b.doc.pushed dflt type := by
  obtain ⟨b', e, g, hd⟩ := Basis.addApply_grew (b := b) (Inverts.addNew dflt b.doc type)
  refine ⟨b', ?_, g, hd⟩
  rw [Basis.addNew_eq]
  simp only [hact, e]
  cases type <;> rfl
theorem EditOperation.deleteDoc_erased (op : EditOperation) (d : Document)
    (hr : 0 ≤ op.objnum ∧ op.objnum < d.numObjects op.objtype) :
    ∃ p, op.deleteDoc d = some (p, d.erased op.objtype op.objnum) := by
  obtain ⟨action, objtype, field, objnum, payload⟩ := op
  simp only at hr
  cases objtype
  · obtain ⟨x, hx⟩ := List.getElem?_toNat_of_range d.things hr
    have hr' : 0 ≤ objnum ∧ objnum < d.numThings := hr
    exact ⟨Payload.thing x, by
      simp [EditOperation.deleteDoc, EditOperation.rawDeleteThing, hr', hx, Document.erased]⟩
  · obtain ⟨x, hx⟩ := List.getElem?_toNat_of_range d.linedefs hr
    have hr' : 0 ≤ objnum ∧ objnum < d.numLinedefs := hr
    exact ⟨Payload.linedef x, by
      simp [EditOperation.deleteDoc, EditOperation.rawDeleteLinedef, hr', hx, Document.erased]⟩
  · obtain ⟨x, hx⟩ := List.getElem?_toNat_of_range d.sidedefs hr
    have hr' : 0 ≤ objnum ∧ objnum < d.numSidedefs := hr
    have hlt : objnum.toNat < d.sidedefs.length := by
      have := hr'.2
      simp only [Document.numSidedefs] at this
      omega
    have hlen : ((d.sidedefs.eraseIdx objnum.toNat).length : Int) = d.sidedefs.length - 1 := by
      rw [List.length_eraseIdx, if_pos hlt]
      omega
    refine ⟨Payload.sidedef x, ?_⟩
    have hiff : objnum < (d.sidedefs.length : Int) - 1 ↔ objnum + 1 < (d.sidedefs.length : Int) := by
      omega
    simp only [EditOperation.deleteDoc, EditOperation.rawDeleteSidedef, hr', hx, Document.erased,
      Document.numSidedefs, hlen, hiff]
    split_ifs <;> simp_all
  · obtain ⟨x, hx⟩ := List.getElem?_toNat_of_range d.vertices hr
    have hr' : 0 ≤ objnum ∧ objnum < d.numVertices := hr
    have hlt : objnum.toNat < d.vertices.length := by
      have := hr'.2
      simp only [Document.numVertices] at this
      omega
    have hlen : ((d.vertices.eraseIdx objnum.toNat).length : Int) = d.vertices.length - 1 := by
      rw [List.length_eraseIdx, if_pos hlt]
      omega
    refine ⟨Payload.vertex x, ?_⟩
    have hiff : objnum < (d.vertices.length : Int) - 1 ↔ objnum + 1 < (d.vertices.length : Int) := by
      omega
    simp only [EditOperation.deleteDoc, EditOperation.rawDeleteVertex, hr', hx, Document.erased,
      Document.numVertices, hlen, hiff]
    split_ifs <;> simp_all
  · obtain ⟨x, hx⟩ := List.getElem?_toNat_of_range d.sectors hr
    have hr' : 0 ≤ objnum ∧ objnum < d.numSectors := hr
    have hlt : objnum.toNat < d.sectors.length := by
      have := hr'.2
      simp only [Document.numSectors] at this
      omega
    have hlen : ((d.sectors.eraseIdx objnum.toNat).length : Int) = d.sectors.length - 1 := by
      rw [List.length_eraseIdx, if_pos hlt]
      omega
    refine ⟨Payload.sector x, ?_⟩
    have hiff : objnum < (d.sectors.length : Int) - 1 ↔ objnum + 1 < (d.sectors.length : Int) := by
      omega
    simp only [EditOperation.deleteDoc, EditOperation.rawDeleteSector, hr', hx, Document.erased,
      Document.numSectors, hlen, hiff]
    split_ifs <;> simp_all

/-- The primary deletion of `del`: once nothing refers to the object any
more, the delete operation is appended, applied and invertible. -/
theorem Basis.addApply_delOp {b : Basis} {type : ObjType} {n : Int}
    (hr : 0 ≤ n ∧ n < b.doc.numObjects type) (hfree : b.doc.Unreferenced type n) :
    ∃ b' p, b.addApply (Basis.delOp type n) = some b' ∧
      b.Grew [Basis.delOp type n]
        [{ Basis.delOp type n with action := EditType.insert, payload := p }] b' ∧
      b'.doc = b.doc.erased type n := by
  obtain ⟨p, d', hd, hi⟩ := Inverts.del (Basis.delOp type n) b.doc rfl rfl hr hfree
  obtain ⟨p', hd'⟩ := EditOperation.deleteDoc_erased (Basis.delOp type n) b.doc hr
  rw [hd] at hd'
  simp only [Option.some.injEq, Prod.mk.injEq] at hd'
  obtain ⟨b', e, g, hdoc⟩ := Basis.addApply_grew (b := b) hi
  exact ⟨b', p, e, g, hdoc.trans hd'.2⟩
theorem List.take_set_self {α : Type} (xs : List α) (k : Nat) (x : α) :
    (xs.set k x).take k = xs.take k := by
  induction xs generalizing k with
  | nil => simp
  | cons y ys ih => cases k with
    | zero => simp
    | succ k => simp [ih]

theorem List.drop_set_self {α : Type} {xs : List α} {k : Nat} (x : α) (h : k < xs.length) :
    (xs.set k x).drop k = x :: xs.drop (k + 1) := by
  induction xs generalizing k with
  | nil => simp at h
  | cons y ys ih => cases k with
    | zero => simp
    | succ k => simp at h; simp [ih h]

theorem List.take_succ_of_getElem? {α : Type} {xs : List α} {k : Nat} {x : α}
    (h : xs[k]? = some x) : xs.take (k + 1) = xs.take k ++ [x] := by
  induction xs generalizing k with
  | nil => simp at h
  | cons y ys ih => cases k with
    | zero => simp at h; simp [h]
    | succ k => simp at h; simp [ih h]

theorem List.take_eraseIdx_self {α : Type} (xs : List α) (k : Nat) :
    (xs.eraseIdx k).take k = xs.take k := by
  induction xs generalizing k with
  | nil => simp
  | cons y ys ih => cases k with
    | zero => simp
    | succ k => simp [ih]

theorem List.drop_eraseIdx_self {α : Type} (xs : List α) (k : Nat) :
    (xs.eraseIdx k).drop k = xs.drop (k + 1) := by
  induction xs generalizing k with
  | nil => simp
  | cons y ys ih => cases k with
    | zero => simp
    | succ k => simp [ih]

theorem Document.eta_linedefs (d : Document) : { d with linedefs := d.linedefs } = d := rfl

/-- A guarded `changeLinedef`, as it stands in the cascade loops. -/
theorem Basis.condChangeLinedef_grew {b : Basis} {k : Nat} {x : LineDef} (c : Prop)
    [Decidable c] (f : LineDefField) (v : Int) (hact : b.mCurrentGroup.isActive = true)
    (hx : b.doc.linedefs[k]? = some x) :
    ∃ b' ops0 ops, (if c then b.changeLinedef k f v else some b) = some b' ∧
      b.Grew ops0 ops b' ∧
      b'.doc = { b.doc with linedefs := b.doc.linedefs.set k (if c then x.set f v else x) } := by
  by_cases hc : c
  · have hx' : b.doc.linedefs[((k : Nat) : Int).toNat]? = some x := by simpa using hx
    obtain ⟨b', e, g, hd⟩ := Basis.changeLinedef_grew f v hact (Int.ofNat_nonneg k) hx'
    refine ⟨b', _, _, ?_, g, ?_⟩
    · simp [hc, e]
    · simpa [hc] using hd
  · refine ⟨b, [], [], by simp [hc], Basis.Grew.refl b, ?_⟩
    simp [hc, List.set_of_getElem? hx]

theorem LineDef.unbound_eq (n : Int) (L : LineDef) :
    LineDef.unbound n L =
      (if (if L.right = n then L.set .right (-1) else L).left = n then
        (if L.right = n then L.set .right (-1) else L).set .left (-1)
      else (if L.right = n then L.set .right (-1) else L)) := rfl

theorem Basis.unbindLoop_spec (objnum : Int) (k : Nat) (b : Basis)
    (hact : b.mCurrentGroup.isActive = true) (hk : k ≤ b.doc.linedefs.length) :
    ∃ b' ops0 ops, Basis.unbindLoop objnum k b = some b' ∧ b.Grew ops0 ops b' ∧
      b'.doc = { b.doc with
        linedefs := (b.doc.linedefs.take k).map (LineDef.unbound objnum)
          ++ b.doc.linedefs.drop k } := by
  induction k generalizing b with
  | zero => exact ⟨b, [], [], rfl, Basis.Grew.refl b, by simp⟩
  | succ k ih =>
    have hlt : k < b.doc.linedefs.length := hk
    have hx : b.doc.linedefs[k]? = some b.doc.linedefs[k] := List.getElem?_eq_getElem hlt
    generalize b.doc.linedefs[k] = L at hx
    obtain ⟨b1, a0, a, e1, g1, hd1⟩ :=
      Basis.condChangeLinedef_grew (L.right = objnum) .right (-1) hact hx
    have hact1 : b1.mCurrentGroup.isActive = true := by rw [g1.isActive]; exact hact
    have hx1 : b1.doc.linedefs[k]? =
        some (if L.right = objnum then L.set .right (-1) else L) := by
      rw [hd1]; simp [List.getElem?_set, hlt]
    obtain ⟨b2, c0, c, e2, g2, hd2⟩ :=
      Basis.condChangeLinedef_grew
        ((if L.right = objnum then L.set .right (-1) else L).left = objnum) .left (-1) hact1 hx1
    have hact2 : b2.mCurrentGroup.isActive = true := by rw [g2.isActive]; exact hact1
    have hl2 : b2.doc.linedefs = b.doc.linedefs.set k (LineDef.unbound objnum L) := by
      rw [hd2, hd1, LineDef.unbound_eq]; simp [List.set_set]
    have hk2 : k ≤ b2.doc.linedefs.length := by rw [hl2]; simp; omega
    obtain ⟨b3, r0, r, e3, g3, hd3⟩ := ih b2 hact2 hk2
    refine ⟨b3, (a0 ++ c0) ++ r0, (a ++ c) ++ r, ?_, (g1.trans g2).trans g3, ?_⟩
    · simp only [Basis.unbindLoop, hx]
      rw [e1]
      simp only [Option.some_bind, hx1]
      rw [e2]
      simpa using e3
    · rw [hd3, hl2, hd2, hd1]
      simp only [List.set_set]
      simp [List.take_set_self, List.drop_set_self _ hlt, List.take_succ_of_getElem? hx]
/-- The tail of `Basis::del`: after a cascade that left nothing referring to
the object, the primary deletion is appended. -/
theorem Basis.delWith_finish (r : ObjType → Int → Basis → Option Basis) {b b1 : Basis}
    (type : ObjType) {n : Int} {c0 c : List EditOperation}
    (hact : b.mCurrentGroup.isActive = true)
    (hcasc : (match type with
      | .sidedefs => Basis.unbindLoop n b.doc.linedefs.length b
      | .vertices => Basis.vertexLoop r n b.doc.linedefs.length b
      | .sectors => Basis.sectorLoop r n b.doc.sidedefs.length b
      | _ => some b) = some b1)
    (g : b.Grew c0 c b1) (hr : 0 ≤ n ∧ n < b1.doc.numObjects type)
    (hfree : b1.doc.Unreferenced type n) :
    ∃ b' ops0 ops, Basis.delWith r type n b = some b' ∧ b.Grew ops0 ops b' ∧ ops ≠ [] ∧
      b'.doc = b1.doc.erased type n := by
  obtain ⟨b', p, e, g', hd⟩ := Basis.addApply_delOp hr hfree
  have hact1 : b1.mCurrentGroup.isActive = true := by rw [g.isActive]; exact hact
  refine ⟨b', _, _, ?_, g.trans g', by simp, hd⟩
  rw [Basis.delWith_eq]
  simp only [hact, hcasc, Option.some_bind, hact1]
  simpa using e

theorem Basis.delWith_things (r : ObjType → Int → Basis → Option Basis) {b : Basis} {n : Int}
    (hact : b.mCurrentGroup.isActive = true) (hr : 0 ≤ n ∧ n < b.doc.numThings) :
    ∃ b' ops0 ops, Basis.delWith r .things n b = some b' ∧ b.Grew ops0 ops b' ∧ ops ≠ [] ∧
      b'.doc = b.doc.deleted .things n :=
  Basis.delWith_finish r _ hact rfl (Basis.Grew.refl b) hr trivial

theorem Basis.delWith_linedefs (r : ObjType → Int → Basis → Option Basis) {b : Basis} {n : Int}
    (hact : b.mCurrentGroup.isActive = true) (hr : 0 ≤ n ∧ n < b.doc.numLinedefs) :
    ∃ b' ops0 ops, Basis.delWith r .linedefs n b = some b' ∧ b.Grew ops0 ops b' ∧ ops ≠ [] ∧
      b'.doc = b.doc.deleted .linedefs n :=
  Basis.delWith_finish r _ hact rfl (Basis.Grew.refl b) hr trivial

theorem LineDef.unbound_ne {n : Int} (hn : 0 ≤ n) (L : LineDef) :
    (LineDef.unbound n L).right ≠ n ∧ (LineDef.unbound n L).left ≠ n := by
  obtain ⟨s, e, r, l, fl, ty, tg, a2, a3, a4, a5⟩ := L
  simp only [LineDef.unbound, LineDef.set]
  split_ifs <;> simp_all <;> omega

theorem Basis.delWith_sidedefs (r : ObjType → Int → Basis → Option Basis) {b : Basis} {n : Int}
    (hact : b.mCurrentGroup.isActive = true) (hr : 0 ≤ n ∧ n < b.doc.numSidedefs) :
    ∃ b' ops0 ops, Basis.delWith r .sidedefs n b = some b' ∧ b.Grew ops0 ops b' ∧ ops ≠ [] ∧
      b'.doc = b.doc.deleted .sidedefs n := by
  obtain ⟨b1, c0, c, e1, g1, hd1⟩ :=
    Basis.unbindLoop_spec n b.doc.linedefs.length b hact (le_refl _)
  simp only [List.take_length, List.drop_length, List.append_nil] at hd1
  have h := Basis.delWith_finish r .sidedefs hact e1 g1
    (by rw [hd1]; exact hr)
    (by
      rw [hd1]
      intro L hL
      simp only [List.mem_map] at hL
      obtain ⟨L0, _, rfl⟩ := hL
      exact LineDef.unbound_ne hr.1 L0)
  rw [hd1] at h
  exact h

theorem Basis.vertexLoop_spec (r : ObjType → Int → Basis → Option Basis) (objnum : Int)
    (k : Nat) (b : Basis) (hact : b.mCurrentGroup.isActive = true)
    (hk : k ≤ b.doc.linedefs.length) :
    ∃ b' ops0 ops, Basis.vertexLoop (Basis.delWith r) objnum k b = some b' ∧
      b.Grew ops0 ops b' ∧
      b'.doc = { b.doc with
        linedefs := (b.doc.linedefs.take k).filter
            (fun L => !decide (L.start = objnum ∨ L.end_ = objnum))
          ++ b.doc.linedefs.drop k } := by
  induction k generalizing b with
  | zero => exact ⟨b, [], [], rfl, Basis.Grew.refl b, by simp⟩
  | succ k ih =>
    have hlt : k < b.doc.linedefs.length := hk
    have hx : b.doc.linedefs[k]? = some b.doc.linedefs[k] := List.getElem?_eq_getElem hlt
    generalize b.doc.linedefs[k] = L at hx
    by_cases hc : L.start = objnum ∨ L.end_ = objnum
    · obtain ⟨b1, a0, a, e1, g1, _, hd1⟩ := Basis.delWith_linedefs r (b := b) (n := (k : Nat)) hact
        (by simp only [Document.numLinedefs]; omega)
      have hact1 : b1.mCurrentGroup.isActive = true := by rw [g1.isActive]; exact hact
      have hl1 : b1.doc.linedefs = b.doc.linedefs.eraseIdx k := by
        rw [hd1]; simp [Document.deleted, Document.cascaded, Document.erased]
      have hk1 : k ≤ b1.doc.linedefs.length := by
        rw [hl1, List.length_eraseIdx, if_pos hlt]; omega
      obtain ⟨b2, c0, c, e2, g2, hd2⟩ := ih b1 hact1 hk1
      refine ⟨b2, a0 ++ c0, a ++ c, ?_, g1.trans g2, ?_⟩
      · simp only [Basis.vertexLoop, hx, hc, if_true]
        rw [e1]
        simpa using e2
      · rw [hd2, hl1, hd1]
        simp [Document.deleted, Document.cascaded, Document.erased, List.take_eraseIdx_self,
          List.drop_eraseIdx_self, List.take_succ_of_getElem? hx, List.filter_append]
        tauto
    · obtain ⟨b2, c0, c, e2, g2, hd2⟩ := ih b hact (by omega)
      refine ⟨b2, c0, c, ?_, g2, ?_⟩
      · simp only [Basis.vertexLoop, hx, hc, if_false]
        exact e2
      · rw [hd2]
        have hd : b.doc.linedefs.drop k = L :: b.doc.linedefs.drop (k + 1) := by
          rw [← List.set_of_getElem? hx, List.drop_set_self _ hlt]
          simp [List.set_of_getElem? hx]
        have hf : ¬L.start = objnum ∧ ¬L.end_ = objnum := by tauto
        simp [List.take_succ_of_getElem? hx, List.filter_append, hd, List.filter_cons, hf]
theorem Document.deleted_sidedefs (d : Document) (n : Int) :
    d.deleted .sidedefs n = d.withoutSidedef n := rfl

@[simp] theorem Document.withoutSidedef_sidedefs (d : Document) (n : Int) :
    (d.withoutSidedef n).sidedefs = d.sidedefs.eraseIdx n.toNat := rfl

@[simp] theorem Document.withoutSidedef_sectors (d : Document) (n : Int) :
    (d.withoutSidedef n).sectors = d.sectors := rfl

@[simp] theorem Document.withoutSidedef_things (d : Document) (n : Int) :
    (d.withoutSidedef n).things = d.things := rfl

@[simp] theorem Document.withoutSidedef_vertices (d : Document) (n : Int) :
    (d.withoutSidedef n).vertices = d.vertices := rfl

theorem Basis.sectorLoop_spec (r : ObjType → Int → Basis → Option Basis) (objnum : Int)
    (k : Nat) (b : Basis) (hact : b.mCurrentGroup.isActive = true)
    (hk : k ≤ b.doc.sidedefs.length) :
    ∃ b' ops0 ops, Basis.sectorLoop (Basis.delWith r) objnum k b = some b' ∧
      b.Grew ops0 ops b' ∧ b'.doc = Document.sectorLoop objnum k b.doc := by
  induction k generalizing b with
  | zero => exact ⟨b, [], [], rfl, Basis.Grew.refl b, rfl⟩
  | succ k ih =>
    have hlt : k < b.doc.sidedefs.length := hk
    have hx : b.doc.sidedefs[k]? = some b.doc.sidedefs[k] := List.getElem?_eq_getElem hlt
    generalize b.doc.sidedefs[k] = S at hx
    by_cases hc : S.sector = objnum
    · obtain ⟨b1, a0, a, e1, g1, _, hd1⟩ := Basis.delWith_sidedefs r (b := b) (n := (k : Nat)) hact
        (by simp only [Document.numSidedefs]; omega)
      have hact1 : b1.mCurrentGroup.isActive = true := by rw [g1.isActive]; exact hact
      have hk1 : k ≤ b1.doc.sidedefs.length := by
        rw [hd1, Document.deleted_sidedefs, Document.withoutSidedef_sidedefs,
          List.length_eraseIdx]
        simp only [Int.toNat_ofNat, if_pos hlt]
        omega
      obtain ⟨b2, c0, c, e2, g2, hd2⟩ := ih b1 hact1 hk1
      refine ⟨b2, a0 ++ c0, a ++ c, ?_, g1.trans g2, ?_⟩
      · simp only [Basis.sectorLoop, hx, hc, if_true]
        rw [e1]
        simpa using e2
      · rw [hd2, hd1]
        simp only [Document.sectorLoop, hx, hc, if_true]
        rfl
    · obtain ⟨b2, c0, c, e2, g2, hd2⟩ := ih b hact (by omega)
      refine ⟨b2, c0, c, ?_, g2, ?_⟩
      · simp only [Basis.sectorLoop, hx, hc, if_false]
        exact e2
      · rw [hd2]
        simp only [Document.sectorLoop, hx, hc, if_false]

theorem Document.sectorLoop_sectors (n : Int) (k : Nat) (d : Document) :
    (Document.sectorLoop n k d).sectors = d.sectors := by
  induction k generalizing d with
  | zero => rfl
  | succ k ih =>
    simp only [Document.sectorLoop]
    split
    · rfl
    · split_ifs
      · rw [ih]; rfl
      · rw [ih]

theorem Document.sectorLoop_things (n : Int) (k : Nat) (d : Document) :
    (Document.sectorLoop n k d).things = d.things := by
  induction k generalizing d with
  | zero => rfl
  | succ k ih =>
    simp only [Document.sectorLoop]
    split
    · rfl
    · split_ifs
      · rw [ih]; rfl
      · rw [ih]

theorem Document.sectorLoop_vertices (n : Int) (k : Nat) (d : Document) :
    (Document.sectorLoop n k d).vertices = d.vertices := by
  induction k generalizing d with
  | zero => rfl
  | succ k ih =>
    simp only [Document.sectorLoop]
    split
    · rfl
    · split_ifs
      · rw [ih]; rfl
      · rw [ih]

theorem Document.sectorLoop_sidedefs (n : Int) (k : Nat) (d : Document)
    (hk : k ≤ d.sidedefs.length) :
    (Document.sectorLoop n k d).sidedefs =
      (d.sidedefs.take k).filter (fun S => !decide (S.sector = n)) ++ d.sidedefs.drop k := by
  induction k generalizing d with
  | zero => simp [Document.sectorLoop]
  | succ k ih =>
    have hlt : k < d.sidedefs.length := hk
    have hx : d.sidedefs[k]? = some d.sidedefs[k] := List.getElem?_eq_getElem hlt
    generalize d.sidedefs[k] = S at hx
    have hd : d.sidedefs.drop k = S :: d.sidedefs.drop (k + 1) := by
      rw [← List.set_of_getElem? hx, List.drop_set_self _ hlt]
      simp [List.set_of_getElem? hx]
    simp only [Document.sectorLoop, hx]
    by_cases hc : S.sector = n
    · simp only [hc, if_true]
      rw [ih]
      · simp [List.take_eraseIdx_self, List.drop_eraseIdx_self, List.take_succ_of_getElem? hx,
          List.filter_append, hc]
      · simp only [Document.withoutSidedef_sidedefs, Int.toNat_ofNat, List.length_eraseIdx,
          if_pos hlt]
        omega
    · simp only [hc, if_false]
      rw [ih _ (by omega)]
      simp [List.take_succ_of_getElem? hx, List.filter_append, hc, hd]

theorem Basis.delWith_vertices (r : ObjType → Int → Basis → Option Basis) {b : Basis} {n : Int}
    (hact : b.mCurrentGroup.isActive = true) (hr : 0 ≤ n ∧ n < b.doc.numVertices) :
    ∃ b' ops0 ops, Basis.delWith (Basis.delWith r) .vertices n b = some b' ∧
      b.Grew ops0 ops b' ∧ ops ≠ [] ∧ b'.doc = b.doc.deleted .vertices n := by
  obtain ⟨b1, c0, c, e1, g1, hd1⟩ :=
    Basis.vertexLoop_spec r n b.doc.linedefs.length b hact (le_refl _)
  simp only [List.take_length, List.drop_length, List.append_nil] at hd1
  have h := Basis.delWith_finish (Basis.delWith r) .vertices hact e1 g1
    (by rw [hd1]; exact hr)
    (by
      rw [hd1]
      intro L hL
      simp only [List.mem_filter] at hL
      have := hL.2
      simp only [Bool.not_eq_eq_eq_not, Bool.not_true, decide_eq_false_iff_not, not_or] at this
      exact this)
  rw [hd1] at h
  exact h

theorem Basis.delWith_sectors (r : ObjType → Int → Basis → Option Basis) {b : Basis} {n : Int}
    (hact : b.mCurrentGroup.isActive = true) (hr : 0 ≤ n ∧ n < b.doc.numSectors) :
    ∃ b' ops0 ops, Basis.delWith (Basis.delWith r) .sectors n b = some b' ∧
      b.Grew ops0 ops b' ∧ ops ≠ [] ∧ b'.doc = b.doc.deleted .sectors n := by
  obtain ⟨b1, c0, c, e1, g1, hd1⟩ :=
    Basis.sectorLoop_spec r n b.doc.sidedefs.length b hact (le_refl _)
  have h := Basis.delWith_finish (Basis.delWith r) .sectors hact e1 g1
    (by
      rw [hd1]
      simp only [Document.numObjects, Document.numSectors, Document.sectorLoop_sectors]
      exact hr)
    (by
      rw [hd1]
      intro S hS
      rw [Document.sectorLoop_sidedefs n _ _ (le_refl _)] at hS
      simp only [List.take_length, List.drop_length, List.append_nil, List.mem_filter] at hS
      simpa using hS.2)
  rw [hd1] at h
  exact h

theorem Basis.vertexLoop_congr (r1 r2 : ObjType → Int → Basis → Option Basis)
    (h : ∀ n b, r1 .linedefs n b = r2 .linedefs n b) (objnum : Int) (k : Nat) (b : Basis) :
    Basis.vertexLoop r1 objnum k b = Basis.vertexLoop r2 objnum k b := by
  induction k generalizing b with
  | zero => rfl
  | succ k ih =>
    simp only [Basis.vertexLoop, h]
    cases b.doc.linedefs[k]? with
    | none => rfl
    | some L =>
      simp only
      split_ifs
      · cases r2 .linedefs (k : Nat) b with
        | none => rfl
        | some b1 => simp [ih]
      · exact ih b

theorem Basis.sectorLoop_congr (r1 r2 : ObjType → Int → Basis → Option Basis)
    (h : ∀ n b, r1 .sidedefs n b = r2 .sidedefs n b) (objnum : Int) (k : Nat) (b : Basis) :
    Basis.sectorLoop r1 objnum k b = Basis.sectorLoop r2 objnum k b := by
  induction k generalizing b with
  | zero => rfl
  | succ k ih =>
    simp only [Basis.sectorLoop, h]
    cases b.doc.sidedefs[k]? with
    | none => rfl
    | some S =>
      simp only
      split_ifs
      · cases r2 .sidedefs (k : Nat) b with
        | none => rfl
        | some b1 => simp [ih]
      · exact ih b

/-- The unrolled `Basis.del` is the recursive function of the source: it
satisfies the equation of the body with itself as the callee. -/
theorem Basis.del_unfold (type : ObjType) (objnum : Int) (basis : Basis) :
    Basis.del type objnum basis = Basis.delWith Basis.del type objnum basis := by
  cases type
  · rfl
  · rfl
  · rfl
  · simp only [Basis.del, Basis.delWith_eq]
    rw [Basis.vertexLoop_congr (Basis.delWith (Basis.delWith fun _ _ _ => none))
      Basis.del (fun _ _ => rfl)]
  · simp only [Basis.del, Basis.delWith_eq]
    rw [Basis.sectorLoop_congr (Basis.delWith (Basis.delWith fun _ _ _ => none))
      Basis.del (fun _ _ => rfl)]

/-- The effect of `del` with an index in range inside an open group: it
succeeds, the group grows by an invertible, non-empty run of operations, and
the document is the one described by `Document.deleted`. -/
theorem Basis.del_spec {b : Basis} (type : ObjType) {n : Int}
    (hact : b.mCurrentGroup.isActive = true) (hr : 0 ≤ n ∧ n < b.doc.numObjects type) :
    ∃ b' ops0 ops, Basis.del type n b = some b' ∧ b.Grew ops0 ops b' ∧ ops ≠ [] ∧
      b'.doc = b.doc.deleted type n := by
  cases type
  · exact Basis.delWith_things _ hact hr
  · exact Basis.delWith_linedefs _ hact hr
  · exact Basis.delWith_sidedefs _ hact hr
  · exact Basis.delWith_vertices _ hact hr
  · exact Basis.delWith_sectors _ hact hr
/-- Every call with its index in range, made in an open group, succeeds and
makes the group grow by a non-empty invertible run of operations. -/
theorem Cmd.run_grew (dflt : Defaults) {b : Basis} (c : Cmd)
    (hact : b.mCurrentGroup.isActive = true) (hr : c.InRange b.doc) :
    ∃ b' ops0 ops, c.run dflt b = some b' ∧ b.Grew ops0 ops b' ∧ ops ≠ [] := by
  cases c with
  | addNew type =>
    obtain ⟨b', e, g, _⟩ := Basis.addNew_grew dflt type hact
    exact ⟨b', _, _, by simp [Cmd.run, e], g, by simp⟩
  | del type objnum =>
    obtain ⟨b', ops0, ops, e, g, hne, _⟩ := Basis.del_spec type hact hr
    exact ⟨b', ops0, ops, e, g, hne⟩
  | changeThing n f v =>
    obtain ⟨x, hx⟩ := List.getElem?_toNat_of_range b.doc.things hr
    obtain ⟨b', e, g, _⟩ := Basis.changeThing_grew f v hact hr.1 hx
    exact ⟨b', _, _, e, g, by simp⟩
  | changeVertex n f v =>
    obtain ⟨x, hx⟩ := List.getElem?_toNat_of_range b.doc.vertices hr
    obtain ⟨b', e, g, _⟩ := Basis.changeVertex_grew f v hact hr.1 hx
    exact ⟨b', _, _, e, g, by simp⟩
  | changeSector n f v =>
    obtain ⟨x, hx⟩ := List.getElem?_toNat_of_range b.doc.sectors hr
    obtain ⟨b', e, g, _⟩ := Basis.changeSector_grew f v hact hr.1 hx
    exact ⟨b', _, _, e, g, by simp⟩
  | changeSidedef n f v =>
    obtain ⟨x, hx⟩ := List.getElem?_toNat_of_range b.doc.sidedefs hr
    obtain ⟨b', e, g, _⟩ := Basis.changeSidedef_grew f v hact hr.1 hx
    exact ⟨b', _, _, e, g, by simp⟩
  | changeLinedef n f v =>
    obtain ⟨x, hx⟩ := List.getElem?_toNat_of_range b.doc.linedefs hr
    obtain ⟨b', e, g, _⟩ := Basis.changeLinedef_grew f v hact hr.1 hx
    exact ⟨b', _, _, e, g, by simp⟩

theorem Cmd.runAll_grew (dflt : Defaults) (cmds : List Cmd) {b : Basis}
    (hact : b.mCurrentGroup.isActive = true) (hr : Cmd.AllInRange dflt cmds b) :
    ∃ b' ops0 ops, Cmd.runAll dflt cmds b = some b' ∧ b.Grew ops0 ops b' ∧
      (cmds ≠ [] → ops ≠ []) := by
  induction cmds generalizing b with
  | nil => exact ⟨b, [], [], rfl, Basis.Grew.refl b, by simp⟩
  | cons c cs ih =>
    obtain ⟨hc, hrest⟩ := hr
    obtain ⟨b1, a0, a, e1, g1, hne⟩ := Cmd.run_grew dflt c hact hc
    rw [e1] at hrest
    have hact1 : b1.mCurrentGroup.isActive = true := by rw [g1.isActive]; exact hact
    obtain ⟨b2, c0, c', e2, g2, _⟩ := ih hact1 hrest
    refine ⟨b2, a0 ++ c0, a ++ c', ?_, g1.trans g2, ?_⟩
    · simp [Cmd.runAll, e1, e2]
    · intro _
      simp [hne]
theorem Basis.Idle.not_active {b : Basis} (h : b.Idle) : b.mCurrentGroup.isActive = false := by
  simp [UndoGroup.isActive, h.1]

@[simp] theorem Basis.doProcessChangeStatus_doc (b : Basis) :
    b.doProcessChangeStatus.doc = b.doc := by
  unfold Basis.doProcessChangeStatus; split_ifs <;> rfl

@[simp] theorem Basis.doProcessChangeStatus_mCurrentGroup (b : Basis) :
    b.doProcessChangeStatus.mCurrentGroup = b.mCurrentGroup := by
  unfold Basis.doProcessChangeStatus; split_ifs <;> rfl

@[simp] theorem Basis.doProcessChangeStatus_mUndoHistory (b : Basis) :
    b.doProcessChangeStatus.mUndoHistory = b.mUndoHistory := by
  unfold Basis.doProcessChangeStatus; split_ifs <;> rfl

@[simp] theorem Basis.doProcessChangeStatus_mRedoFuture (b : Basis) :
    b.doProcessChangeStatus.mRedoFuture = b.mRedoFuture := by
  unfold Basis.doProcessChangeStatus; split_ifs <;> rfl

theorem Basis.begin_spec {b : Basis} (h : b.Idle) :
    ∃ b1, b.begin = some b1 ∧ b1.doc = b.doc ∧ b1.mCurrentGroup.mOps = [] ∧
      b1.mCurrentGroup.mDir = 1 ∧ b1.mCurrentGroup.mMessage = b.mCurrentGroup.mMessage ∧
      b1.mUndoHistory = b.mUndoHistory ∧ b1.mRedoFuture = [] := by
  have e : b.begin = some (Basis.doClearChangeStatus
      { b with mRedoFuture := [], mCurrentGroup := b.mCurrentGroup.activate }) := by
    simp [Basis.begin, h.not_active]
  exact ⟨_, e, rfl, h.2, rfl, rfl, rfl, rfl⟩

theorem Basis.end_spec {b : Basis} (hact : b.mCurrentGroup.isActive = true) :
    ∃ b', b.end_ = some b' ∧ b'.doc = b.doc ∧ b'.Idle ∧ b'.mRedoFuture = b.mRedoFuture ∧
      b'.mUndoHistory =
        (if b.mCurrentGroup.mOps = [] then b.mUndoHistory
        else { b.mCurrentGroup with mDir := -1 } :: b.mUndoHistory) := by
  unfold Basis.end_
  simp only [hact, Bool.not_true, Bool.false_eq_true, if_false]
  by_cases he : b.mCurrentGroup.mOps = []
  · have h1 : (b.mCurrentGroup.end_).isEmpty = true := by
      simp [UndoGroup.isEmpty, UndoGroup.end_, he]
    simp only [h1, if_true, he]
    exact ⟨_, rfl, by simp, by simp [Basis.Idle, UndoGroup.reset], by simp, by simp⟩
  · have h1 : (b.mCurrentGroup.end_).isEmpty = false := by
      simp [UndoGroup.isEmpty, UndoGroup.end_, he]
    simp only [h1, if_false, he]
    exact ⟨_, rfl, by simp, by simp [Basis.Idle, UndoGroup.reset], by simp,
      by simp [UndoGroup.end_]⟩

/-- The effect of a bracket whose calls have their indices in range. -/
theorem Basis.transaction_spec (dflt : Defaults) (cmds : List Cmd) {b : Basis} (h : b.Idle)
    (hr : b.TxInRange dflt cmds) :
    ∃ b' ops0 ops, b.transaction dflt cmds = some b' ∧ Seg b.doc ops0 ops b'.doc ∧
      (cmds ≠ [] → ops ≠ []) ∧ b'.Idle ∧ b'.mRedoFuture = [] ∧
      b'.mUndoHistory =
        (if ops = [] then b.mUndoHistory
        else { mOps := ops, mMessage := b.mCurrentGroup.mMessage, mDir := -1 }
          :: b.mUndoHistory) := by
  obtain ⟨b1, e1, hd1, ho1, hdir1, hm1, hu1, hf1⟩ := Basis.begin_spec h
  simp only [Basis.TxInRange, e1] at hr
  have hact1 : b1.mCurrentGroup.isActive = true := by simp [UndoGroup.isActive, hdir1]
  obtain ⟨b2, ops0, ops, e2, g, hne⟩ := Cmd.runAll_grew dflt cmds hact1 hr
  have hact2 : b2.mCurrentGroup.isActive = true := by rw [g.isActive]; exact hact1
  obtain ⟨b3, e3, hd3, hi3, hf3, hu3⟩ := Basis.end_spec hact2
  refine ⟨b3, ops0, ops, ?_, ?_, hne, hi3, ?_, ?_⟩
  · simp [Basis.transaction, e1, e2, e3]
  · rw [hd3, ← hd1]; exact g.seg
  · rw [hf3, g.mRedoFuture, hf1]
  · have hops : b2.mCurrentGroup.mOps = ops := by rw [g.mOps, ho1]; rfl
    rw [hu3, hops, g.mUndoHistory, hu1]
    split_ifs
    · rfl
    · congr 1
      have hm : b2.mCurrentGroup.mMessage = b.mCurrentGroup.mMessage := by rw [g.mMessage, hm1]
      rw [← hops, ← hm]

theorem UndoGroup.reapply_backward {g : UndoGroup} {b : Basis} {ops0 : List EditOperation}
    {d0 : Document} (hdir : g.mDir < 0) (h : applyBackwardDoc g.mOps b.doc = some (ops0, d0)) :
    g.reapply b = some ({ g with mOps := ops0, mDir := -g.mDir },
      b.moved d0 (g.mOps.reverse.map EditOperation.event)) := by
  have h1 : ¬ g.mDir > 0 := by omega
  simp [UndoGroup.reapply, h1, hdir, applyBackward_eq, h]

theorem UndoGroup.reapply_forward {g : UndoGroup} {b : Basis} {ops : List EditOperation}
    {d1 : Document} (hdir : g.mDir > 0) (h : applyForwardDoc g.mOps b.doc = some (ops, d1)) :
    g.reapply b = some ({ g with mOps := ops, mDir := -g.mDir },
      b.moved d1 (g.mOps.map EditOperation.event)) := by
  simp [UndoGroup.reapply, hdir, applyForward_eq, h]

/-- The effect of `undo` when the top of the history fits the document. -/
theorem Basis.undo_spec {b : Basis} {g : UndoGroup} {rest : List UndoGroup}
    {ops0 : List EditOperation} {d0 : Document} (hu : b.mUndoHistory = g :: rest)
    (hdir : g.mDir = -1) (hseg : Seg d0 ops0 g.mOps b.doc) :
    ∃ b', b.undo = some (true, b') ∧ b'.doc = d0 ∧ b'.mUndoHistory = rest ∧
      b'.mRedoFuture = { g with mOps := ops0, mDir := 1 } :: b.mRedoFuture ∧
      b'.mCurrentGroup = b.mCurrentGroup := by
  have hlt : g.mDir < 0 := by omega
  unfold Basis.undo
  rw [hu]
  simp only
  rw [UndoGroup.reapply_backward hlt (by exact hseg.back)]
  refine ⟨_, rfl, by simp, by simp, ?_, by simp [Basis.doClearChangeStatus]⟩
  simp [hdir, Basis.doClearChangeStatus]

/-- The effect of `redo` when the top of the redo stack fits the document. -/
theorem Basis.redo_spec {b : Basis} {g : UndoGroup} {rest : List UndoGroup}
    {ops : List EditOperation} {d1 : Document} (hf : b.mRedoFuture = g :: rest)
    (hdir : g.mDir = 1) (hseg : Seg b.doc g.mOps ops d1) :
    ∃ b', b.redo = some (true, b') ∧ b'.doc = d1 ∧ b'.mRedoFuture = rest ∧
      b'.mUndoHistory = { g with mOps := ops, mDir := -1 } :: b.mUndoHistory ∧
      b'.mCurrentGroup = b.mCurrentGroup := by
  have hgt : g.mDir > 0 := by omega
  unfold Basis.redo
  rw [hf]
  simp only
  rw [UndoGroup.reapply_forward hgt (by exact hseg.forth)]
  refine ⟨_, rfl, by simp, by simp, ?_, by simp [Basis.doClearChangeStatus]⟩
  simp [hdir, Basis.doClearChangeStatus]
theorem UndoGroup.reapply_eq (g : UndoGroup) (b : Basis) :
    g.reapply b = (g.reapplyDoc b.doc).map fun r => (r.1, b.moved r.2 g.events) := by
  unfold UndoGroup.reapply UndoGroup.reapplyDoc UndoGroup.events
  by_cases h1 : g.mDir > 0
  · simp [h1, applyForward_eq, Option.map_map, Function.comp_def]
  · by_cases h2 : g.mDir < 0
    · simp [h1, h2, applyBackward_eq, Option.map_map, Function.comp_def]
    · simp [h1, h2, Basis.moved_nil]

/-- The flag and the document `undo` produces depend on the document and on
the undo stack only. -/
theorem Basis.undo_result (b : Basis) :
    (b.undo.map fun r => (r.1, r.2.doc)) =
      match b.mUndoHistory with
      | [] => some (false, b.doc)
      | g :: _ => (g.reapplyDoc b.doc).map fun r => (true, r.2) := by
  unfold Basis.undo
  cases b.mUndoHistory with
  | nil => rfl
  | cons g rest =>
    simp only [UndoGroup.reapply_eq]
    have hd : (Basis.doClearChangeStatus b).doc = b.doc := rfl
    cases h : g.reapplyDoc b.doc with
    | none => simp [Basis.doClearChangeStatus, h]
    | some r => simp [Basis.doClearChangeStatus, h]

theorem UndoChain.undoable {ds : List Document} {d : Document} {gs : List UndoGroup}
    (h : UndoChain ds d gs) : Undoable d gs := by
  induction gs generalizing ds d with
  | nil => trivial
  | cons g gs ih =>
    cases ds with
    | nil => exact h.elim
    | cons d0 ds =>
      obtain ⟨hdir, ops0, hseg, hrest⟩ := h
      exact ⟨hdir, ops0, d0, hseg, ih hrest⟩

theorem Undoable.chain {d : Document} {gs : List UndoGroup} (h : Undoable d gs) :
    ∃ ds, UndoChain ds d gs := by
  induction gs generalizing d with
  | nil => exact ⟨[], trivial⟩
  | cons g gs ih =>
    obtain ⟨hdir, ops0, d0, hseg, hrest⟩ := h
    obtain ⟨ds, hds⟩ := ih hrest
    exact ⟨d0 :: ds, hdir, ops0, hseg, hds⟩

theorem UndoChain.length {ds : List Document} {d : Document} {gs : List UndoGroup}
    (h : UndoChain ds d gs) : ds.length = gs.length := by
  induction gs generalizing ds d with
  | nil => cases ds with
    | nil => rfl
    | cons _ _ => exact h.elim
  | cons g gs ih => cases ds with
    | nil => exact h.elim
    | cons d0 ds =>
      obtain ⟨_, _, _, hrest⟩ := h
      simp [ih hrest]

/-- Successive undos walk down the chain of documents, every call returning
true, and build the matching redo chain. -/
theorem Basis.undoTimes_chain (j : Nat) {b : Basis} {ds rs : List Document}
    (hu : UndoChain ds b.doc b.mUndoHistory) (hf : RedoChain rs b.doc b.mRedoFuture)
    (hj : j ≤ ds.length) :
    ∃ b', b.undoTimes j = some (true, b') ∧ (b.doc :: ds)[j]? = some b'.doc ∧
      UndoChain (ds.drop j) b'.doc b'.mUndoHistory ∧
      RedoChain (((b.doc :: ds).take j).reverse ++ rs) b'.doc b'.mRedoFuture ∧
      b'.mCurrentGroup = b.mCurrentGroup := by
  induction j generalizing b ds rs with
  | zero => exact ⟨b, rfl, by simp, by simpa using hu, by simpa using hf, rfl⟩
  | succ j ih =>
    cases ds with
    | nil => simp at hj
    | cons d0 ds =>
      cases hgs : b.mUndoHistory with
      | nil => rw [hgs] at hu; exact hu.elim
      | cons g gs =>
        rw [hgs] at hu
        obtain ⟨hdir, ops0, hseg, hrest⟩ := hu
        obtain ⟨b1, e1, hd1, hu1, hf1, hc1⟩ := Basis.undo_spec hgs hdir hseg
        have hu' : UndoChain ds b1.doc b1.mUndoHistory := by rw [hd1, hu1]; exact hrest
        have hf' : RedoChain (b.doc :: rs) b1.doc b1.mRedoFuture := by
          rw [hd1, hf1]
          exact ⟨rfl, g.mOps, hseg, hf⟩
        obtain ⟨b2, e2, hd2, hu2, hf2, hc2⟩ := ih hu' hf' (by simpa using hj)
        refine ⟨b2, ?_, ?_, ?_, ?_, hc2.trans hc1⟩
        · simp [Basis.undoTimes, e1, e2]
        · rw [hd1] at hd2; simpa using hd2
        · simpa using hu2
        · rw [hd1] at hf2; simpa using hf2

/-- Successive redos walk up the chain of documents, every call returning
true, and build the matching undo chain. -/
theorem Basis.redoTimes_chain (j : Nat) {b : Basis} {ds rs : List Document}
    (hu : UndoChain ds b.doc b.mUndoHistory) (hf : RedoChain rs b.doc b.mRedoFuture)
    (hj : j ≤ rs.length) :
    ∃ b', b.redoTimes j = some (true, b') ∧ (b.doc :: rs)[j]? = some b'.doc ∧
      RedoChain (rs.drop j) b'.doc b'.mRedoFuture ∧
      UndoChain (((b.doc :: rs).take j).reverse ++ ds) b'.doc b'.mUndoHistory ∧
      b'.mCurrentGroup = b.mCurrentGroup := by
  induction j generalizing b ds rs with
  | zero => exact ⟨b, rfl, by simp, by simpa using hf, by simpa using hu, rfl⟩
  | succ j ih =>
    cases rs with
    | nil => simp at hj
    | cons d1 rs =>
      cases hgs : b.mRedoFuture with
      | nil => rw [hgs] at hf; exact hf.elim
      | cons g gs =>
        rw [hgs] at hf
        obtain ⟨hdir, ops, hseg, hrest⟩ := hf
        obtain ⟨b1, e1, hd1, hf1, hu1, hc1⟩ := Basis.redo_spec hgs hdir hseg
        have hf' : RedoChain rs b1.doc b1.mRedoFuture := by rw [hd1, hf1]; exact hrest
        have hu' : UndoChain (b.doc :: ds) b1.doc b1.mUndoHistory := by
          rw [hd1, hu1]
          exact ⟨rfl, g.mOps, hseg, hu⟩
        obtain ⟨b2, e2, hd2, hf2, hu2, hc2⟩ := ih hu' hf' (by simpa using hj)
        refine ⟨b2, ?_, ?_, ?_, ?_, hc2.trans hc1⟩
        · simp [Basis.redoTimes, e1, e2]
        · rw [hd1] at hd2; simpa using hd2
        · simpa using hf2
        · rw [hd1] at hu2; simpa using hu2

/-- A list of non-empty brackets with indices in range succeeds and stacks
one group per bracket on the history. -/
theorem Basis.transactions_chain (dflt : Defaults) (txs : List (List Cmd)) {b : Basis}
    {ds : List Document} (hi : b.Idle) (hu : UndoChain ds b.doc b.mUndoHistory)
    (hr : Basis.TxsInRange dflt txs b) :
    ∃ docs bk ds', b.transactions dflt txs = some (docs, bk) ∧ docs.length = txs.length ∧
      bk.Idle ∧ bk.doc :: ds' = docs.reverse ++ b.doc :: ds ∧
      UndoChain ds' bk.doc bk.mUndoHistory ∧ (txs ≠ [] → bk.mRedoFuture = []) := by
  induction txs generalizing b ds with
  | nil => exact ⟨[], b, ds, rfl, rfl, hi, rfl, hu, by simp⟩
  | cons cmds rest ih =>
    obtain ⟨hne, hin, hrest⟩ := hr
    obtain ⟨b1, ops0, ops, e1, hseg, hops, hi1, hf1, hu1⟩ :=
      Basis.transaction_spec dflt cmds hi hin
    rw [e1] at hrest
    have hu' : UndoChain (b.doc :: ds) b1.doc b1.mUndoHistory := by
      rw [hu1, if_neg (hops hne)]
      exact ⟨rfl, ops0, hseg, hu⟩
    obtain ⟨docs, bk, ds', e2, hlen, hik, hds, huk, hfk⟩ := ih hi1 hu' hrest
    refine ⟨b1.doc :: docs, bk, ds', ?_, by simp [hlen], hik, ?_, huk, ?_⟩
    · simp [Basis.transactions, e1, e2]
    · rw [hds]; simp
    · intro _
      cases rest with
      | nil =>
        simp only [Basis.transactions, Option.some.injEq, Prod.mk.injEq] at e2
        rw [← e2.2]; exact hf1
      | cons _ _ => exact hfk (by simp)
theorem LineDef.unbound_explicit (n : Int) (L : LineDef) :
    LineDef.unbound n L =
      { L with
        right := if L.right = n then -1 else L.right
        left := if L.left = n then -1 else L.left } := by
  obtain ⟨s, e, r, l, fl, ty, tg, a2, a3, a4, a5⟩ := L
  simp only [LineDef.unbound, LineDef.set]
  split_ifs <;> simp_all

theorem LineDef.sidedefDeleted_explicit (n : Int) (L : LineDef) :
    LineDef.sidedefDeleted n L =
      { L with
        right := if L.right > n then L.right - 1 else L.right
        left := if L.left > n then L.left - 1 else L.left } := by
  obtain ⟨s, e, r, l, fl, ty, tg, a2, a3, a4, a5⟩ := L
  simp only [LineDef.sidedefDeleted]
  split_ifs <;> simp_all

theorem LineDef.vertexDeleted_explicit (n : Int) (L : LineDef) :
    LineDef.vertexDeleted n L =
      { L with
        start := if L.start > n then L.start - 1 else L.start
        end_ := if L.end_ > n then L.end_ - 1 else L.end_ } := by
  obtain ⟨s, e, r, l, fl, ty, tg, a2, a3, a4, a5⟩ := L
  simp only [LineDef.vertexDeleted]
  split_ifs <;> simp_all

/-- The side index `x` of a linedef after `del(sidedefs, s)` in a document
of `count` sidedefs. -/
theorem Document.deleted_sidedefs_explicit (d : Document) (s : Int) (hs : 0 ≤ s) :
    d.deleted .sidedefs s =
      { d with
        sidedefs := d.sidedefs.eraseIdx s.toNat
        linedefs := d.linedefs.map fun L =>
          { L with
            right :=
              if L.right = s then -1
              else if s + 1 < d.numSidedefs ∧ L.right > s then L.right - 1 else L.right
            left :=
              if L.left = s then -1
              else if s + 1 < d.numSidedefs ∧ L.left > s then L.left - 1 else L.left } } := by
  simp only [Document.deleted, Document.cascaded, Document.erased, Document.numSidedefs]
  congr 1
  by_cases hc : s + 1 < (d.sidedefs.length : Int)
  · simp only [hc, if_true, List.map_map, true_and]
    apply List.map_congr_left
    intro L _
    obtain ⟨st, e, r, l, fl, ty, tg, a2, a3, a4, a5⟩ := L
    simp only [Function.comp, LineDef.unbound_explicit, LineDef.sidedefDeleted_explicit]
    simp only [LineDef.mk.injEq, true_and, and_true]
    constructor <;> split_ifs <;> first | rfl | omega
  · simp only [hc, if_false, false_and]
    apply List.map_congr_left
    intro L _
    simp only [LineDef.unbound_explicit]

theorem Document.deleted_vertices_explicit (d : Document) (v : Int) :
    d.deleted .vertices v =
      { d with
        vertices := d.vertices.eraseIdx v.toNat
        linedefs :=
          (d.linedefs.filter fun L => !decide (L.start = v ∨ L.end_ = v)).map fun L =>
            { L with
              start := if v + 1 < d.numVertices ∧ L.start > v then L.start - 1 else L.start
              end_ := if v + 1 < d.numVertices ∧ L.end_ > v then L.end_ - 1 else L.end_ } } := by
  simp only [Document.deleted, Document.cascaded, Document.erased, Document.numVertices]
  congr 1
  by_cases hc : v + 1 < (d.vertices.length : Int)
  · simp only [hc, if_true, true_and]
    apply List.map_congr_left
    intro L _
    simp only [LineDef.vertexDeleted_explicit]
  · simp only [hc, if_false, false_and]
    symm
    apply List.map_eq_self_of_forall
    intro L _
    rfl

theorem List.mem_of_mem_eraseIdx' {α : Type} {xs : List α} {k : Nat} {x : α}
    (h : x ∈ xs.eraseIdx k) : x ∈ xs := by
  induction xs generalizing k with
  | nil => simp at h
  | cons y ys ih =>
    cases k with
    | zero => simp at h; simp [h]
    | succ k =>
      simp only [List.eraseIdx_cons_succ, List.mem_cons] at h ⊢
      rcases h with h | h
      · exact Or.inl h
      · exact Or.inr (ih h)

theorem List.length_eraseIdx_of_lt {α : Type} {xs : List α} {k : Nat} (h : k < xs.length) :
    ((xs.eraseIdx k).length : Int) = (xs.length : Int) - 1 := by
  rw [List.length_eraseIdx, if_pos h]
  omega

theorem Document.deleted_things_valid {d : Document} (n : Int) (h : d.Valid) :
    (d.deleted .things n).Valid := h

theorem Document.deleted_linedefs_valid {d : Document} (n : Int) (h : d.Valid) :
    (d.deleted .linedefs n).Valid :=
  ⟨h.1, fun L hL => h.2.1 L (List.mem_of_mem_eraseIdx' hL),
    fun L hL => h.2.2 L (List.mem_of_mem_eraseIdx' hL)⟩

theorem Document.withoutSidedef_verticesOk {d : Document} (n : Int) (hn : 0 ≤ n)
    (h : d.VerticesOk) : (d.withoutSidedef n).VerticesOk := by
  rw [← Document.deleted_sidedefs, Document.deleted_sidedefs_explicit _ _ hn]
  intro L hL
  simp only [List.mem_map] at hL
  obtain ⟨L0, hL0, rfl⟩ := hL
  exact h L0 hL0

theorem Document.withoutSidedef_sidesOk {d : Document} {n : Int}
    (hn : 0 ≤ n ∧ n < d.numSidedefs) (h : d.SidesOk) : (d.withoutSidedef n).SidesOk := by
  rw [← Document.deleted_sidedefs, Document.deleted_sidedefs_explicit _ _ hn.1]
  intro L hL
  simp only [List.mem_map] at hL
  obtain ⟨L0, hL0, rfl⟩ := hL
  have h0 := h L0 hL0
  have hlt : n.toNat < d.sidedefs.length := by
    have := hn.2
    simp only [Document.numSidedefs] at this
    omega
  have hlen := List.length_eraseIdx_of_lt hlt
  have hn2 := hn.2
  simp only [Document.numSidedefs] at h0 hn2 ⊢
  rw [hlen]
  constructor
  · rcases h0.1 with h1 | h1
    · left; split_ifs <;> omega
    · split_ifs <;> omega
  · rcases h0.2 with h1 | h1
    · left; split_ifs <;> omega
    · split_ifs <;> omega

theorem Document.deleted_sidedefs_valid {d : Document} {n : Int}
    (hn : 0 ≤ n ∧ n < d.numSidedefs) (h : d.Valid) : (d.deleted .sidedefs n).Valid := by
  refine ⟨?_, ?_, ?_⟩
  · intro S hS
    exact h.1 S (List.mem_of_mem_eraseIdx' hS)
  · exact Document.withoutSidedef_verticesOk n hn.1 h.2.1
  · exact Document.withoutSidedef_sidesOk hn h.2.2

theorem Document.deleted_vertices_valid {d : Document} {n : Int}
    (hn : 0 ≤ n ∧ n < d.numVertices) (h : d.Valid) : (d.deleted .vertices n).Valid := by
  rw [Document.deleted_vertices_explicit]
  have hlt : n.toNat < d.vertices.length := by
    have := hn.2
    simp only [Document.numVertices] at this
    omega
  have hlen := List.length_eraseIdx_of_lt hlt
  refine ⟨h.1, ?_, ?_⟩
  · intro L hL
    simp only [List.mem_map, List.mem_filter] at hL
    obtain ⟨L0, ⟨hL0, hk⟩, rfl⟩ := hL
    simp only [Bool.not_eq_eq_eq_not, Bool.not_true, decide_eq_false_iff_not, not_or] at hk
    have h0 := h.2.1 L0 hL0
    have hn2 := hn.2
    simp only [Document.numVertices] at h0 hn2 ⊢
    rw [hlen]
    split_ifs <;> omega
  · intro L hL
    simp only [List.mem_map, List.mem_filter] at hL
    obtain ⟨L0, ⟨hL0, _⟩, rfl⟩ := hL
    exact h.2.2 L0 hL0
theorem Document.sectorLoop_verticesOk (n : Int) (k : Nat) {d : Document}
    (h : d.VerticesOk) : (Document.sectorLoop n k d).VerticesOk := by
  induction k generalizing d with
  | zero => exact h
  | succ k ih =>
    simp only [Document.sectorLoop]
    split
    · exact h
    · split_ifs
      · exact ih (Document.withoutSidedef_verticesOk _ (Int.ofNat_nonneg k) h)
      · exact ih h

theorem Document.sectorLoop_sidesOk (n : Int) (k : Nat) {d : Document}
    (h : d.SidesOk) : (Document.sectorLoop n k d).SidesOk := by
  induction k generalizing d with
  | zero => exact h
  | succ k ih =>
    simp only [Document.sectorLoop]
    split
    · exact h
    · rename_i S hS
      have hlt : k < d.sidedefs.length := (List.getElem?_eq_some_iff.mp hS).1
      split_ifs
      · exact ih (Document.withoutSidedef_sidesOk
          ⟨Int.ofNat_nonneg k, by simp only [Document.numSidedefs]; omega⟩ h)
      · exact ih h

theorem Document.sectorLoop_linedefs_length (n : Int) (k : Nat) (d : Document) :
    (Document.sectorLoop n k d).linedefs.length = d.linedefs.length := by
  induction k generalizing d with
  | zero => rfl
  | succ k ih =>
    simp only [Document.sectorLoop]
    split
    · rfl
    · split_ifs
      · rw [ih, ← Document.deleted_sidedefs,
          Document.deleted_sidedefs_explicit _ _ (Int.ofNat_nonneg k)]
        simp
      · exact ih d

/-- Through the sector cascade a side that is negative stays as it is, and a
side that refers to a visited sidedef bound to the sector becomes `-1`. -/
theorem Document.sectorLoop_unbinds (n : Int) (k : Nat) (d : Document) (i : Nat) (L : LineDef)
    (hk : k ≤ d.sidedefs.length) (hL : d.linedefs[i]? = some L) :
    ∃ L', (Document.sectorLoop n k d).linedefs[i]? = some L' ∧
      (L.right < 0 → L'.right = L.right) ∧ (L.left < 0 → L'.left = L.left) ∧
      (∀ S, 0 ≤ L.right → L.right < k → d.sidedefs[L.right.toNat]? = some S →
        S.sector = n → L'.right = -1) ∧
      (∀ S, 0 ≤ L.left → L.left < k → d.sidedefs[L.left.toNat]? = some S →
        S.sector = n → L'.left = -1) := by
  induction k generalizing d L with
  | zero =>
    refine ⟨L, hL, fun _ => rfl, fun _ => rfl, ?_, ?_⟩
    · intro S h0 hk; omega
    · intro S h0 hk; omega
  | succ k ih =>
    simp only [Document.sectorLoop]
    split
    · rename_i hnone
      have hge := List.getElem?_eq_none_iff.mp hnone
      omega
    · rename_i Sk hSk
      have hklt : k < d.sidedefs.length := (List.getElem?_eq_some_iff.mp hSk).1
      split_ifs with hc
      · -- sidedef `k` is bound to the sector and is deleted
        have hL1 : (d.withoutSidedef k).linedefs[i]? = some
            { L with
              right :=
                if L.right = k then -1
                else if (k : Int) + 1 < d.numSidedefs ∧ L.right > k then L.right - 1
                else L.right
              left :=
                if L.left = k then -1
                else if (k : Int) + 1 < d.numSidedefs ∧ L.left > k then L.left - 1
                else L.left } := by
          rw [← Document.deleted_sidedefs,
            Document.deleted_sidedefs_explicit _ _ (Int.ofNat_nonneg k)]
          simp [hL]
        have hk1 : k ≤ (d.withoutSidedef k).sidedefs.length := by
          simp only [Document.withoutSidedef_sidedefs, Int.toNat_ofNat, List.length_eraseIdx,
            if_pos hklt]
          omega
        obtain ⟨L', e, hr, hl, hR, hLf⟩ := ih _ _ hk1 hL1
        simp only at hr hl hR hLf
        refine ⟨L', e, ?_, ?_, ?_, ?_⟩
        · intro hneg
          have h1 : ¬ L.right = k := by omega
          have h2 : ¬ ((k : Int) + 1 < d.numSidedefs ∧ L.right > k) := by omega
          simp only [h1, h2, if_false] at hr
          exact hr hneg
        · intro hneg
          have h1 : ¬ L.left = k := by omega
          have h2 : ¬ ((k : Int) + 1 < d.numSidedefs ∧ L.left > k) := by omega
          simp only [h1, h2, if_false] at hl
          exact hl hneg
        · intro S h0 hk hS hsec
          by_cases hek : L.right = k
          · simp only [hek, if_true] at hr
            exact hr (by omega)
          · have h2 : ¬ ((k : Int) + 1 < d.numSidedefs ∧ L.right > k) := by omega
            simp only [hek, h2, if_false] at hR
            refine hR S h0 (by omega) ?_ hsec
            simp only [Document.withoutSidedef_sidedefs, Int.toNat_ofNat,
              List.getElem?_eraseIdx]
            have : L.right.toNat < k := by omega
            simp [this, hS]
        · intro S h0 hk hS hsec
          by_cases hek : L.left = k
          · simp only [hek, if_true] at hl
            exact hl (by omega)
          · have h2 : ¬ ((k : Int) + 1 < d.numSidedefs ∧ L.left > k) := by omega
            simp only [hek, h2, if_false] at hLf
            refine hLf S h0 (by omega) ?_ hsec
            simp only [Document.withoutSidedef_sidedefs, Int.toNat_ofNat,
              List.getElem?_eraseIdx]
            have : L.left.toNat < k := by omega
            simp [this, hS]
      · -- sidedef `k` stays
        obtain ⟨L', e, hr, hl, hR, hLf⟩ := ih d L (by omega) hL
        refine ⟨L', e, hr, hl, ?_, ?_⟩
        · intro S h0 hk hS hsec
          by_cases hek : L.right = k
          · rw [hek] at hS
            simp only [Int.toNat_ofNat, hSk, Option.some.injEq] at hS
            rw [hS] at hc
            exact absurd hsec hc
          · exact hR S h0 (by omega) hS hsec
        · intro S h0 hk hS hsec
          by_cases hek : L.left = k
          · rw [hek] at hS
            simp only [Int.toNat_ofNat, hSk, Option.some.injEq] at hS
            rw [hS] at hc
            exact absurd hsec hc
          · exact hLf S h0 (by omega) hS hsec

theorem SideDef.sectorDeleted_explicit (n : Int) (S : SideDef) :
    SideDef.sectorDeleted n S =
      { S with sector := if S.sector > n then S.sector - 1 else S.sector } := by
  obtain ⟨x, y, u, m, l, s⟩ := S
  simp only [SideDef.sectorDeleted]
  split_ifs <;> rfl

theorem Document.deleted_sectors_linedefs (d : Document) (n : Int) :
    (d.deleted .sectors n).linedefs = (Document.sectorLoop n d.sidedefs.length d).linedefs := by
  simp only [Document.deleted, Document.cascaded, Document.erased]

theorem Document.deleted_sectors_sectors (d : Document) (n : Int) :
    (d.deleted .sectors n).sectors = d.sectors.eraseIdx n.toNat := by
  simp only [Document.deleted, Document.cascaded, Document.erased, Document.sectorLoop_sectors]

theorem Document.deleted_sectors_vertices (d : Document) (n : Int) :
    (d.deleted .sectors n).vertices = d.vertices := by
  simp only [Document.deleted, Document.cascaded, Document.erased, Document.sectorLoop_vertices]

/-- The sidedefs after `del(sectors, n)` in a document whose sidedefs are
bound to existing sectors: those bound to `n` are gone, the others keep
their order, and a sector index above `n` is shifted down. -/
theorem Document.deleted_sectors_sidedefs {d : Document} (n : Int) (h : d.SectorsOk) :
    (d.deleted .sectors n).sidedefs =
      (d.sidedefs.filter fun S => !decide (S.sector = n)).map fun S =>
        { S with sector := if S.sector > n then S.sector - 1 else S.sector } := by
  simp only [Document.deleted, Document.cascaded, Document.erased, Document.numSectors,
    Document.sectorLoop_sectors, Document.sectorLoop_sidedefs n _ d (le_refl _),
    List.take_length, List.drop_length, List.append_nil]
  split_ifs with hc
  · apply List.map_congr_left
    intro S _
    exact SideDef.sectorDeleted_explicit n S
  · symm
    apply List.map_eq_self_of_forall
    intro S hS
    have h0 := h S (List.mem_filter.mp hS).1
    simp only [Document.numSectors] at h0
    have : ¬ S.sector > n := by omega
    simp only [this, if_false]

theorem Document.deleted_sectors_valid {d : Document} {n : Int}
    (hn : 0 ≤ n ∧ n < d.numSectors) (h : d.Valid) : (d.deleted .sectors n).Valid := by
  have hlt : n.toNat < d.sectors.length := by
    have := hn.2
    simp only [Document.numSectors] at this
    omega
  have hlen := List.length_eraseIdx_of_lt hlt
  refine ⟨?_, ?_, ?_⟩
  · intro S hS
    rw [Document.deleted_sectors_sidedefs n h.1] at hS
    simp only [List.mem_map, List.mem_filter] at hS
    obtain ⟨S0, ⟨hS0, hk⟩, rfl⟩ := hS
    simp only [Bool.not_eq_eq_eq_not, Bool.not_true, decide_eq_false_iff_not] at hk
    have h0 := h.1 S0 hS0
    have hn2 := hn.2
    simp only [Document.numSectors, Document.deleted_sectors_sectors] at h0 hn2 ⊢
    rw [hlen]
    split_ifs <;> omega
  · have hv := Document.sectorLoop_verticesOk n d.sidedefs.length h.2.1
    intro L hL
    rw [Document.deleted_sectors_linedefs] at hL
    have := hv L hL
    simpa only [Document.numVertices, Document.deleted_sectors_vertices,
      Document.sectorLoop_vertices] using this
  · have hs := Document.sectorLoop_sidesOk n d.sidedefs.length h.2.2
    intro L hL
    rw [Document.deleted_sectors_linedefs] at hL
    have := hs L hL
    have he : (d.deleted .sectors n).sidedefs.length =
        (Document.sectorLoop n d.sidedefs.length d).sidedefs.length := by
      simp only [Document.deleted, Document.cascaded, Document.erased]
      split_ifs <;> simp
    simpa only [Document.numSidedefs, he] using this

/-- The referential invariants survive `del` of any kind of object. -/
theorem Document.deleted_valid {d : Document} (type : ObjType) {n : Int}
    (hn : 0 ≤ n ∧ n < d.numObjects type) (h : d.Valid) : (d.deleted type n).Valid := by
  cases type
  · exact Document.deleted_things_valid n h
  · exact Document.deleted_linedefs_valid n h
  · exact Document.deleted_sidedefs_valid hn h
  · exact Document.deleted_vertices_valid hn h
  · exact Document.deleted_sectors_valid hn h

theorem List.length_filter_add_length_filter_not {α : Type} (p : α → Bool) (xs : List α) :
    (xs.filter fun x => !p x).length + (xs.filter p).length = xs.length := by
  induction xs with
  | nil => rfl
  | cons y ys ih =>
    simp only [List.filter_cons]
    cases hp : p y <;> simp <;> omega
theorem Document.pushed_valid (dflt : Defaults) {d : Document} {type : ObjType}
    (ht : type = .things ∨ type = .vertices ∨ type = .sectors) (h : d.Valid) :
    (d.pushed dflt type).Valid := by
  rcases ht with rfl | rfl | rfl
  · exact h
  · refine ⟨h.1, ?_, h.2.2⟩
    intro L hL
    have := h.2.1 L hL
    simp only [Document.pushed, Document.numVertices, List.length_append, List.length_singleton,
      Nat.cast_add, Nat.cast_one] at this ⊢
    omega
  · refine ⟨?_, h.2.1, h.2.2⟩
    intro S hS
    have := h.1 S hS
    simp only [Document.pushed, Document.numSectors, List.length_append, List.length_singleton,
      Nat.cast_add, Nat.cast_one] at this ⊢
    omega

theorem SideDef.set_sector_of_ne {f : SideDefField} (x : SideDef) (v : Int)
    (hf : f ≠ .sector) : (x.set f v).sector = x.sector := by
  cases f <;> simp_all [SideDef.set]

theorem LineDef.set_refs_of_ne {f : LineDefField} (x : LineDef) (v : Int)
    (hf : f ≠ .start ∧ f ≠ .end_ ∧ f ≠ .right ∧ f ≠ .left) :
    (x.set f v).start = x.start ∧ (x.set f v).end_ = x.end_ ∧
      (x.set f v).right = x.right ∧ (x.set f v).left = x.left := by
  obtain ⟨h1, h2, h3, h4⟩ := hf
  cases f <;> simp_all [LineDef.set]

theorem Document.set_sidedef_valid {d : Document} {i : Nat} {x : SideDef} {f : SideDefField}
    (v : Int) (hf : f ≠ .sector) (hx : d.sidedefs[i]? = some x) (h : d.Valid) :
    Document.Valid { d with sidedefs := d.sidedefs.set i (x.set f v) } := by
  refine ⟨?_, h.2.1, ?_⟩
  · intro S hS
    rcases List.mem_or_eq_of_mem_set hS with hS | rfl
    · exact h.1 S hS
    · have := h.1 x (List.getElem?_mem hx)
      rw [SideDef.set_sector_of_ne x v hf]
      exact this
  · intro L hL
    have := h.2.2 L hL
    simpa only [Document.numSidedefs, List.length_set] using this

theorem Document.set_linedef_valid {d : Document} {i : Nat} {x : LineDef} {f : LineDefField}
    (v : Int) (hf : f ≠ .start ∧ f ≠ .end_ ∧ f ≠ .right ∧ f ≠ .left)
    (hx : d.linedefs[i]? = some x) (h : d.Valid) :
    Document.Valid { d with linedefs := d.linedefs.set i (x.set f v) } := by
  have hxm : x ∈ d.linedefs := List.getElem?_mem hx
  obtain ⟨k1, k2, k3, k4⟩ := LineDef.set_refs_of_ne x v hf
  refine ⟨h.1, ?_, ?_⟩
  · intro L hL
    rcases List.mem_or_eq_of_mem_set hL with hL | rfl
    · exact h.2.1 L hL
    · have := h.2.1 x hxm
      rw [k1, k2]
      exact this
  · intro L hL
    rcases List.mem_or_eq_of_mem_set hL with hL | rfl
    · exact h.2.2 L hL
    · have := h.2.2 x hxm
      rw [k3, k4]
      exact this

/-- A call that cannot break a reference, made with its index in range in an
open group, succeeds and keeps the referential invariants. -/
theorem Cmd.run_valid (dflt : Defaults) {b : Basis} (c : Cmd)
    (hact : b.mCurrentGroup.isActive = true) (hr : c.InRange b.doc) (hk : c.KeepsRefs)
    (hv : b.doc.Valid) :
    ∃ b', c.run dflt b = some b' ∧ b'.mCurrentGroup.isActive = true ∧ b'.doc.Valid := by
  cases c with
  | addNew type =>
    obtain ⟨b', e, g, hd⟩ := Basis.addNew_grew dflt type hact
    exact ⟨b', by simp [Cmd.run, e], by rw [g.isActive]; exact hact,
      by rw [hd]; exact Document.pushed_valid dflt hk hv⟩
  | del type objnum =>
    obtain ⟨b', ops0, ops, e, g, _, hd⟩ := Basis.del_spec type hact hr
    exact ⟨b', e, by rw [g.isActive]; exact hact,
      by rw [hd]; exact Document.deleted_valid type hr hv⟩
  | changeThing n f v =>
    obtain ⟨x, hx⟩ := List.getElem?_toNat_of_range b.doc.things hr
    obtain ⟨b', e, g, hd⟩ := Basis.changeThing_grew f v hact hr.1 hx
    exact ⟨b', e, by rw [g.isActive]; exact hact, by rw [hd]; exact hv⟩
  | changeVertex n f v =>
    obtain ⟨x, hx⟩ := List.getElem?_toNat_of_range b.doc.vertices hr
    obtain ⟨b', e, g, hd⟩ := Basis.changeVertex_grew f v hact hr.1 hx
    refine ⟨b', e, by rw [g.isActive]; exact hact, ?_⟩
    rw [hd]
    refine ⟨hv.1, ?_, hv.2.2⟩
    intro L hL
    have := hv.2.1 L hL
    simpa only [Document.numVertices, List.length_set] using this
  | changeSector n f v =>
    obtain ⟨x, hx⟩ := List.getElem?_toNat_of_range b.doc.sectors hr
    obtain ⟨b', e, g, hd⟩ := Basis.changeSector_grew f v hact hr.1 hx
    refine ⟨b', e, by rw [g.isActive]; exact hact, ?_⟩
    rw [hd]
    refine ⟨?_, hv.2.1, hv.2.2⟩
    intro S hS
    have := hv.1 S hS
    simpa only [Document.numSectors, List.length_set] using this
  | changeSidedef n f v =>
    obtain ⟨x, hx⟩ := List.getElem?_toNat_of_range b.doc.sidedefs hr
    obtain ⟨b', e, g, hd⟩ := Basis.changeSidedef_grew f v hact hr.1 hx
    exact ⟨b', e, by rw [g.isActive]; exact hact,
      by rw [hd]; exact Document.set_sidedef_valid v hk hx hv⟩
  | changeLinedef n f v =>
    obtain ⟨x, hx⟩ := List.getElem?_toNat_of_range b.doc.linedefs hr
    obtain ⟨b', e, g, hd⟩ := Basis.changeLinedef_grew f v hact hr.1 hx
    exact ⟨b', e, by rw [g.isActive]; exact hact,
      by rw [hd]; exact Document.set_linedef_valid v hk hx hv⟩

theorem Cmd.runAll_valid (dflt : Defaults) (cmds : List Cmd) {b : Basis}
    (hact : b.mCurrentGroup.isActive = true) (hr : Cmd.AllInRange dflt cmds b)
    (hk : ∀ c ∈ cmds, c.KeepsRefs) (hv : b.doc.Valid) :
    ∃ b', Cmd.runAll dflt cmds b = some b' ∧ b'.mCurrentGroup.isActive = true ∧
      b'.doc.Valid := by
  induction cmds generalizing b with
  | nil => exact ⟨b, rfl, hact, hv⟩
  | cons c cs ih =>
    obtain ⟨hc, hrest⟩ := hr
    obtain ⟨b1, e1, hact1, hv1⟩ := Cmd.run_valid dflt c hact hc (hk c (by simp)) hv
    rw [e1] at hrest
    obtain ⟨b2, e2, hact2, hv2⟩ := ih hact1 hrest (fun c' hc' => hk c' (by simp [hc'])) hv1
    exact ⟨b2, by simp [Cmd.runAll, e1, e2], hact2, hv2⟩
theorem Seg.eq_of_nil {d0 d1 : Document} {ops0 : List EditOperation} (h : Seg d0 ops0 [] d1) :
    d0 = d1 ∧ ops0 = [] := by
  have := h.back
  simp only [applyBackwardDoc, List.reverse_nil, applyForwardDoc, Option.map_some',
    Option.some.injEq, Prod.mk.injEq] at this
  exact ⟨this.2.symm, this.1.symm⟩

theorem RedoChain.redoable {ds : List Document} {d : Document} {gs : List UndoGroup}
    (h : RedoChain ds d gs) : Redoable d gs := by
  induction gs generalizing ds d with
  | nil => trivial
  | cons g gs ih =>
    cases ds with
    | nil => exact h.elim
    | cons d1 ds =>
      obtain ⟨hdir, ops, hseg, hrest⟩ := h
      exact ⟨hdir, ops, d1, hseg, ih hrest⟩

/-- A new basis is consistent. -/
theorem Basis.fresh_consistent (doc : Document) : (Basis.fresh doc).Consistent :=
  ⟨⟨rfl, rfl⟩, trivial, trivial⟩

/-- A bracket of in-range calls keeps the basis consistent. -/
theorem Basis.transaction_consistent (dflt : Defaults) (cmds : List Cmd) {b : Basis}
    (h : b.Consistent) (hr : b.TxInRange dflt cmds) :
    ∃ b', b.transaction dflt cmds = some b' ∧ b'.Consistent := by
  obtain ⟨b1, ops0, ops, e1, hseg, _, hi1, hf1, hu1⟩ := Basis.transaction_spec dflt cmds h.1 hr
  refine ⟨b1, e1, hi1, ?_, by rw [hf1]; trivial⟩
  rw [hu1]
  split_ifs with ho
  · subst ho
    rw [← hseg.eq_of_nil.1]
    exact h.2.1
  · exact ⟨rfl, ops0, b.doc, hseg, h.2.1⟩

/-- `undo` keeps the basis consistent. -/
theorem Basis.undo_consistent {b : Basis} (h : b.Consistent) :
    ∃ f b', b.undo = some (f, b') ∧ b'.Consistent := by
  cases hu : b.mUndoHistory with
  | nil => exact ⟨false, b, by simp [Basis.undo, hu], h⟩
  | cons g rest =>
    have hfit := h.2.1
    rw [hu] at hfit
    obtain ⟨hdir, ops0, d0, hseg, hrest⟩ := hfit
    obtain ⟨b', e, hd, hu', hf', hc'⟩ := Basis.undo_spec hu hdir hseg
    refine ⟨true, b', e, ?_, ?_, ?_⟩
    · exact ⟨by rw [hc']; exact h.1.1, by rw [hc']; exact h.1.2⟩
    · rw [hd, hu']; exact hrest
    · rw [hd, hf']; exact ⟨rfl, g.mOps, b.doc, hseg, h.2.2⟩

/-- `redo` keeps the basis consistent. -/
theorem Basis.redo_consistent {b : Basis} (h : b.Consistent) :
    ∃ f b', b.redo = some (f, b') ∧ b'.Consistent := by
  cases hf : b.mRedoFuture with
  | nil => exact ⟨false, b, by simp [Basis.redo, hf], h⟩
  | cons g rest =>
    have hfit := h.2.2
    rw [hf] at hfit
    obtain ⟨hdir, ops, d1, hseg, hrest⟩ := hfit
    obtain ⟨b', e, hd, hf', hu', hc'⟩ := Basis.redo_spec hf hdir hseg
    refine ⟨true, b', e, ?_, ?_, ?_⟩
    · exact ⟨by rw [hc']; exact h.1.1, by rw [hc']; exact h.1.2⟩
    · rw [hd, hu']; exact ⟨rfl, g.mOps, b.doc, hseg, h.2.1⟩
    · rw [hd, hf']; exact hrest
@[simp] theorem Basis.doProcessChangeStatus_idle (b : Basis) :
    b.doProcessChangeStatus.Idle ↔ b.Idle := by
  simp [Basis.Idle]

/-- The effect of `abort(true)` in an open group: the group is dropped,
everything else stays. -/
theorem Basis.abort_keep_spec {b : Basis} (hact : b.mCurrentGroup.isActive = true) :
    ∃ b', b.abort true = some b' ∧ b'.doc = b.doc ∧ b'.Idle ∧
      b'.mUndoHistory = b.mUndoHistory ∧ b'.mRedoFuture = b.mRedoFuture := by
  unfold Basis.abort
  simp only [hact, Bool.not_true, Bool.false_eq_true, if_false, Bool.false_and,
    Option.map_some']
  exact ⟨_, rfl, by simp, by simp [Basis.Idle, UndoGroup.reset], by simp, by simp⟩

/-- The effect of `abort(false)` in an open group whose operations record a
passage from `d0` to the document: the document is `d0` again. -/
theorem Basis.abort_rollback_spec {b : Basis} {d0 : Document} {ops0 : List EditOperation}
    (hact : b.mCurrentGroup.isActive = true) (hseg : Seg d0 ops0 b.mCurrentGroup.mOps b.doc) :
    ∃ b', b.abort false = some b' ∧ b'.doc = d0 ∧ b'.Idle ∧
      b'.mUndoHistory = b.mUndoHistory ∧ b'.mRedoFuture = b.mRedoFuture := by
  unfold Basis.abort
  simp only [hact, Bool.not_true, Bool.false_eq_true, if_false, Bool.not_false, Bool.true_and]
  by_cases he : b.mCurrentGroup.mOps = []
  · have h1 : (b.mCurrentGroup.end_).isEmpty = true := by
      simp [UndoGroup.isEmpty, UndoGroup.end_, he]
    rw [he] at hseg
    have hd : d0 = b.doc := hseg.eq_of_nil.1
    simp only [h1, Bool.not_true, Bool.false_eq_true, if_false, Option.map_some']
    exact ⟨_, rfl, by simp [hd], by simp [Basis.Idle, UndoGroup.reset], by simp, by simp⟩
  · have h1 : (b.mCurrentGroup.end_).isEmpty = false := by
      simp [UndoGroup.isEmpty, UndoGroup.end_, he]
    have hre := UndoGroup.reapply_backward (g := b.mCurrentGroup.end_)
      (b := { b with mCurrentGroup := b.mCurrentGroup.end_ }) (by simp [UndoGroup.end_])
      (by exact hseg.back)
    simp only [h1, Bool.not_false, if_true, hre, Option.map_some']
    exact ⟨_, rfl, by simp, by simp [Basis.Idle, UndoGroup.reset], by simp, by simp⟩
theorem Basis.bracket_spec (dflt : Defaults) (cmds : List Cmd) {b : Basis} (h : b.Idle)
    (hr : b.TxInRange dflt cmds) :
    ∃ bk ops0, b.bracket dflt cmds = some bk ∧ bk.mCurrentGroup.isActive = true ∧
      Seg b.doc ops0 bk.mCurrentGroup.mOps bk.doc ∧
      bk.mUndoHistory = b.mUndoHistory ∧ bk.mRedoFuture = [] := by
  obtain ⟨b1, e1, hd1, ho1, hdir1, _, hu1, hf1⟩ := Basis.begin_spec h
  simp only [Basis.TxInRange, e1] at hr
  have hact1 : b1.mCurrentGroup.isActive = true := by simp [UndoGroup.isActive, hdir1]
  obtain ⟨b2, ops0, ops, e2, g, _⟩ := Cmd.runAll_grew dflt cmds hact1 hr
  refine ⟨b2, ops0, by simp [Basis.bracket, e1, e2], by rw [g.isActive]; exact hact1, ?_,
    by rw [g.mUndoHistory, hu1], by rw [g.mRedoFuture, hf1]⟩
  have hops : b2.mCurrentGroup.mOps = ops := by rw [g.mOps, ho1]; rfl
  rw [hops, ← hd1]
  exact g.seg

theorem Basis.transaction_eq_bracket (dflt : Defaults) (cmds : List Cmd) (b : Basis) :
    b.transaction dflt cmds = (b.bracket dflt cmds).bind Basis.end_ := rfl

theorem Basis.begin_eq_none (b : Basis) :
    b.begin = none ↔ b.mCurrentGroup.isActive = true := by
  unfold Basis.begin
  cases b.mCurrentGroup.isActive <;> simp

theorem Basis.end_eq_none (b : Basis) :
    b.end_ = none ↔ b.mCurrentGroup.isActive = false := by
  unfold Basis.end_
  cases b.mCurrentGroup.isActive <;> simp

theorem Basis.abort_of_not_active {b : Basis} (h : b.mCurrentGroup.isActive = false)
    (k : Bool) : b.abort k = none := by
  simp [Basis.abort, h]

/-- What `undo` returns, by the shape of the undo stack. -/
theorem Basis.undo_cases (b : Basis) :
    (b.mUndoHistory = [] ∧ b.undo = some (false, b)) ∨
    ∃ g rest, b.mUndoHistory = g :: rest ∧
      (b.undo = none ∨ ∃ g' b', b.undo = some (true, b') ∧ b'.mUndoHistory = rest ∧
        b'.mRedoFuture = g' :: b.mRedoFuture) := by
  cases hu : b.mUndoHistory with
  | nil => left; exact ⟨rfl, by simp [Basis.undo, hu]⟩
  | cons g rest =>
    right
    refine ⟨g, rest, rfl, ?_⟩
    unfold Basis.undo
    rw [hu]
    simp only
    cases hre : g.reapply _ with
    | none => left; rfl
    | some r =>
      right
      rw [UndoGroup.reapply_eq] at hre
      cases hd : g.reapplyDoc b.doc with
      | none => simp [Basis.doClearChangeStatus, hd] at hre
      | some r2 =>
        simp only [Basis.doClearChangeStatus, hd, Option.map_some', Option.some.injEq] at hre
        subst hre
        exact ⟨r2.1, _, rfl, by simp, by simp⟩

/-- What `redo` returns, by the shape of the redo stack. -/
theorem Basis.redo_cases (b : Basis) :
    (b.mRedoFuture = [] ∧ b.redo = some (false, b)) ∨
    ∃ g rest, b.mRedoFuture = g :: rest ∧
      (b.redo = none ∨ ∃ g' b', b.redo = some (true, b') ∧ b'.mRedoFuture = rest ∧
        b'.mUndoHistory = g' :: b.mUndoHistory) := by
  cases hu : b.mRedoFuture with
  | nil => left; exact ⟨rfl, by simp [Basis.redo, hu]⟩
  | cons g rest =>
    right
    refine ⟨g, rest, rfl, ?_⟩
    unfold Basis.redo
    rw [hu]
    simp only
    cases hre : g.reapply _ with
    | none => left; rfl
    | some r =>
      right
      rw [UndoGroup.reapply_eq] at hre
      cases hd : g.reapplyDoc b.doc with
      | none => simp [Basis.doClearChangeStatus, hd] at hre
      | some r2 =>
        simp only [Basis.doClearChangeStatus, hd, Option.map_some', Option.some.injEq] at hre
        subst hre
        exact ⟨r2.1, _, rfl, by simp, by simp⟩
theorem Thing.get_set_ne_thing (x : Thing) {f g : ThingField} (v : Int) (h : g ≠ f) :
    (x.set f v).get g = x.get g := by
  cases f <;> cases g <;> first | rfl | exact absurd rfl h

/-- Writing one field of one object: that field reads the new value, every
other field of every object reads as before, and no count changes. -/
theorem Document.getField_set_things (d : Document) {n : Nat} {x : Thing} (f0 : ThingField)
    (v : Int) (hx : d.things[n]? = some x) :
    Document.getField { d with things := d.things.set n (x.set f0 v) } .things n (.thing f0)
        = some v ∧
      (∀ t m f, (t, m, f) ≠ (ObjType.things, n, ItemField.thing f0) →
        Document.getField { d with things := d.things.set n (x.set f0 v) } t m f
          = d.getField t m f) ∧
      ∀ t, Document.numObjects { d with things := d.things.set n (x.set f0 v) } t
        = d.numObjects t := by
  have hn : n < d.things.length := (List.getElem?_eq_some_iff.mp hx).1
  refine ⟨?_, ?_, ?_⟩
  · simp [Document.getField, List.getElem?_set, hn, Thing.get_set_thing]
  · intro t m f hne
    cases t <;> cases f <;> try rfl
    rename_i g
    simp only [Document.getField, List.getElem?_set]
    by_cases hm : n = m
    · subst hm
      have hg : g ≠ f0 := by
        intro hg
        exact hne (by rw [hg])
      simp [hn, hx, Thing.get_set_ne_thing x v hg]
    · simp [hm]
  · intro t
    cases t <;> simp [Document.numObjects, Document.numThings, Document.numVertices,
      Document.numSectors, Document.numSidedefs, Document.numLinedefs]

theorem Vertex.get_set_ne_vertex (x : Vertex) {f g : VertexField} (v : Int) (h : g ≠ f) :
    (x.set f v).get g = x.get g := by
  cases f <;> cases g <;> first | rfl | exact absurd rfl h

/-- Writing one field of one object: that field reads the new value, every
other field of every object reads as before, and no count changes. -/
theorem Document.getField_set_vertices (d : Document) {n : Nat} {x : Vertex} (f0 : VertexField)
    (v : Int) (hx : d.vertices[n]? = some x) :
    Document.getField { d with vertices := d.vertices.set n (x.set f0 v) } .vertices n (.vertex f0)
        = some v ∧
      (∀ t m f, (t, m, f) ≠ (ObjType.vertices, n, ItemField.vertex f0) →
        Document.getField { d with vertices := d.vertices.set n (x.set f0 v) } t m f
          = d.getField t m f) ∧
      ∀ t, Document.numObjects { d with vertices := d.vertices.set n (x.set f0 v) } t
        = d.numObjects t := by
  have hn : n < d.vertices.length := (List.getElem?_eq_some_iff.mp hx).1
  refine ⟨?_, ?_, ?_⟩
  · simp [Document.getField, List.getElem?_set, hn, Vertex.get_set_vertex]
  · intro t m f hne
    cases t <;> cases f <;> try rfl
    rename_i g
    simp only [Document.getField, List.getElem?_set]
    by_cases hm : n = m
    · subst hm
      have hg : g ≠ f0 := by
        intro hg
        exact hne (by rw [hg])
      simp [hn, hx, Vertex.get_set_ne_vertex x v hg]
    · simp [hm]
  · intro t
    cases t <;> simp [Document.numObjects, Document.numThings, Document.numVertices,
      Document.numSectors, Document.numSidedefs, Document.numLinedefs]

theorem Sector.get_set_ne_sector (x : Sector) {f g : SectorField} (v : Int) (h : g ≠ f) :
    (x.set f v).get g = x.get g := by
  cases f <;> cases g <;> first | rfl | exact absurd rfl h

/-- Writing one field of one object: that field reads the new value, every
other field of every object reads as before, and no count changes. -/
theorem Document.getField_set_sectors (d : Document) {n : Nat} {x : Sector} (f0 : SectorField)
    (v : Int) (hx : d.sectors[n]? = some x) :
    Document.getField { d with sectors := d.sectors.set n (x.set f0 v) } .sectors n (.sector f0)
        = some v ∧
      (∀ t m f, (t, m, f) ≠ (ObjType.sectors, n, ItemField.sector f0) →
        Document.getField { d with sectors := d.sectors.set n (x.set f0 v) } t m f
          = d.getField t m f) ∧
      ∀ t, Document.numObjects { d with sectors := d.sectors.set n (x.set f0 v) } t
        = d.numObjects t := by
  have hn : n < d.sectors.length := (List.getElem?_eq_some_iff.mp hx).1
  refine ⟨?_, ?_, ?_⟩
  · simp [Document.getField, List.getElem?_set, hn, Sector.get_set_sector]
  · intro t m f hne
    cases t <;> cases f <;> try rfl
    rename_i g
    simp only [Document.getField, List.getElem?_set]
    by_cases hm : n = m
    · subst hm
      have hg : g ≠ f0 := by
        intro hg
        exact hne (by rw [hg])
      simp [hn, hx, Sector.get_set_ne_sector x v hg]
    · simp [hm]
  · intro t
    cases t <;> simp [Document.numObjects, Document.numThings, Document.numVertices,
      Document.numSectors, Document.numSidedefs, Document.numLinedefs]

theorem SideDef.get_set_ne_sidedef (x : SideDef) {f g : SideDefField} (v : Int) (h : g ≠ f) :
    (x.set f v).get g = x.get g := by
  cases f <;> cases g <;> first | rfl | exact absurd rfl h

/-- Writing one field of one object: that field reads the new value, every
other field of every object reads as before, and no count changes. -/
theorem Document.getField_set_sidedefs (d : Document) {n : Nat} {x : SideDef} (f0 : SideDefField)
    (v : Int) (hx : d.sidedefs[n]? = some x) :
    Document.getField { d with sidedefs := d.sidedefs.set n (x.set f0 v) } .sidedefs n (.side f0)
        = some v ∧
      (∀ t m f, (t, m, f) ≠ (ObjType.sidedefs, n, ItemField.side f0) →
        Document.getField { d with sidedefs := d.sidedefs.set n (x.set f0 v) } t m f
          = d.getField t m f) ∧
      ∀ t, Document.numObjects { d with sidedefs := d.sidedefs.set n (x.set f0 v) } t
        = d.numObjects t := by
  have hn : n < d.sidedefs.length := (List.getElem?_eq_some_iff.mp hx).1
  refine ⟨?_, ?_, ?_⟩
  · simp [Document.getField, List.getElem?_set, hn, SideDef.get_set_sidedef]
  · intro t m f hne
    cases t <;> cases f <;> try rfl
    rename_i g
    simp only [Document.getField, List.getElem?_set]
    by_cases hm : n = m
    · subst hm
      have hg : g ≠ f0 := by
        intro hg
        exact hne (by rw [hg])
      simp [hn, hx, SideDef.get_set_ne_sidedef x v hg]
    · simp [hm]
  · intro t
    cases t <;> simp [Document.numObjects, Document.numThings, Document.numVertices,
      Document.numSectors, Document.numSidedefs, Document.numLinedefs]

theorem LineDef.get_set_ne_linedef (x : LineDef) {f g : LineDefField} (v : Int) (h : g ≠ f) :
    (x.set f v).get g = x.get g := by
  cases f <;> cases g <;> first | rfl | exact absurd rfl h

/-- Writing one field of one object: that field reads the new value, every
other field of every object reads as before, and no count changes. -/
theorem Document.getField_set_linedefs (d : Document) {n : Nat} {x : LineDef} (f0 : LineDefField)
    (v : Int) (hx : d.linedefs[n]? = some x) :
    Document.getField { d with linedefs := d.linedefs.set n (x.set f0 v) } .linedefs n (.line f0)
        = some v ∧
      (∀ t m f, (t, m, f) ≠ (ObjType.linedefs, n, ItemField.line f0) →
        Document.getField { d with linedefs := d.linedefs.set n (x.set f0 v) } t m f
          = d.getField t m f) ∧
      ∀ t, Document.numObjects { d with linedefs := d.linedefs.set n (x.set f0 v) } t
        = d.numObjects t := by
  have hn : n < d.linedefs.length := (List.getElem?_eq_some_iff.mp hx).1
  refine ⟨?_, ?_, ?_⟩
  · simp [Document.getField, List.getElem?_set, hn, LineDef.get_set_linedef]
  · intro t m f hne
    cases t <;> cases f <;> try rfl
    rename_i g
    simp only [Document.getField, List.getElem?_set]
    by_cases hm : n = m
    · subst hm
      have hg : g ≠ f0 := by
        intro hg
        exact hne (by rw [hg])
      simp [hn, hx, LineDef.get_set_ne_linedef x v hg]
    · simp [hm]
  · intro t
    cases t <;> simp [Document.numObjects, Document.numThings, Document.numVertices,
      Document.numSectors, Document.numSidedefs, Document.numLinedefs]


/-- A change operation on a field that reads `a`, at the level of the
document: one application writes the value of the operation and keeps `a`
in the operation, nothing else changes, and a second application restores
both. -/
theorem EditOperation.changeOp_applyDoc_twice (d : Document) (type : ObjType) (objnum : Int)
    (field : ItemField) (a v : Int) (h0 : 0 ≤ objnum)
    (hget : d.getField type objnum.toNat field = some a) :
    ∃ d1, (Basis.changeOp type objnum field v).applyDoc d =
        some (Basis.changeOp type objnum field a, d1) ∧
      (Basis.changeOp type objnum field a).applyDoc d1 =
        some (Basis.changeOp type objnum field v, d) ∧
      d1.getField type objnum.toNat field = some v ∧
      (∀ t m f, (t, m, f) ≠ (type, objnum.toNat, field) →
        d1.getField t m f = d.getField t m f) ∧
      ∀ t, d1.numObjects t = d.numObjects t := by
  cases type <;> cases field <;> (try (simp [Document.getField] at hget; done)) <;>
    simp only [Document.getField, Option.map_eq_some'] at hget
  · rename_i f
    obtain ⟨x, hx, rfl⟩ := hget
    have hc := EditOperation.changeDoc_things f v h0 hx
    obtain ⟨h1, h2⟩ := Inverts.change (Basis.changeOp .things objnum (.thing f) v) rfl hc
    obtain ⟨g1, g2, g3⟩ := Document.getField_set_things d f v hx
    exact ⟨_, h1, h2, g1, g2, g3⟩
  · rename_i f
    obtain ⟨x, hx, rfl⟩ := hget
    have hc := EditOperation.changeDoc_linedefs f v h0 hx
    obtain ⟨h1, h2⟩ := Inverts.change (Basis.changeOp .linedefs objnum (.line f) v) rfl hc
    obtain ⟨g1, g2, g3⟩ := Document.getField_set_linedefs d f v hx
    exact ⟨_, h1, h2, g1, g2, g3⟩
  · rename_i f
    obtain ⟨x, hx, rfl⟩ := hget
    have hc := EditOperation.changeDoc_sidedefs f v h0 hx
    obtain ⟨h1, h2⟩ := Inverts.change (Basis.changeOp .sidedefs objnum (.side f) v) rfl hc
    obtain ⟨g1, g2, g3⟩ := Document.getField_set_sidedefs d f v hx
    exact ⟨_, h1, h2, g1, g2, g3⟩
  · rename_i f
    obtain ⟨x, hx, rfl⟩ := hget
    have hc := EditOperation.changeDoc_vertices f v h0 hx
    obtain ⟨h1, h2⟩ := Inverts.change (Basis.changeOp .vertices objnum (.vertex f) v) rfl hc
    obtain ⟨g1, g2, g3⟩ := Document.getField_set_vertices d f v hx
    exact ⟨_, h1, h2, g1, g2, g3⟩
  · rename_i f
    obtain ⟨x, hx, rfl⟩ := hget
    have hc := EditOperation.changeDoc_sectors f v h0 hx
    obtain ⟨h1, h2⟩ := Inverts.change (Basis.changeOp .sectors objnum (.sector f) v) rfl hc
    obtain ⟨g1, g2, g3⟩ := Document.getField_set_sectors d f v hx
    exact ⟨_, h1, h2, g1, g2, g3⟩

theorem Document.getField_pushed (d : Document) (dflt : Defaults) (type : ObjType)
    (t : ObjType) (n : Nat) (f : ItemField) (a : Int)
    (h : d.getField t n f = some a) : (d.pushed dflt type).getField t n f = some a := by
  cases t <;> cases f <;> (try (simp [Document.getField] at h; done)) <;>
    simp only [Document.getField, Option.map_eq_some'] at h ⊢ <;>
    obtain ⟨x, hx, rfl⟩ := h <;>
    refine ⟨x, ?_, rfl⟩ <;>
    cases type <;> simp only [Document.pushed] <;>
    first
      | exact hx
      | (rw [List.getElem?_append_left (List.getElem?_eq_some.mp hx).1]; exact hx)

/-- With no group active `begin` succeeds and leaves a group active. -/
theorem Basis.begin_of_not_active {b : Basis} (h : b.mCurrentGroup.isActive = false) :
    ∃ b1, b.begin = some b1 ∧ b1.mCurrentGroup.isActive = true := by
  unfold Basis.begin
  simp only [h, Bool.false_eq_true, if_false]
  exact ⟨_, rfl, rfl⟩

/-- A successful `end` leaves no group active. -/
theorem Basis.end_not_active {b be : Basis} (h : b.end_ = some be) :
    be.mCurrentGroup.isActive = false := by
  have hact : b.mCurrentGroup.isActive = true := by
    cases ha : b.mCurrentGroup.isActive
    · rw [(Basis.end_eq_none b).mpr ha] at h; cases h
    · rfl
  obtain ⟨b', e, -, hi, -⟩ := Basis.end_spec hact
  rw [e] at h
  cases h
  exact hi.not_active

/-- A successful `abort` leaves no group active. -/
theorem Basis.abort_not_active {b ba : Basis} {k : Bool} (h : b.abort k = some ba) :
    ba.mCurrentGroup.isActive = false := by
  unfold Basis.abort at h
  split at h
  · cases h
  · simp only [Option.map_eq_some'] at h
    obtain ⟨x, -, rfl⟩ := h
    simp [UndoGroup.reset, UndoGroup.isActive]

theorem Basis.abort_true_eq_none (b : Basis) :
    b.abort true = none ↔ b.mCurrentGroup.isActive = false := by
  constructor
  · intro h
    cases ha : b.mCurrentGroup.isActive
    · rfl
    · obtain ⟨b', e, -⟩ := Basis.abort_keep_spec ha
      rw [e] at h; cases h
  · intro h; exact Basis.abort_of_not_active h true

theorem StringTable.get_add (tab : StringTable) (str : String) :
    (tab.add str).2.get (tab.add str).1 = str := by
  unfold StringTable.add StringTable.get
  by_cases h : str ∈ tab.strs
  · have hlt : tab.strs.indexOf str < tab.strs.length := List.indexOf_lt_length.mpr h
    simp [h, List.getD_eq_getElem?_getD, List.getElem?_eq_getElem hlt]
  · simp [h, List.getD_eq_getElem?_getD]

theorem StringTable.add_add (tab : StringTable) (str : String) :
    (tab.add str).2.add str = ((tab.add str).1, (tab.add str).2) := by
  unfold StringTable.add
  by_cases h : str ∈ tab.strs
  · simp [h]
  · simp [h, List.indexOf_append_of_not_mem h]

theorem Basis.Traced.idle (b : Basis) : b.Traced [] [] b :=
  ⟨by simp, by simp, by simp, by simp⟩

theorem Basis.Traced.followedBy {b b1 b2 : Basis} {o1 o2 : List EditOperation} {e1 e2 : List Event}
    (h1 : b.Traced o1 e1 b1) (h2 : b1.Traced o2 e2 b2) : b.Traced (o1 ++ o2) (e1 ++ e2) b2 := by
  refine ⟨by rw [h2.mOps, h1.mOps, List.append_assoc],
    by rw [h2.listener, h1.listener, List.append_assoc], ?_, ?_⟩
  · intro e he
    rcases List.mem_append.mp he with h | h
    · exact h1.edits e h
    · exact h2.edits e h
  · rw [h2.dirty, h1.dirty]
    cases b.mDidMakeChanges <;> cases o1 <;> cases o2 <;> rfl

/-- One more listener call that reports an edit. -/
theorem Basis.Traced.listened (b : Basis) (e : Event) (he : e.isEdit = true) :
    b.Traced [] [e] { b with listener := b.listener ++ [e] } :=
  ⟨by simp, rfl, by simpa using he, by simp⟩

theorem EditOperation.applyDoc_shape {op op' : EditOperation} {d d' : Document}
    (h : op.applyDoc d = some (op', d')) :
    op'.objtype = op.objtype ∧ op'.objnum = op.objnum ∧ op'.field = op.field ∧
      op'.action = op.action.flip := by
  unfold EditOperation.applyDoc at h
  cases ha : op.action <;> simp only [ha, Option.map_eq_some'] at h <;>
    obtain ⟨r, -, hr⟩ := h <;>
    simp only [Prod.mk.injEq] at hr <;>
    obtain ⟨rfl, -⟩ := hr <;>
    simp [EditType.flip, ha]

theorem EditOperation.event_isEdit (op : EditOperation) : op.event.isEdit = true := by
  unfold EditOperation.event
  cases op.action <;> rfl

/-- What a successful `addApply` leaves: the flipped operation at the end of
the group and one listener call. -/
theorem Basis.addApply_traced {b b' : Basis} {op : EditOperation}
    (h : b.addApply op = some b') :
    ∃ op', op.applyDoc b.doc = some (op', b'.doc) ∧ b.Traced [op'] [op.event] b' := by
  simp only [Basis.addApply, EditOperation.apply_eq] at h
  cases hd : op.applyDoc b.doc with
  | none => simp [hd] at h
  | some r =>
    simp only [hd, Option.map_some', Option.some.injEq] at h
    subst h
    refine ⟨r.1, rfl, rfl, rfl, ?_, ?_⟩
    · intro e he
      simp only [List.mem_singleton] at he
      subst he
      exact op.event_isEdit
    · simp [Basis.moved]

theorem Basis.change_traced {b b' : Basis} {type : ObjType} {objnum : Int} {field : ItemField}
    {value : Int} (h : b.change type objnum field value = some b') :
    ∃ op', (Basis.changeOp type objnum field value).applyDoc b.doc = some (op', b'.doc) ∧
      b.Traced [op'] [Event.basisNotifyChange type objnum field] b' ∧
      op'.action = .change ∧ op'.objtype = type ∧ op'.objnum = objnum ∧ op'.field = field := by
  unfold Basis.change at h
  split at h
  · cases h
  · obtain ⟨op', hd, t⟩ := Basis.addApply_traced h
    obtain ⟨h1, h2, h3, h4⟩ := EditOperation.applyDoc_shape hd
    exact ⟨op', hd, t, h4, h1, h2, h3⟩

theorem Basis.changeLinedef_traced {b b' : Basis} {line : Int} {field : LineDefField}
    {value : Int} (h : b.changeLinedef line field value = some b') :
    ∃ op', b.Traced [op'] [Event.basisNotifyChange .linedefs line (.line field)] b' ∧
      op'.action = .change ∧ op'.objtype = .linedefs ∧ op'.objnum = line ∧
      op'.field = .line field := by
  unfold Basis.changeLinedef at h
  split at h
  · obtain ⟨op', -, t⟩ := Basis.change_traced h
    exact ⟨op', t⟩
  · cases h

theorem EditOperation.isSideChange_of {op : EditOperation} {f : LineDefField}
    (ha : op.action = .change) (ht : op.objtype = .linedefs) (hf : op.field = .line f)
    (hs : f = .right ∨ f = .left) : op.isSideChange = true := by
  rcases hs with rfl | rfl <;> simp [EditOperation.isSideChange, ha, ht, hf]

theorem EditOperation.not_isDeletion_of_isSideChange {op : EditOperation} (type : ObjType)
    (h : op.isSideChange = true) : op.isDeletion type = false := by
  simp only [EditOperation.isSideChange, Bool.and_eq_true, beq_iff_eq] at h
  simp [EditOperation.isDeletion, h.1.1]

/-- The operations of the sidedef cascade are changes of linedef sides. -/
theorem Basis.unbindLoop_traced (objnum : Int) (k : Nat) {b b' : Basis}
    (h : Basis.unbindLoop objnum k b = some b') :
    ∃ ops evs, b.Traced ops evs b' ∧ ∀ op ∈ ops, op.isSideChange = true := by
  induction k generalizing b with
  | zero =>
    simp only [Basis.unbindLoop, Option.some.injEq] at h
    subst h
    exact ⟨[], [], Basis.Traced.idle b, by simp⟩
  | succ k ih =>
    simp only [Basis.unbindLoop] at h
    cases hL : b.doc.linedefs[k]? with
    | none => simp [hL] at h
    | some L =>
      simp only [hL, Option.bind_eq_some] at h
      obtain ⟨b1, h1, h⟩ := h
      have t1 : ∃ o1 e1, b.Traced o1 e1 b1 ∧ ∀ op ∈ o1, op.isSideChange = true := by
        split at h1
        · obtain ⟨op', t, ha, ht, -, hf⟩ := Basis.changeLinedef_traced h1
          exact ⟨[op'], _, t, by
            intro op hop
            simp only [List.mem_singleton] at hop
            subst hop
            exact EditOperation.isSideChange_of ha ht hf (Or.inl rfl)⟩
        · simp only [Option.some.injEq] at h1
          subst h1
          exact ⟨[], [], Basis.Traced.idle b, by simp⟩
      cases hL1 : b1.doc.linedefs[k]? with
      | none => simp [hL1] at h
      | some L1 =>
        simp only [hL1, Option.bind_eq_some] at h
        obtain ⟨b2, h2, h3⟩ := h
        have t2 : ∃ o2 e2, b1.Traced o2 e2 b2 ∧ ∀ op ∈ o2, op.isSideChange = true := by
          split at h2
          · obtain ⟨op', t, ha, ht, -, hf⟩ := Basis.changeLinedef_traced h2
            exact ⟨[op'], _, t, by
              intro op hop
              simp only [List.mem_singleton] at hop
              subst hop
              exact EditOperation.isSideChange_of ha ht hf (Or.inr rfl)⟩
          · simp only [Option.some.injEq] at h2
            subst h2
            exact ⟨[], [], Basis.Traced.idle b1, by simp⟩
        obtain ⟨o1, e1, t1, s1⟩ := t1
        obtain ⟨o2, e2, t2, s2⟩ := t2
        obtain ⟨o3, e3, t3, s3⟩ := ih h3
        refine ⟨(o1 ++ o2) ++ o3, (e1 ++ e2) ++ e3, (t1.followedBy t2).followedBy t3, ?_⟩
        intro op hop
        simp only [List.mem_append] at hop
        rcases hop with (hop | hop) | hop
        · exact s1 op hop
        · exact s2 op hop
        · exact s3 op hop

/-- The operations of the vertex cascade are deletions of linedefs below
the loop bound, in strictly decreasing index order. -/
theorem Basis.vertexLoop_traced {r : ObjType → Int → Basis → Option Basis} (hr : Shaped r)
    (objnum : Int) (k : Nat) {b b' : Basis} (h : Basis.vertexLoop r objnum k b = some b') :
    ∃ ops evs, b.Traced ops evs b' ∧
      (∀ op ∈ ops, op.isDeletion .linedefs = true ∧ op.objnum < k) ∧
      ops.Pairwise fun a b => a.objnum > b.objnum := by
  induction k generalizing b with
  | zero =>
    simp only [Basis.vertexLoop, Option.some.injEq] at h
    subst h
    exact ⟨[], [], Basis.Traced.idle b, by simp, List.Pairwise.nil⟩
  | succ k ih =>
    simp only [Basis.vertexLoop] at h
    cases hL : b.doc.linedefs[k]? with
    | none => simp [hL] at h
    | some L =>
      simp only [hL] at h
      split at h
      · simp only [Option.bind_eq_some] at h
        obtain ⟨b1, h1, h2⟩ := h
        obtain ⟨casc, prim, evs, t1, hp, hn, hc⟩ := hr _ _ _ _ h1
        simp only [CascadeOk] at hc
        subst hc
        obtain ⟨o2, e2, t2, s2, p2⟩ := ih h2
        refine ⟨([] ++ [prim]) ++ o2, evs ++ e2, t1.followedBy t2, ?_, ?_⟩
        · intro op hop
          simp only [List.nil_append, List.singleton_append, List.mem_cons] at hop
          rcases hop with rfl | hop
          · exact ⟨hp, by rw [hn]; push_cast; omega⟩
          · exact ⟨(s2 op hop).1, by have := (s2 op hop).2; push_cast; omega⟩
        · simp only [List.nil_append, List.singleton_append, List.pairwise_cons]
          exact ⟨fun op hop => by rw [hn]; exact (s2 op hop).2, p2⟩
      · obtain ⟨o2, e2, t2, s2, p2⟩ := ih h
        exact ⟨o2, e2, t2, fun op hop =>
          ⟨(s2 op hop).1, by have := (s2 op hop).2; push_cast; omega⟩, p2⟩

/-- The operations of the sector cascade are changes of linedef sides and
deletions of sidedefs below the loop bound, the deletions in strictly
decreasing index order. -/
theorem Basis.sectorLoop_traced {r : ObjType → Int → Basis → Option Basis} (hr : Shaped r)
    (objnum : Int) (k : Nat) {b b' : Basis} (h : Basis.sectorLoop r objnum k b = some b') :
    ∃ ops evs, b.Traced ops evs b' ∧
      (∀ op ∈ ops, op.isSideChange = true ∨
        (op.isDeletion .sidedefs = true ∧ op.objnum < k)) ∧
      (ops.filter (EditOperation.isDeletion .sidedefs)).Pairwise
        fun a b => a.objnum > b.objnum := by
  induction k generalizing b with
  | zero =>
    simp only [Basis.sectorLoop, Option.some.injEq] at h
    subst h
    exact ⟨[], [], Basis.Traced.idle b, by simp, by simp⟩
  | succ k ih =>
    simp only [Basis.sectorLoop] at h
    cases hS : b.doc.sidedefs[k]? with
    | none => simp [hS] at h
    | some S =>
      simp only [hS] at h
      split at h
      · simp only [Option.bind_eq_some] at h
        obtain ⟨b1, h1, h2⟩ := h
        obtain ⟨casc, prim, evs, t1, hp, hn, hc⟩ := hr _ _ _ _ h1
        simp only [CascadeOk] at hc
        obtain ⟨o2, e2, t2, s2, p2⟩ := ih h2
        have hf : casc.filter (EditOperation.isDeletion .sidedefs) = [] := by
          rw [List.filter_eq_nil_iff]
          intro op hop
          simp [EditOperation.not_isDeletion_of_isSideChange .sidedefs (hc op hop)]
        refine ⟨(casc ++ [prim]) ++ o2, evs ++ e2, t1.followedBy t2, ?_, ?_⟩
        · intro op hop
          simp only [List.mem_append, List.mem_singleton] at hop
          rcases hop with (hop | rfl) | hop
          · exact Or.inl (hc op hop)
          · exact Or.inr ⟨hp, by rw [hn]; push_cast; omega⟩
          · rcases s2 op hop with h' | h'
            · exact Or.inl h'
            · exact Or.inr ⟨h'.1, by have := h'.2; push_cast; omega⟩
        · simp only [List.filter_append, hf, List.nil_append, List.filter_cons, hp, if_true,
            List.filter_nil, List.singleton_append, List.pairwise_cons]
          refine ⟨?_, p2⟩
          intro op hop
          have hm := List.mem_filter.mp hop
          rcases s2 op hm.1 with h' | h'
          · rw [EditOperation.not_isDeletion_of_isSideChange .sidedefs h'] at hm
            exact absurd hm.2 (by simp)
          · rw [hn]; exact h'.2
      · obtain ⟨o2, e2, t2, s2, p2⟩ := ih h
        refine ⟨o2, e2, t2, fun op hop => ?_, p2⟩
        rcases s2 op hop with h' | h'
        · exact Or.inl h'
        · exact Or.inr ⟨h'.1, by have := h'.2; push_cast; omega⟩

/-- The body of `del` appends a cascade of the allowed form and then the
deletion of the object itself, when its recursive calls do. -/
theorem Basis.delWith_shaped {r : ObjType → Int → Basis → Option Basis} (hr : Shaped r) :
    Shaped (Basis.delWith r) := by
  intro type n b b' h
  rw [Basis.delWith_eq] at h
  split at h
  · cases h
  · simp only [Option.bind_eq_some] at h
    obtain ⟨b1, h1, h2⟩ := h
    split at h2
    · cases h2
    · obtain ⟨prim, hd, t2⟩ := Basis.addApply_traced h2
      obtain ⟨g1, g2, -, g4⟩ := EditOperation.applyDoc_shape hd
      have hp : prim.isDeletion type = true := by
        simp [EditOperation.isDeletion, g4, g1, Basis.delOp, EditType.flip]
      have hn : prim.objnum = n := by simp [g2, Basis.delOp]
      cases type
      · simp only [Option.some.injEq] at h1
        subst h1
        exact ⟨[], prim, _, t2, hp, hn, rfl⟩
      · simp only [Option.some.injEq] at h1
        subst h1
        exact ⟨[], prim, _, t2, hp, hn, rfl⟩
      · obtain ⟨o1, e1, t1, s1⟩ := Basis.unbindLoop_traced _ _ h1
        exact ⟨o1, prim, _, t1.followedBy t2, hp, hn, s1⟩
      · obtain ⟨o1, e1, t1, s1, p1⟩ := Basis.vertexLoop_traced hr _ _ h1
        exact ⟨o1, prim, _, t1.followedBy t2, hp, hn, fun op hop => (s1 op hop).1, p1⟩
      · obtain ⟨o1, e1, t1, s1, p1⟩ := Basis.sectorLoop_traced hr _ _ h1
        refine ⟨o1, prim, _, t1.followedBy t2, hp, hn, fun op hop => ?_, p1⟩
        rcases s1 op hop with h' | h'
        · exact Or.inl h'
        · exact Or.inr h'.1

theorem Basis.del_shaped : Shaped Basis.del :=
  Basis.delWith_shaped (Basis.delWith_shaped (Basis.delWith_shaped
    (fun _ _ _ _ h => by cases h)))

theorem Basis.addNew_traced {dflt : Defaults} {b b' : Basis} {type : ObjType} {n : Int}
    (h : b.addNew dflt type = some (n, b')) :
    ∃ op', b.Traced [op'] [Event.basisNotifyInsert type (b.doc.numObjects type)] b' := by
  rw [Basis.addNew_eq] at h
  split at h
  · cases h
  · simp only [Option.map_eq_some', Prod.mk.injEq] at h
    obtain ⟨b1, h1, -, rfl⟩ := h
    obtain ⟨op', -, t⟩ := Basis.addApply_traced h1
    refine ⟨op', ?_⟩
    have e : (Basis.newOp dflt b.doc type).event =
        Event.basisNotifyInsert type (b.doc.numObjects type) := by
      cases type <;> rfl
    rw [← e]
    exact t

/-- Every successful call appends at least one operation to the group and
makes listener calls that report edits only. -/
theorem Cmd.run_traced (dflt : Defaults) {b b' : Basis} (c : Cmd)
    (h : c.run dflt b = some b') : ∃ ops evs, b.Traced ops evs b' ∧ ops ≠ [] := by
  cases c with
  | addNew type =>
    simp only [Cmd.run, Option.map_eq_some'] at h
    obtain ⟨r, h1, rfl⟩ := h
    obtain ⟨op', t⟩ := @Basis.addNew_traced dflt b r.2 type r.1 h1
    exact ⟨_, _, t, by simp⟩
  | del type objnum =>
    obtain ⟨casc, prim, evs, t, -⟩ := Basis.del_shaped _ _ _ _ h
    exact ⟨_, _, t, by simp⟩
  | changeThing n f v =>
    simp only [Cmd.run, Basis.changeThing] at h
    split at h
    · obtain ⟨op', -, t, -⟩ := Basis.change_traced h
      exact ⟨_, _, (Basis.Traced.listened b
        (Event.basisOnChangeItem .things (.thing f) v) rfl).followedBy t, by simp⟩
    · cases h
  | changeVertex n f v =>
    simp only [Cmd.run, Basis.changeVertex] at h
    split at h
    · obtain ⟨op', -, t, -⟩ := Basis.change_traced h
      exact ⟨_, _, t, by simp⟩
    · cases h
  | changeSector n f v =>
    simp only [Cmd.run, Basis.changeSector] at h
    split at h
    · obtain ⟨op', -, t, -⟩ := Basis.change_traced h
      exact ⟨_, _, (Basis.Traced.listened b
        (Event.basisOnChangeItem .sectors (.sector f) v) rfl).followedBy t, by simp⟩
    · cases h
  | changeSidedef n f v =>
    simp only [Cmd.run, Basis.changeSidedef] at h
    split at h
    · obtain ⟨op', -, t, -⟩ := Basis.change_traced h
      exact ⟨_, _, (Basis.Traced.listened b
        (Event.basisOnChangeItem .sidedefs (.side f) v) rfl).followedBy t, by simp⟩
    · cases h
  | changeLinedef n f v =>
    simp only [Cmd.run] at h
    obtain ⟨op', t, -⟩ := Basis.changeLinedef_traced h
    exact ⟨_, _, t, by simp⟩

theorem Cmd.runAll_traced (dflt : Defaults) (cmds : List Cmd) {b b' : Basis}
    (h : Cmd.runAll dflt cmds b = some b') :
    ∃ ops evs, b.Traced ops evs b' ∧ (cmds = [] ↔ ops = []) := by
  induction cmds generalizing b with
  | nil =>
    simp only [Cmd.runAll, Option.some.injEq] at h
    subst h
    exact ⟨[], [], Basis.Traced.idle b, by simp⟩
  | cons c cs ih =>
    simp only [Cmd.runAll, Option.bind_eq_some] at h
    obtain ⟨b1, h1, h2⟩ := h
    obtain ⟨o1, e1, t1, hne⟩ := Cmd.run_traced dflt c h1
    obtain ⟨o2, e2, t2, -⟩ := ih h2
    exact ⟨o1 ++ o2, e1 ++ e2, t1.followedBy t2, by simp [hne]⟩

theorem Thing.set_same_thing (t : Thing) (f : ThingField) : t.set f (t.get f) = t := by
  cases t; cases f <;> rfl

theorem LineDef.set_same_line (t : LineDef) (f : LineDefField) : t.set f (t.get f) = t := by
  cases t; cases f <;> rfl

theorem SideDef.set_same_side (t : SideDef) (f : SideDefField) : t.set f (t.get f) = t := by
  cases t; cases f <;> rfl

theorem Vertex.set_same_vertex (t : Vertex) (f : VertexField) : t.set f (t.get f) = t := by
  cases t; cases f <;> rfl

theorem Sector.set_same_sector (t : Sector) (f : SectorField) : t.set f (t.get f) = t := by
  cases t; cases f <;> rfl

/-- A change operation whose value is the value the field already has
leaves the document as it is, and is applied all the same. -/
theorem EditOperation.changeOp_same (d : Document) (type : ObjType) (objnum : Int)
    (field : ItemField) (a : Int) (h0 : 0 ≤ objnum)
    (hget : d.getField type objnum.toNat field = some a) :
    (Basis.changeOp type objnum field a).changeDoc d = some (d, a) := by
  cases type <;> cases field <;> (try (simp [Document.getField] at hget; done)) <;>
    simp only [Document.getField, Option.map_eq_some'] at hget
  · rename_i f
    obtain ⟨x, hx, rfl⟩ := hget
    rw [EditOperation.changeDoc_things f _ h0 hx, Thing.set_same_thing, List.set_of_getElem? hx]
  · rename_i f
    obtain ⟨x, hx, rfl⟩ := hget
    rw [EditOperation.changeDoc_linedefs f _ h0 hx, LineDef.set_same_line, List.set_of_getElem? hx]
  · rename_i f
    obtain ⟨x, hx, rfl⟩ := hget
    rw [EditOperation.changeDoc_sidedefs f _ h0 hx, SideDef.set_same_side, List.set_of_getElem? hx]
  · rename_i f
    obtain ⟨x, hx, rfl⟩ := hget
    rw [EditOperation.changeDoc_vertices f _ h0 hx, Vertex.set_same_vertex, List.set_of_getElem? hx]
  · rename_i f
    obtain ⟨x, hx, rfl⟩ := hget
    rw [EditOperation.changeDoc_sectors f _ h0 hx, Sector.set_same_sector, List.set_of_getElem? hx]

/-- The listener calls of `end()`: the status text when the group is kept,
the signal that changes were made when the change flag is raised, and the
end notification. -/
theorem Basis.end_listener {b : Basis} (hact : b.mCurrentGroup.isActive = true) :
    ∃ b', b.end_ = some b' ∧
      b'.listener = b.listener ++
        ((if b.mCurrentGroup.mOps = [] then []
          else [Event.basisSetStatus b.mCurrentGroup.mMessage]) ++
        ((if b.mDidMakeChanges = true then [Event.basisMadeChanges] else []) ++
        [Event.basisNotifyEnd])) := by
  unfold Basis.end_
  simp only [hact, Bool.not_true, Bool.false_eq_true, if_false]
  by_cases he : b.mCurrentGroup.mOps = []
  · have h1 : (b.mCurrentGroup.end_).isEmpty = true := by
      simp [UndoGroup.isEmpty, UndoGroup.end_, he]
    simp only [h1, if_true, he]
    refine ⟨_, rfl, ?_⟩
    cases hm : b.mDidMakeChanges <;> simp [Basis.doProcessChangeStatus, hm]
  · have h1 : (b.mCurrentGroup.end_).isEmpty = false := by
      simp [UndoGroup.isEmpty, UndoGroup.end_, he]
    simp only [h1, Bool.false_eq_true, if_false, he]
    refine ⟨_, rfl, ?_⟩
    cases hm : b.mDidMakeChanges <;>
      simp [Basis.doProcessChangeStatus, hm, UndoGroup.getMessage, UndoGroup.end_]

theorem Basis.begin_listener {b : Basis} (h : b.Idle) :
    ∃ b1, b.begin = some b1 ∧ b1.listener = b.listener ++ [Event.basisNotifyBegin] ∧
      b1.mDidMakeChanges = false ∧ b1.mCurrentGroup.mOps = [] ∧
      b1.mCurrentGroup.isActive = true := by
  have e : b.begin = some (Basis.doClearChangeStatus
      { b with mRedoFuture := [], mCurrentGroup := b.mCurrentGroup.activate }) := by
    simp [Basis.begin, h.not_active]
  exact ⟨_, e, rfl, rfl, h.2, rfl⟩

theorem List.count_eq_zero_of_isEdit {evs : List Event} (h : ∀ e ∈ evs, e.isEdit = true)
    (x : Event) (hx : x.isEdit = false) : evs.count x = 0 := by
  rw [List.count_eq_zero]
  intro hm
  rw [h x hm] at hx
  cases hx

theorem List.map_eraseIdx_comm {α β : Type} (f : α → β) (xs : List α) (n : Nat) :
    (xs.eraseIdx n).map f = (xs.map f).eraseIdx n := by
  induction xs generalizing n with
  | nil => rfl
  | cons x xs ih =>
    cases n with
    | zero => rfl
    | succ n => simp [ih]

theorem List.map_insertIdx_comm {α β : Type} (f : α → β) (xs : List α) (n : Nat) (a : α) :
    (xs.insertIdx n a).map f = (xs.map f).insertIdx n (f a) := by
  induction n generalizing xs with
  | zero => simp [List.insertIdx_zero]
  | succ n ih =>
    cases xs with
    | nil => simp [List.insertIdx_succ_nil]
    | cons x xs => simp [List.insertIdx_succ_cons, ih]

theorem Document.numObjects_eq (d : Document) (type : ObjType) :
    d.numObjects type = (d.objects type).length := by
  cases type <;> simp [Document.numObjects, Document.objects, Document.numThings,
    Document.numLinedefs, Document.numSidedefs, Document.numVertices, Document.numSectors]

theorem Document.erased_objects (d : Document) (type : ObjType) (n : Int) :
    (d.erased type n).objects type = (d.objects type).eraseIdx n.toNat := by
  cases type <;> simp [Document.erased, Document.objects, List.map_eraseIdx_comm]

/-- The payload a raw deletion returns is the object at the index. -/
theorem EditOperation.deleteDoc_payload {op : EditOperation} {d d' : Document} {p : Payload}
    (h : op.deleteDoc d = some (p, d')) :
    (d.objects op.objtype)[op.objnum.toNat]? = some p := by
  obtain ⟨action, objtype, field, objnum, payload⟩ := op
  cases objtype <;>
    simp only [EditOperation.deleteDoc, EditOperation.rawDeleteThing,
      EditOperation.rawDeleteLinedef, EditOperation.rawDeleteSidedef,
      EditOperation.rawDeleteVertex, EditOperation.rawDeleteSector,
      Option.map_eq_some'] at h <;>
    obtain ⟨r, hr, he⟩ := h <;>
    split at hr <;> (try cases hr) <;>
    split at hr <;> (try cases hr) <;>
    simp_all [Document.objects]

/-- A raw insertion of an object of the right kind at an index in range
succeeds and puts the payload at the index. -/
theorem EditOperation.insertDoc_objects (op : EditOperation) (d : Document)
    (hr : 0 ≤ op.objnum ∧ op.objnum ≤ d.numObjects op.objtype)
    (hk : op.payload.kind = some op.objtype) :
    ∃ d', op.insertDoc d = some d' ∧
      d'.objects op.objtype = (d.objects op.objtype).insertIdx op.objnum.toNat op.payload := by
  obtain ⟨action, objtype, field, objnum, payload⟩ := op
  simp only at hr hk
  cases payload <;> simp [Payload.kind] at hk <;> subst hk <;>
    simp only [Document.numObjects] at hr <;>
    simp only [EditOperation.insertDoc, EditOperation.rawInsertThing,
      EditOperation.rawInsertLinedef, EditOperation.rawInsertSidedef,
      EditOperation.rawInsertVertex, EditOperation.rawInsertSector, hr, and_self, if_true] <;>
    (try split_ifs) <;>
    exact ⟨_, rfl, by simp [Document.objects, List.map_insertIdx_comm]⟩

theorem Document.objects_kind {d : Document} {type : ObjType} {p : Payload}
    (h : p ∈ d.objects type) : p.kind = some type := by
  cases type <;> simp only [Document.objects, List.mem_map] at h <;>
    obtain ⟨x, -, rfl⟩ := h <;> rfl

theorem EditOperation.apply_shape {op op' : EditOperation} {b b' : Basis}
    (h : op.apply b = some (op', b')) :
    op'.objtype = op.objtype ∧ op'.objnum = op.objnum ∧ op'.field = op.field ∧
      op'.action = op.action.flip := by
  rw [EditOperation.apply_eq, Option.map_eq_some'] at h
  obtain ⟨r, hr, he⟩ := h
  simp only [Prod.mk.injEq] at he
  obtain ⟨rfl, -⟩ := he
  exact @EditOperation.applyDoc_shape op r.1 b.doc r.2 hr

theorem EditType.flip_flip (a : EditType) : a.flip.flip = a := by
  cases a <;> rfl

/-- Applying a delete operation at an index in range. -/
theorem EditOperation.apply_del (op : EditOperation) (b : Basis) (ha : op.action = .del)
    (hr : 0 ≤ op.objnum ∧ op.objnum < b.doc.numObjects op.objtype) :
    ∃ p b1, op.apply b = some ({ op with action := .insert, payload := p }, b1) ∧
      (b.doc.objects op.objtype)[op.objnum.toNat]? = some p ∧
      b1.doc.objects op.objtype = (b.doc.objects op.objtype).eraseIdx op.objnum.toNat := by
  obtain ⟨p, hp⟩ := EditOperation.deleteDoc_erased op b.doc hr
  refine ⟨p, b.moved (b.doc.erased op.objtype op.objnum) [op.event], ?_,
    EditOperation.deleteDoc_payload hp, ?_⟩
  · rw [EditOperation.apply_eq]
    simp [EditOperation.applyDoc, ha, hp]
  · rw [Basis.moved_doc, Document.erased_objects]

/-- Applying an insert operation that holds an object of its kind, at an
index in range. -/
theorem EditOperation.apply_insert (op : EditOperation) (b : Basis) (ha : op.action = .insert)
    (hr : 0 ≤ op.objnum ∧ op.objnum ≤ b.doc.numObjects op.objtype)
    (hk : op.payload.kind = some op.objtype) :
    ∃ b1, op.apply b = some ({ op with action := .del, payload := .null }, b1) ∧
      b1.doc.objects op.objtype =
        (b.doc.objects op.objtype).insertIdx op.objnum.toNat op.payload := by
  obtain ⟨d', hd, ho⟩ := EditOperation.insertDoc_objects op b.doc hr hk
  refine ⟨b.moved d' [op.event], ?_, by rw [Basis.moved_doc, ho]⟩
  rw [EditOperation.apply_eq]
  simp [EditOperation.applyDoc, ha, hd]

/-- On a consistent basis every run of `undo` and `redo` calls succeeds. -/
theorem Basis.replay_consistent (steps : List Bool) {b : Basis} (h : b.Consistent) :
    ∃ b', Basis.replay steps b = some b' ∧ b'.Consistent := by
  induction steps generalizing b with
  | nil => exact ⟨b, rfl, h⟩
  | cons s steps ih =>
    cases s
    · obtain ⟨f, b1, e, h1⟩ := Basis.redo_consistent h
      obtain ⟨b2, e2, h2⟩ := ih h1
      exact ⟨b2, by simp [Basis.replay, e, e2], h2⟩
    · obtain ⟨f, b1, e, h1⟩ := Basis.undo_consistent h
      obtain ⟨b2, e2, h2⟩ := ih h1
      exact ⟨b2, by simp [Basis.replay, e, e2], h2⟩

theorem Basis.undo_mCurrentGroup {b b' : Basis} {f : Bool} (h : b.undo = some (f, b')) :
    b'.mCurrentGroup = b.mCurrentGroup := by
  unfold Basis.undo at h
  cases hu : b.mUndoHistory with
  | nil =>
    simp only [hu, Option.some.injEq, Prod.mk.injEq] at h
    rw [← h.2]
  | cons g rest =>
    simp only [hu, UndoGroup.reapply_eq] at h
    cases hd : g.reapplyDoc b.doc with
    | none => simp [Basis.doClearChangeStatus, hd] at h
    | some r =>
      simp only [Basis.doClearChangeStatus, hd, Option.map_some', Option.some.injEq,
        Prod.mk.injEq] at h
      rw [← h.2]
      simp

/-- The listener calls of `abort`: those of the replay, which report edits,
and the end notification; the signal that changes were made is not among
them. -/
theorem Basis.abort_listener {b b' : Basis} {k : Bool} (h : b.abort k = some b') :
    ∃ evs, b'.listener = b.listener ++ (evs ++ [Event.basisNotifyEnd]) ∧
      ∀ e ∈ evs, e.isEdit = true := by
  unfold Basis.abort at h
  split at h
  · cases h
  · simp only [Option.map_eq_some'] at h
    obtain ⟨x, hx, rfl⟩ := h
    split at hx
    · simp only [UndoGroup.reapply_eq, Option.map_map, Option.map_eq_some'] at hx
      obtain ⟨r, -, rfl⟩ := hx
      refine ⟨(b.mCurrentGroup.end_).events, ?_, ?_⟩
      · simp [Basis.doProcessChangeStatus, Basis.moved]
      · intro e he
        unfold UndoGroup.events at he
        split_ifs at he
        · simp only [List.mem_map] at he
          obtain ⟨op, -, rfl⟩ := he
          exact op.event_isEdit
        · simp only [List.mem_map] at he
          obtain ⟨op, -, rfl⟩ := he
          exact op.event_isEdit
        · cases he
    · simp only [Option.some.injEq] at hx
      subst hx
      exact ⟨[], by simp [Basis.doProcessChangeStatus], by simp⟩

/-! ## The claims -/

/-- C1, counterexample.  A bracket without calls is a sequence of calls too;
on a new basis the `undo` that follows it returns false, where the claim
promises true. -/
theorem C1_counterexample_empty_bracket :
    ¬ ∃ b1 b2, (Basis.fresh Document.sample).transaction Defaults.sample [] = some b1 ∧
      b1.undo = some (true, b2) ∧ b2.doc = Document.sample := by
  rintro ⟨b1, b2, h1, h2, _⟩
  have e : (((Basis.fresh Document.sample).transaction Defaults.sample []).bind Basis.undo).map
      (fun r => r.1) = some false := by decide
  rw [h1] at e
  simp [h2] at e

/-- C1, amended.  For every document, every basis outside a bracket and
every non-empty sequence of addNew / del / change calls with in-range
indices made between `begin` and `end`, the bracket succeeds, the `undo`
that follows returns true, and the document is exactly the one before
`begin` (all collections, fields and reference indices), cascades
included. -/
theorem C1_undo_restores_document (dflt : Defaults) (b : Basis) (cmds : List Cmd)
    (hi : b.Idle) (hne : cmds ≠ []) (hr : b.TxInRange dflt cmds) :
    ∃ b1 b2, b.transaction dflt cmds = some b1 ∧ b1.undo = some (true, b2) ∧
      b2.doc = b.doc := by
  obtain ⟨b1, ops0, ops, e1, hseg, hops, _, _, hu1⟩ := Basis.transaction_spec dflt cmds hi hr
  rw [if_neg (hops hne)] at hu1
  obtain ⟨b2, e2, hd2, _⟩ := Basis.undo_spec hu1 rfl hseg
  exact ⟨b1, b2, e1, e2, hd2⟩

/-- C1, witness: a bracket that deletes a sector (cascading to its sidedefs
and to the sides of the linedefs), adds a vertex, changes a flag and deletes
a vertex (cascading to its linedefs). -/
theorem C1_undo_restores_document_witness :
    ∃ b1 b2, (Basis.fresh Document.sample).transaction Defaults.sample
        [.del .sectors 0, .addNew .vertices, .changeLinedef 0 .flags 5, .del .vertices 1]
        = some b1 ∧
      b1.undo = some (true, b2) ∧ b2.doc = (Basis.fresh Document.sample).doc :=
  C1_undo_restores_document Defaults.sample (Basis.fresh Document.sample)
    [.del .sectors 0, .addNew .vertices, .changeLinedef 0 .flags 5, .del .vertices 1]
    (by decide) (by decide) (by decide)

/-- C2.  For every sequence of calls with in-range indices made inside one
bracket, from a basis outside a bracket (whose undo stack fits the document
when the sequence is empty, as no group is pushed then): `undo` followed by
`redo` succeeds and leaves the document identical to the one after `end`,
the undo stack as it was after `end` (in particular with the same number of
groups) and the redo stack empty. -/
theorem C2_undo_redo_round_trip (dflt : Defaults) (b : Basis) (cmds : List Cmd)
    (hi : b.Idle) (hfit : cmds = [] → Undoable b.doc b.mUndoHistory)
    (hr : b.TxInRange dflt cmds) :
    ∃ b1 f b2 f' b3, b.transaction dflt cmds = some b1 ∧ b1.undo = some (f, b2) ∧
      b2.redo = some (f', b3) ∧ b3.doc = b1.doc ∧
      b3.mUndoHistory.length = b1.mUndoHistory.length ∧
      b3.mUndoHistory = b1.mUndoHistory ∧ b3.mRedoFuture = [] := by
  obtain ⟨b1, ops0, ops, e1, hseg, hops, _, hf1, hu1⟩ := Basis.transaction_spec dflt cmds hi hr
  -- the undo stack of `b1` fits its document
  have hfit1 : b1.mUndoHistory = [] ∨
      ∃ g rest a0 d0, b1.mUndoHistory = g :: rest ∧ g.mDir = -1 ∧ Seg d0 a0 g.mOps b1.doc := by
    by_cases ho : ops = []
    · have hc : cmds = [] := by
        by_contra hc
        exact hops hc ho
      rw [if_pos ho] at hu1
      subst ho
      have hd : b.doc = b1.doc := hseg.eq_of_nil.1
      cases hh : b.mUndoHistory with
      | nil => left; rw [hu1, hh]
      | cons g rest =>
        right
        have hfit' := hfit hc
        rw [hh] at hfit'
        obtain ⟨hdir, a0, d0, hs, _⟩ := hfit'
        exact ⟨g, rest, a0, d0, by rw [hu1, hh], hdir, by rw [← hd]; exact hs⟩
    · right
      rw [if_neg ho] at hu1
      exact ⟨_, _, ops0, b.doc, hu1, rfl, hseg⟩
  rcases hfit1 with hnil | ⟨g, rest, a0, d0, hg, hdir, hs⟩
  · refine ⟨b1, false, b1, false, b1, e1, ?_, ?_, rfl, rfl, rfl, hf1⟩
    · simp [Basis.undo, hnil]
    · simp [Basis.redo, hf1]
  · obtain ⟨b2, e2, hd2, hu2, hf2, _⟩ := Basis.undo_spec hg hdir hs
    rw [hf1] at hf2
    have hs' : Seg b2.doc ({ g with mOps := a0, mDir := 1 } : UndoGroup).mOps g.mOps b1.doc := by
      rw [hd2]; exact hs
    obtain ⟨b3, e3, hd3, hf3, hu3, _⟩ := Basis.redo_spec hf2 rfl hs'
    have hu : b3.mUndoHistory = b1.mUndoHistory := by
      rw [hu3, hu2, hg]
      congr 1
      cases g
      simp only at hdir
      simp [hdir]
    exact ⟨b1, true, b2, true, b3, e1, e2, e3, hd3, by rw [hu], hu, hf3⟩

/-- C2, witness: the bracket of the witness of C1. -/
theorem C2_undo_redo_round_trip_witness :
    ∃ b1 f b2 f' b3, (Basis.fresh Document.sample).transaction Defaults.sample
        [.del .sectors 0, .addNew .vertices, .changeLinedef 0 .flags 5, .del .vertices 1]
        = some b1 ∧
      b1.undo = some (f, b2) ∧ b2.redo = some (f', b3) ∧ b3.doc = b1.doc ∧
      b3.mUndoHistory.length = b1.mUndoHistory.length ∧
      b3.mUndoHistory = b1.mUndoHistory ∧ b3.mRedoFuture = [] :=
  C2_undo_redo_round_trip Defaults.sample (Basis.fresh Document.sample)
    [.del .sectors 0, .addNew .vertices, .changeLinedef 0 .flags 5, .del .vertices 1]
    (by decide) (fun h => absurd h (by decide)) (by decide)

/-- C3.  History is last-in-first-out across groups.  Starting from an
empty undo history outside a bracket, after `k` non-empty brackets with
in-range indices, producing the documents `D0` (initial), `D1`, ..., `Dk`:
`j` successive calls of `undo` (for every `j` up to `k`) all return true and
yield `D(k-j)`, and after `k` undos `j` successive calls of `redo` all
return true and yield `Dj`. -/
theorem C3_history_is_lifo (dflt : Defaults) (b : Basis) (txs : List (List Cmd))
    (hi : b.Idle) (hempty : b.mUndoHistory = []) (hr : Basis.TxsInRange dflt txs b) :
    ∃ docs bk bz, b.transactions dflt txs = some (docs, bk) ∧ docs.length = txs.length ∧
      (∀ j, j ≤ txs.length → ∃ bu, bk.undoTimes j = some (true, bu) ∧
        (b.doc :: docs)[txs.length - j]? = some bu.doc) ∧
      bk.undoTimes txs.length = some (true, bz) ∧
      (∀ j, j ≤ txs.length → ∃ br, bz.redoTimes j = some (true, br) ∧
        (b.doc :: docs)[j]? = some br.doc) := by
  cases txs with
  | nil =>
    refine ⟨[], b, b, rfl, rfl, ?_, rfl, ?_⟩
    · intro j hj
      have : j = 0 := by simpa using hj
      subst this
      exact ⟨b, rfl, by simp⟩
    · intro j hj
      have : j = 0 := by simpa using hj
      subst this
      exact ⟨b, rfl, by simp⟩
  | cons tx rest =>
    have hu0 : UndoChain [] b.doc b.mUndoHistory := by rw [hempty]; trivial
    obtain ⟨docs, bk, ds', e, hlen, _, hds, huk, hfk⟩ :=
      Basis.transactions_chain dflt (tx :: rest) hi hu0 hr
    have hfk' : RedoChain [] bk.doc bk.mRedoFuture := by rw [hfk (by simp)]; trivial
    have hrev : bk.doc :: ds' = (b.doc :: docs).reverse := by rw [hds]; simp
    have hlen2 : docs.length = rest.length + 1 := by simpa using hlen
    have hlen' : ds'.length = (tx :: rest).length := by
      have := congrArg List.length hrev
      simp only [List.length_cons, List.length_reverse] at this
      simp only [List.length_cons]
      omega
    have hundo : ∀ j, j ≤ (tx :: rest).length → ∃ bu, bk.undoTimes j = some (true, bu) ∧
        (b.doc :: docs)[(tx :: rest).length - j]? = some bu.doc ∧
        UndoChain (ds'.drop j) bu.doc bu.mUndoHistory ∧
        RedoChain ((bk.doc :: ds').take j).reverse bu.doc bu.mRedoFuture := by
      intro j hj
      obtain ⟨bu, e1, hd1, hu1, hf1, _⟩ := Basis.undoTimes_chain j huk hfk' (by omega)
      refine ⟨bu, e1, ?_, hu1, by simpa using hf1⟩
      rw [hrev, List.getElem?_reverse (by simp only [List.length_cons] at hj ⊢; omega)] at hd1
      rw [← hd1]
      simp only [List.length_cons] at hj ⊢
      congr 1
      omega
    obtain ⟨bz, ez, hdz, huz, hfz⟩ := hundo (tx :: rest).length (le_refl _)
    refine ⟨docs, bk, bz, e, hlen, ?_, ez, ?_⟩
    · intro j hj
      obtain ⟨bu, e1, hd1, _⟩ := hundo j hj
      exact ⟨bu, e1, hd1⟩
    · intro j hj
      have hz : bz.doc = b.doc := by
        simp only [Nat.sub_self, List.getElem?_cons_zero, Option.some.injEq] at hdz
        exact hdz.symm
      have hfz' : RedoChain docs bz.doc bz.mRedoFuture := by
        have ht : ((bk.doc :: ds').take (tx :: rest).length).reverse = docs := by
          rw [hrev, List.reverse_take, List.reverse_reverse]
          simp [hlen]
        rw [ht] at hfz
        exact hfz
      obtain ⟨br, e2, hd2, _⟩ := Basis.redoTimes_chain j huz hfz' (by omega)
      rw [hz] at hd2
      exact ⟨br, e2, hd2⟩

/-- C3, witness: three brackets on the sample map. -/
theorem C3_history_is_lifo_witness :
    ∃ docs bk bz, (Basis.fresh Document.sample).transactions Defaults.sample
        [[.del .sectors 0], [.addNew .vertices, .changeLinedef 0 .flags 5], [.del .vertices 1]]
        = some (docs, bk) ∧
      docs.length = 3 ∧
      (∀ j, j ≤ 3 → ∃ bu, bk.undoTimes j = some (true, bu) ∧
        ((Basis.fresh Document.sample).doc :: docs)[3 - j]? = some bu.doc) ∧
      bk.undoTimes 3 = some (true, bz) ∧
      (∀ j, j ≤ 3 → ∃ br, bz.redoTimes j = some (true, br) ∧
        ((Basis.fresh Document.sample).doc :: docs)[j]? = some br.doc) :=
  C3_history_is_lifo Defaults.sample (Basis.fresh Document.sample)
    [[.del .sectors 0], [.addNew .vertices, .changeLinedef 0 .flags 5], [.del .vertices 1]]
    (by decide) rfl (by decide)

/-- The cascade example evaluated: after `del(sectors, 0)` the sidedefs 0
and 1 are gone, both linedefs are still there, the right side of linedef 0
and the left side of linedef 1 are `-1`, and the remaining sidedef and its
sector index are renumbered. -/
theorem del_sector_cascade_example :
    (Basis.del .sectors 0 (Basis.opened Document.cascadeExample)).map (fun b => b.doc) =
      some (Document.ofMap [Vertex.at 0 0, Vertex.at 64 0, Vertex.at 64 64]
        [SideDef.simple 0]
        [LineDef.simple 0 1 (-1) (-1), LineDef.simple 1 2 0 (-1)]
        [Sector.simple 8]) := by
  decide

/-- C4.  Deleting a sector cascades completely: for every document that
satisfies the referential invariants and every valid sector index `s`,
`del(sectors, s)` succeeds; the sidedefs bound to `s` are gone (the others
stay in order, their sector index shifted down when it was above `s`), so
the sidedef count drops by exactly the number of sidedefs bound to `s`;
every linedef side that referenced such a sidedef is `-1`; and no linedef
is deleted. -/
theorem C4_del_sector_cascade (b : Basis) (s : Int) (hact : b.mCurrentGroup.isActive = true)
    (hr : 0 ≤ s ∧ s < b.doc.numSectors) (hv : b.doc.Valid) :
    ∃ b', Basis.del .sectors s b = some b' ∧
      b'.doc.sidedefs =
        ((b.doc.sidedefs.filter fun S => !decide (S.sector = s)).map fun S =>
          { S with sector := if S.sector > s then S.sector - 1 else S.sector }) ∧
      b'.doc.sidedefs.length + (b.doc.sidedefs.filter fun S => decide (S.sector = s)).length =
        b.doc.sidedefs.length ∧
      b'.doc.linedefs.length = b.doc.linedefs.length ∧
      ∀ (i : Nat) (L : LineDef), b.doc.linedefs[i]? = some L →
        ∃ L' : LineDef, b'.doc.linedefs[i]? = some L' ∧
          (∀ S : SideDef, 0 ≤ L.right → b.doc.sidedefs[L.right.toNat]? = some S → S.sector = s →
            L'.right = -1) ∧
          (∀ S : SideDef, 0 ≤ L.left → b.doc.sidedefs[L.left.toNat]? = some S → S.sector = s →
            L'.left = -1) := by
  obtain ⟨b', _, _, e, _, _, hd⟩ := Basis.del_spec .sectors hact hr
  have hsd := Document.deleted_sectors_sidedefs s hv.1
  refine ⟨b', e, ?_, ?_, ?_, ?_⟩
  · rw [hd, hsd]
  · rw [hd, hsd, List.length_map]
    exact List.length_filter_add_length_filter_not
      (fun S : SideDef => decide (S.sector = s)) b.doc.sidedefs
  · rw [hd, Document.deleted_sectors_linedefs, Document.sectorLoop_linedefs_length]
  · intro i L hL
    obtain ⟨L', e', _, _, hR, hLf⟩ :=
      Document.sectorLoop_unbinds s b.doc.sidedefs.length b.doc i L (le_refl _) hL
    refine ⟨L', by rw [hd, Document.deleted_sectors_linedefs]; exact e', ?_, ?_⟩
    · intro S h0 hS hsec
      have hlt := (List.getElem?_eq_some_iff.mp hS).1
      exact hR S h0 (by omega) hS hsec
    · intro S h0 hS hsec
      have hlt := (List.getElem?_eq_some_iff.mp hS).1
      exact hLf S h0 (by omega) hS hsec

/-- C4, witness: the cascade example, sector 0. -/
theorem C4_del_sector_cascade_witness :
    ∃ b', Basis.del .sectors 0 (Basis.opened Document.cascadeExample) = some b' ∧
      b'.doc.sidedefs =
        (((Basis.opened Document.cascadeExample).doc.sidedefs.filter
          fun S => !decide (S.sector = 0)).map fun S =>
          { S with sector := if S.sector > 0 then S.sector - 1 else S.sector }) ∧
      b'.doc.sidedefs.length +
          ((Basis.opened Document.cascadeExample).doc.sidedefs.filter
            fun S => decide (S.sector = 0)).length =
        (Basis.opened Document.cascadeExample).doc.sidedefs.length ∧
      b'.doc.linedefs.length = (Basis.opened Document.cascadeExample).doc.linedefs.length ∧
      ∀ (i : Nat) (L : LineDef),
        (Basis.opened Document.cascadeExample).doc.linedefs[i]? = some L →
        ∃ L' : LineDef, b'.doc.linedefs[i]? = some L' ∧
          (∀ S : SideDef, 0 ≤ L.right →
            (Basis.opened Document.cascadeExample).doc.sidedefs[L.right.toNat]? = some S →
            S.sector = 0 → L'.right = -1) ∧
          (∀ S : SideDef, 0 ≤ L.left →
            (Basis.opened Document.cascadeExample).doc.sidedefs[L.left.toNat]? = some S →
            S.sector = 0 → L'.left = -1) :=
  C4_del_sector_cascade (Basis.opened Document.cascadeExample) 0 (by decide) (by decide)
    (by decide)

/-- C5, counterexample.  With vertices `[V0, V1, V2, V3]`, a linedef on
`{1, 3}` and a linedef on `{0, 1}`, `del(vertices, 1)` leaves no linedef at
all: the linedef on `{1, 3}` is bound to vertex 1 and is deleted by the
cascade, it does not survive as `{0, 2}`. -/
theorem C5_counterexample_linedef_on_deleted_vertex :
    (Basis.del .vertices 1
      (Basis.opened (Document.ofMap
        [Vertex.at 0 0, Vertex.at 64 0, Vertex.at 64 64, Vertex.at 0 64] []
        [LineDef.simple 1 3 (-1) (-1), LineDef.simple 0 1 (-1) (-1)] []))).map
      (fun b => (b.doc.vertices, b.doc.linedefs)) =
    some ([Vertex.at 0 0, Vertex.at 64 64, Vertex.at 0 64], []) := by
  decide

/-- C5, amended.  Given vertices `[V0, V1, V2, V3]`, `del(vertices, 1)`
yields vertices `[V0, V2, V3]`; a linedef whose start/end are `{0, 3}` (it
does not touch `V1`) still exists and now reads `{0, 2}`, while the
linedefs that referenced `{1, 3}` and `{0, 1}` are cascade-deleted rather
than reindexed. -/
theorem C5_reindex_on_vertex_delete (b : Basis) (V0 V1 V2 V3 : Vertex) (La Lb Lc : LineDef)
    (hact : b.mCurrentGroup.isActive = true)
    (hv : b.doc.vertices = [V0, V1, V2, V3]) (hl : b.doc.linedefs = [La, Lb, Lc])
    (ha : La.start = 0 ∧ La.end_ = 3) (hb : Lb.start = 1 ∧ Lb.end_ = 3)
    (hc : Lc.start = 0 ∧ Lc.end_ = 1) :
    ∃ b', Basis.del .vertices 1 b = some b' ∧ b'.doc.vertices = [V0, V2, V3] ∧
      b'.doc.linedefs = [{ La with start := 0, end_ := 2 }] := by
  obtain ⟨b', _, _, e, _, _, hd⟩ := Basis.del_spec .vertices (b := b) (n := 1) hact
    (by simp [Document.numObjects, Document.numVertices, hv])
  refine ⟨b', e, ?_, ?_⟩
  · rw [hd, Document.deleted_vertices_explicit]
    simp [hv]
  · rw [hd, Document.deleted_vertices_explicit]
    simp [hl, hv, Document.numVertices, List.filter_cons, ha.1, ha.2, hb.1, hc.2]

/-- C5, witness. -/
theorem C5_reindex_on_vertex_delete_witness :
    ∃ b', Basis.del .vertices 1
        (Basis.opened (Document.ofMap
          [Vertex.at 0 0, Vertex.at 64 0, Vertex.at 64 64, Vertex.at 0 64] []
          [LineDef.simple 0 3 (-1) (-1), LineDef.simple 1 3 (-1) (-1),
            LineDef.simple 0 1 (-1) (-1)] [])) = some b' ∧
      b'.doc.vertices = [Vertex.at 0 0, Vertex.at 64 64, Vertex.at 0 64] ∧
      b'.doc.linedefs = [{ LineDef.simple 0 3 (-1) (-1) with start := 0, end_ := 2 }] :=
  C5_reindex_on_vertex_delete _ _ _ _ _ _ _ _ (by decide) rfl rfl (by decide) (by decide)
    (by decide)

/-- C6, counterexample.  The only vertex (index 0, the last one) is deleted
while a linedef holds the indices 5 and 7: these are greater than 0 and are
left as they are, they are not decremented. -/
theorem C6_counterexample_last_vertex :
    (Basis.del .vertices 0
      (Basis.opened (Document.ofMap [Vertex.at 0 0] []
        [LineDef.simple 5 7 (-1) (-1)] []))).map
      (fun b => (b.doc.vertices, b.doc.linedefs)) =
    some ([], [LineDef.simple 5 7 (-1) (-1)]) := by
  decide

/-- C6, amended.  For every document and valid vertex index `v`,
`del(vertices, v)` deletes exactly the linedefs whose start or end was `v`,
keeps the surviving linedefs in their original relative order, removes
vertex `v` keeping the other vertices in order, and rewrites each surviving
start and end so that an index greater than `v` is decremented by one
unless `v` was the last vertex (then no index is rewritten) and an index
less than `v` is unchanged; hence every start or end of a surviving linedef
that was a valid index refers to the same vertex object as before. -/
theorem C6_del_vertex (b : Basis) (v : Int) (hact : b.mCurrentGroup.isActive = true)
    (hr : 0 ≤ v ∧ v < b.doc.numVertices) :
    ∃ b', Basis.del .vertices v b = some b' ∧
      b'.doc.vertices = b.doc.vertices.eraseIdx v.toNat ∧
      b'.doc.linedefs =
        (b.doc.linedefs.filter fun L => !decide (L.start = v ∨ L.end_ = v)).map (fun L =>
          { L with
            start := if v + 1 < b.doc.numVertices ∧ L.start > v then L.start - 1 else L.start
            end_ := if v + 1 < b.doc.numVertices ∧ L.end_ > v then L.end_ - 1 else L.end_ }) ∧
      ∀ x : Int, 0 ≤ x → x < b.doc.numVertices → x ≠ v →
        b'.doc.vertices[(if v + 1 < b.doc.numVertices ∧ x > v then x - 1 else x).toNat]? =
          b.doc.vertices[x.toNat]? := by
  obtain ⟨b', _, _, e, _, _, hd⟩ := Basis.del_spec .vertices hact hr
  refine ⟨b', e, ?_, ?_, ?_⟩
  · rw [hd, Document.deleted_vertices_explicit]
  · rw [hd, Document.deleted_vertices_explicit]
  · intro x hx0 hxn hxv
    rw [hd, Document.deleted_vertices_explicit]
    simp only [Document.numVertices] at hr hxn ⊢
    rw [List.getElem?_eraseIdx]
    by_cases hlt : x < v
    · have h1 : ¬(v + 1 < (b.doc.vertices.length : Int) ∧ x > v) := by omega
      have h2 : x.toNat < v.toNat := by omega
      simp only [h1, if_false, h2, if_true]
    · have h1 : v + 1 < (b.doc.vertices.length : Int) ∧ x > v := by omega
      have h2 : ¬(x - 1).toNat < v.toNat := by omega
      have h3 : (x - 1).toNat + 1 = x.toNat := by omega
      simp only [h1, and_self, if_true, h2, if_false, h3]

/-- C6, witness: vertex 1 of the sample map. -/
theorem C6_del_vertex_witness :
    ∃ b', Basis.del .vertices 1 (Basis.opened Document.sample) = some b' ∧
      b'.doc.vertices = (Basis.opened Document.sample).doc.vertices.eraseIdx (1 : Int).toNat ∧
      b'.doc.linedefs =
        ((Basis.opened Document.sample).doc.linedefs.filter
          fun L => !decide (L.start = 1 ∨ L.end_ = 1)).map (fun L =>
          { L with
            start :=
              if 1 + 1 < (Basis.opened Document.sample).doc.numVertices ∧ L.start > 1 then
                L.start - 1
              else L.start
            end_ :=
              if 1 + 1 < (Basis.opened Document.sample).doc.numVertices ∧ L.end_ > 1 then
                L.end_ - 1
              else L.end_ }) ∧
      ∀ x : Int, 0 ≤ x → x < (Basis.opened Document.sample).doc.numVertices → x ≠ 1 →
        b'.doc.vertices[(if 1 + 1 < (Basis.opened Document.sample).doc.numVertices ∧ x > 1
            then x - 1 else x).toNat]? =
          (Basis.opened Document.sample).doc.vertices[x.toNat]? :=
  C6_del_vertex (Basis.opened Document.sample) 1 (by decide) (by decide)

/-- C7, counterexample.  The only sidedef (index 0, the last one) is deleted
while a linedef holds the side index 5: it is greater than 0 and is left as
it is, it is not decremented. -/
theorem C7_counterexample_last_sidedef :
    (Basis.del .sidedefs 0
      (Basis.opened (Document.ofMap [Vertex.at 0 0, Vertex.at 64 0] [SideDef.simple 0]
        [LineDef.simple 0 1 5 (-1)] [Sector.simple 0]))).map
      (fun b => (b.doc.sidedefs, b.doc.linedefs)) =
    some ([], [LineDef.simple 0 1 5 (-1)]) := by
  decide

/-- C7, amended.  For every document and valid sidedef index `s`, after
`del(sidedefs, s)` every linedef whose right (resp. left) was `s` has right
(resp. left) equal to -1, every other side index greater than `s` is
decremented by one unless `s` was the last sidedef (then it is unchanged),
every side index less than `s` (including -1) is unchanged, the linedef
count is unchanged, and the sidedef collection is the old one with element
`s` removed. -/
theorem C7_del_sidedef (b : Basis) (s : Int) (hact : b.mCurrentGroup.isActive = true)
    (hr : 0 ≤ s ∧ s < b.doc.numSidedefs) :
    ∃ b', Basis.del .sidedefs s b = some b' ∧
      b'.doc.sidedefs = b.doc.sidedefs.eraseIdx s.toNat ∧
      b'.doc.linedefs.length = b.doc.linedefs.length ∧
      b'.doc.linedefs =
        b.doc.linedefs.map fun L =>
          { L with
            right :=
              if L.right = s then -1
              else if s + 1 < b.doc.numSidedefs ∧ L.right > s then L.right - 1 else L.right
            left :=
              if L.left = s then -1
              else if s + 1 < b.doc.numSidedefs ∧ L.left > s then L.left - 1 else L.left } := by
  obtain ⟨b', _, _, e, _, _, hd⟩ := Basis.del_spec .sidedefs hact hr
  refine ⟨b', e, ?_, ?_, ?_⟩
  · rw [hd, Document.deleted_sidedefs_explicit _ _ hr.1]
  · rw [hd, Document.deleted_sidedefs_explicit _ _ hr.1]
    simp
  · rw [hd, Document.deleted_sidedefs_explicit _ _ hr.1]

/-- C7, witness: sidedef 3 of the sample map, the back of linedef 3. -/
theorem C7_del_sidedef_witness :
    ∃ b', Basis.del .sidedefs 3 (Basis.opened Document.sample) = some b' ∧
      b'.doc.sidedefs = (Basis.opened Document.sample).doc.sidedefs.eraseIdx (3 : Int).toNat ∧
      b'.doc.linedefs.length = (Basis.opened Document.sample).doc.linedefs.length ∧
      b'.doc.linedefs =
        (Basis.opened Document.sample).doc.linedefs.map fun L =>
          { L with
            right :=
              if L.right = 3 then -1
              else if 3 + 1 < (Basis.opened Document.sample).doc.numSidedefs ∧ L.right > 3 then
                L.right - 1
              else L.right
            left :=
              if L.left = 3 then -1
              else if 3 + 1 < (Basis.opened Document.sample).doc.numSidedefs ∧ L.left > 3 then
                L.left - 1
              else L.left } :=
  C7_del_sidedef (Basis.opened Document.sample) 3 (by decide) (by decide)

/-- C8.  `del` preserves referential integrity: if, before `del(type, i)`
with `i` in range inside an open group, every sidedef's sector is a valid
sector index, every linedef's start and end are valid vertex indices with
start different from end, and every linedef's right/left is -1 or a valid
sidedef index, then `del` succeeds and the same three conditions hold
afterwards. -/
theorem C8_del_preserves_invariants (b : Basis) (type : ObjType) (i : Int)
    (hact : b.mCurrentGroup.isActive = true) (hr : 0 ≤ i ∧ i < b.doc.numObjects type)
    (hv : b.doc.Valid) :
    ∃ b', Basis.del type i b = some b' ∧ b'.doc.Valid := by
  obtain ⟨b', _, _, e, _, _, hd⟩ := Basis.del_spec type hact hr
  exact ⟨b', e, by rw [hd]; exact Document.deleted_valid type hr hv⟩

/-- C8, witness: sector 0 of the sample map, whose deletion cascades. -/
theorem C8_del_preserves_invariants_witness :
    ∃ b', Basis.del .sectors 0 (Basis.opened Document.sample) = some b' ∧ b'.doc.Valid :=
  C8_del_preserves_invariants (Basis.opened Document.sample) .sectors 0 (by decide)
    (by decide) (by decide)

/-- C9, counterexample.  On the sample map, which satisfies the invariants,
the bracket `changeLinedef(0, start, 7)` has its object index in range and
leaves linedef 0 starting at the vertex index 7 of four vertices; and on the
empty map the bracket `addNew(linedefs)` leaves, whatever the default
linedef is, a linedef whose start is not the index of a vertex. -/
theorem C9_counterexample_reference_written :
    Document.sample.Valid ∧
    (Basis.fresh Document.sample).TxInRange Defaults.sample [.changeLinedef 0 .start 7] ∧
    ((Basis.fresh Document.sample).transaction Defaults.sample
      [.changeLinedef 0 .start 7]).map (fun b => decide b.doc.Valid) = some false ∧
    (Document.ofMap [] [] [] []).Valid ∧
    ∀ dflt : Defaults, ∃ b',
      (Basis.fresh (Document.ofMap [] [] [] [])).transaction dflt [.addNew .linedefs] = some b' ∧
      ¬ b'.doc.Valid := by
  refine ⟨by decide, by decide, by decide, by decide, ?_⟩
  intro dflt
  have hi : (Basis.fresh (Document.ofMap [] [] [] [])).Idle := by decide
  obtain ⟨b1, e1, hd1, _, hdir1, _⟩ := Basis.begin_spec hi
  have hact1 : b1.mCurrentGroup.isActive = true := by simp [UndoGroup.isActive, hdir1]
  obtain ⟨b2, e2, g2, hd2⟩ := Basis.addNew_grew dflt .linedefs hact1
  have hact2 : b2.mCurrentGroup.isActive = true := by rw [g2.isActive]; exact hact1
  obtain ⟨b3, e3, hd3, _⟩ := Basis.end_spec hact2
  refine ⟨b3, by simp [Basis.transaction, e1, Cmd.runAll, Cmd.run, e2, e3], ?_⟩
  intro hv
  have hmem : dflt.linedef ∈ b3.doc.linedefs := by
    rw [hd3, hd2, hd1]
    simp [Document.pushed, Basis.fresh, Document.ofMap]
  have := hv.2.1 _ hmem
  rw [hd3, hd2, hd1] at this
  simp only [Document.pushed, Basis.fresh, Document.ofMap, Document.numVertices,
    List.length_nil, Nat.cast_zero] at this
  omega

/-- C9, amended.  The data-model invariants hold after every completed
bracket that writes no reference: starting outside a bracket from a
document that satisfies them, after any `begin(); calls; end()` whose calls
have their object indices in range and are `del` calls, `addNew` calls for
things, vertices or sectors, or `change` calls on a field other than a
sidedef's sector and a linedef's start, end, right and left, the bracket
succeeds and every sidedef's sector is a valid sector index, every linedef's
start and end are valid vertex indices with start different from end, and
every linedef's right/left is -1 or a valid sidedef index. -/
theorem C9_bracket_preserves_invariants (dflt : Defaults) (b : Basis) (cmds : List Cmd)
    (hi : b.Idle) (hr : b.TxInRange dflt cmds) (hk : ∀ c ∈ cmds, c.KeepsRefs)
    (hv : b.doc.Valid) :
    ∃ b', b.transaction dflt cmds = some b' ∧ b'.doc.Valid := by
  obtain ⟨b1, e1, hd1, _, hdir1, _⟩ := Basis.begin_spec hi
  simp only [Basis.TxInRange, e1] at hr
  have hact1 : b1.mCurrentGroup.isActive = true := by simp [UndoGroup.isActive, hdir1]
  obtain ⟨b2, e2, hact2, hv2⟩ := Cmd.runAll_valid dflt cmds hact1 hr hk (by rw [hd1]; exact hv)
  obtain ⟨b3, e3, hd3, _⟩ := Basis.end_spec hact2
  exact ⟨b3, by simp [Basis.transaction, e1, e2, e3], by rw [hd3]; exact hv2⟩

/-- C9, witness: a bracket on the sample map that deletes sector 0 and
vertex 1 (both cascade), adds a vertex and a sector, and changes a flag. -/
theorem C9_bracket_preserves_invariants_witness :
    ∃ b', (Basis.fresh Document.sample).transaction Defaults.sample
        [.del .sectors 0, .addNew .vertices, .changeLinedef 0 .flags 5, .del .vertices 1,
          .addNew .sectors] = some b' ∧
      b'.doc.Valid :=
  C9_bracket_preserves_invariants Defaults.sample (Basis.fresh Document.sample)
    [.del .sectors 0, .addNew .vertices, .changeLinedef 0 .flags 5, .del .vertices 1,
      .addNew .sectors]
    (by decide) (by decide) (by decide) (by decide)

/-- C10.  Outside a bracket, `begin(); end();` with no call in between
succeeds, pushes nothing onto the undo stack and leaves the document
unchanged; an `undo` issued right after returns the same flag and produces
the same document as an `undo` issued before the pair, and on an empty
history it returns false and changes nothing. -/
theorem C10_empty_bracket_is_no_op (b : Basis) (hi : b.Idle) :
    ∃ b1, b.begin.bind Basis.end_ = some b1 ∧ b1.doc = b.doc ∧
      b1.mUndoHistory = b.mUndoHistory ∧
      (b1.undo.map fun r => (r.1, r.2.doc)) = (b.undo.map fun r => (r.1, r.2.doc)) ∧
      (b.mUndoHistory = [] → b1.undo = some (false, b1)) := by
  obtain ⟨b0, e0, hd0, ho0, hdir0, _, hu0, _⟩ := Basis.begin_spec hi
  have hact0 : b0.mCurrentGroup.isActive = true := by simp [UndoGroup.isActive, hdir0]
  obtain ⟨b1, e1, hd1, _, _, hu1⟩ := Basis.end_spec hact0
  rw [if_pos ho0] at hu1
  refine ⟨b1, by simp [e0, e1], hd1.trans hd0, hu1.trans hu0, ?_, ?_⟩
  · rw [Basis.undo_result, Basis.undo_result, hu1, hu0, hd1, hd0]
  · intro he
    simp [Basis.undo, hu1, hu0, he]

/-- C10, witness: the empty bracket on a new basis over the sample map. -/
theorem C10_empty_bracket_is_no_op_witness :
    ∃ b1, (Basis.fresh Document.sample).begin.bind Basis.end_ = some b1 ∧
      b1.doc = (Basis.fresh Document.sample).doc ∧
      b1.mUndoHistory = (Basis.fresh Document.sample).mUndoHistory ∧
      (b1.undo.map fun r => (r.1, r.2.doc)) =
        ((Basis.fresh Document.sample).undo.map fun r => (r.1, r.2.doc)) ∧
      ((Basis.fresh Document.sample).mUndoHistory = [] → b1.undo = some (false, b1)) :=
  C10_empty_bracket_is_no_op (Basis.fresh Document.sample) (by decide)

/-- C11.  A fresh edit empties the redo stack: outside a bracket, whatever
the redo stack holds (in particular when an `undo` has left it non-empty),
after `begin(); <one call with its index in range>; end()` the redo stack is
empty, so the next `redo` returns false and leaves the document and the rest
of the basis unchanged. -/
theorem C11_fresh_edit_clears_redo (dflt : Defaults) (b : Basis) (c : Cmd) (hi : b.Idle)
    (hr : b.TxInRange dflt [c]) :
    ∃ b1, b.transaction dflt [c] = some b1 ∧ b1.mRedoFuture = [] ∧
      b1.redo = some (false, b1) := by
  obtain ⟨b1, _, _, e1, _, _, _, hf1, _⟩ := Basis.transaction_spec dflt [c] hi hr
  exact ⟨b1, e1, hf1, by simp [Basis.redo, hf1]⟩

/-- C11, witness: after a bracket and an `undo` on the sample map the redo
stack holds one group; the fresh edit changes a flag of linedef 0. -/
theorem C11_fresh_edit_clears_redo_witness :
    Basis.sampleUndone.mRedoFuture.length = 1 ∧
    ∃ b1, Basis.sampleUndone.transaction Defaults.sample [.changeLinedef 0 .flags 5] = some b1 ∧
      b1.mRedoFuture = [] ∧ b1.redo = some (false, b1) :=
  ⟨by decide,
    C11_fresh_edit_clears_redo Defaults.sample Basis.sampleUndone (.changeLinedef 0 .flags 5)
      (by decide) (by decide)⟩

/-- C12.  `undo` returns false if and only if the undo history is empty;
when it returns false the whole basis (document, undo stack, redo stack) is
unchanged; when it returns true the undo stack has one group fewer and the
redo stack one group more; and it does return whenever the undo stack fits
the document. -/
theorem C12_undo_flag (b : Basis) :
    ((∃ b', b.undo = some (false, b')) ↔ b.mUndoHistory = []) ∧
    (∀ b', b.undo = some (false, b') →
      b' = b ∧ b'.doc = b.doc ∧ b'.mUndoHistory = b.mUndoHistory ∧
        b'.mRedoFuture = b.mRedoFuture) ∧
    (∀ b', b.undo = some (true, b') →
      b'.mUndoHistory.length + 1 = b.mUndoHistory.length ∧
        b'.mRedoFuture.length = b.mRedoFuture.length + 1) ∧
    (Undoable b.doc b.mUndoHistory → ∃ f b', b.undo = some (f, b')) := by
  rcases Basis.undo_cases b with ⟨hnil, e⟩ | ⟨g, rest, hu, hcase⟩
  · refine ⟨⟨fun _ => hnil, fun _ => ⟨b, e⟩⟩, ?_, ?_, fun _ => ⟨false, b, e⟩⟩
    · intro b' hb'
      rw [e] at hb'
      simp only [Option.some.injEq, Prod.mk.injEq, true_and] at hb'
      subst hb'
      exact ⟨rfl, rfl, rfl, rfl⟩
    · intro b' hb'
      rw [e] at hb'
      simp at hb'
  · refine ⟨⟨?_, fun h => by rw [hu] at h; simp at h⟩, ?_, ?_, ?_⟩
    · rintro ⟨b', hb'⟩
      rcases hcase with e | ⟨g', b2, e, _⟩
      · rw [e] at hb'; simp at hb'
      · rw [e] at hb'; simp at hb'
    · intro b' hb'
      rcases hcase with e | ⟨g', b2, e, _⟩
      · rw [e] at hb'; simp at hb'
      · rw [e] at hb'; simp at hb'
    · intro b' hb'
      rcases hcase with e | ⟨g', b2, e, h1, h2⟩
      · rw [e] at hb'; simp at hb'
      · rw [e] at hb'
        simp only [Option.some.injEq, Prod.mk.injEq, true_and] at hb'
        subst hb'
        rw [h1, h2, hu]
        simp
    · intro hfit
      rw [hu] at hfit
      obtain ⟨hdir, ops0, d0, hseg, _⟩ := hfit
      obtain ⟨b', e, _⟩ := Basis.undo_spec hu hdir hseg
      exact ⟨true, b', e⟩

/-- C12, witness: on the sample state whose undo stack holds one group,
`undo` returns true and moves that group to the redo stack; on a new basis
it returns false and changes nothing. -/
theorem C12_undo_flag_witness :
    (∃ b', Basis.sampleEdited.undo = some (true, b') ∧
      b'.mUndoHistory.length + 1 = Basis.sampleEdited.mUndoHistory.length ∧
      b'.mRedoFuture.length = Basis.sampleEdited.mRedoFuture.length + 1) ∧
    (Basis.fresh Document.sample).undo = some (false, Basis.fresh Document.sample) := by
  have hfit : Undoable Basis.sampleEdited.doc Basis.sampleEdited.mUndoHistory :=
    (Basis.transaction_consistent Defaults.sample [.del .vertices 1]
      (Basis.fresh_consistent Document.sample) (by decide)).elim fun b' h => by
        have e : Basis.sampleEdited = b' := by
          simp only [Basis.sampleEdited, h.1, Option.getD_some]
        rw [e]; exact h.2.2.1
  obtain ⟨f, b', e⟩ := (C12_undo_flag Basis.sampleEdited).2.2.2 hfit
  have hne : Basis.sampleEdited.mUndoHistory ≠ [] := by decide
  have hf : f = true := by
    cases f
    · exact absurd ((C12_undo_flag Basis.sampleEdited).1.mp ⟨b', e⟩) hne
    · rfl
  subst hf
  exact ⟨⟨b', e, (C12_undo_flag Basis.sampleEdited).2.2.1 b' e⟩, rfl⟩
/-- C13.  `redo` returns false if and only if the redo stack is empty; when
it returns false the whole basis (document, undo stack, redo stack) is
unchanged; when it returns true the redo stack has one group fewer and the
undo stack one group more; and it does return whenever the redo stack fits
the document. -/
theorem C13_redo_flag (b : Basis) :
    ((∃ b', b.redo = some (false, b')) ↔ b.mRedoFuture = []) ∧
    (∀ b', b.redo = some (false, b') →
      b' = b ∧ b'.doc = b.doc ∧ b'.mUndoHistory = b.mUndoHistory ∧
        b'.mRedoFuture = b.mRedoFuture) ∧
    (∀ b', b.redo = some (true, b') →
      b'.mRedoFuture.length + 1 = b.mRedoFuture.length ∧
        b'.mUndoHistory.length = b.mUndoHistory.length + 1) ∧
    (Redoable b.doc b.mRedoFuture → ∃ f b', b.redo = some (f, b')) := by
  rcases Basis.redo_cases b with ⟨hnil, e⟩ | ⟨g, rest, hu, hcase⟩
  · refine ⟨⟨fun _ => hnil, fun _ => ⟨b, e⟩⟩, ?_, ?_, fun _ => ⟨false, b, e⟩⟩
    · intro b' hb'
      rw [e] at hb'
      simp only [Option.some.injEq, Prod.mk.injEq, true_and] at hb'
      subst hb'
      exact ⟨rfl, rfl, rfl, rfl⟩
    · intro b' hb'
      rw [e] at hb'
      simp at hb'
  · refine ⟨⟨?_, fun h => by rw [hu] at h; simp at h⟩, ?_, ?_, ?_⟩
    · rintro ⟨b', hb'⟩
      rcases hcase with e | ⟨g', b2, e, _⟩
      · rw [e] at hb'; simp at hb'
      · rw [e] at hb'; simp at hb'
    · intro b' hb'
      rcases hcase with e | ⟨g', b2, e, _⟩
      · rw [e] at hb'; simp at hb'
      · rw [e] at hb'; simp at hb'
    · intro b' hb'
      rcases hcase with e | ⟨g', b2, e, h1, h2⟩
      · rw [e] at hb'; simp at hb'
      · rw [e] at hb'
        simp only [Option.some.injEq, Prod.mk.injEq, true_and] at hb'
        subst hb'
        rw [h1, h2, hu]
        simp
    · intro hfit
      rw [hu] at hfit
      obtain ⟨hdir, ops, d1, hseg, _⟩ := hfit
      obtain ⟨b', e, _⟩ := Basis.redo_spec hu hdir hseg
      exact ⟨true, b', e⟩

/-- C13, witness: on the sample state whose redo stack holds one group,
`redo` returns true and moves that group to the undo stack; on a new basis
it returns false and changes nothing. -/
theorem C13_redo_flag_witness :
    (∃ b', Basis.sampleUndone.redo = some (true, b') ∧
      b'.mRedoFuture.length + 1 = Basis.sampleUndone.mRedoFuture.length ∧
      b'.mUndoHistory.length = Basis.sampleUndone.mUndoHistory.length + 1) ∧
    (Basis.fresh Document.sample).redo = some (false, Basis.fresh Document.sample) := by
  have hfit : Redoable Basis.sampleUndone.doc Basis.sampleUndone.mRedoFuture := by
    obtain ⟨b1, e1, h1⟩ := Basis.transaction_consistent Defaults.sample [.del .vertices 1]
      (Basis.fresh_consistent Document.sample) (by decide)
    obtain ⟨f, b2, e2, h2⟩ := Basis.undo_consistent h1
    have e : Basis.sampleUndone = b2 := by
      simp only [Basis.sampleUndone, e1, Option.some_bind, e2, Option.map_some',
        Option.getD_some]
    rw [e]; exact h2.2.2
  obtain ⟨f, b', e⟩ := (C13_redo_flag Basis.sampleUndone).2.2.2 hfit
  have hne : Basis.sampleUndone.mRedoFuture ≠ [] := by decide
  have hf : f = true := by
    cases f
    · exact absurd ((C13_redo_flag Basis.sampleUndone).1.mp ⟨b', e⟩) hne
    · rfl
  subst hf
  exact ⟨⟨b', e, (C13_redo_flag Basis.sampleUndone).2.2.1 b' e⟩, rfl⟩

/-- C14.  `abort(false)` rolls the open group back: outside a bracket, for
every sequence of addNew / del / change calls with in-range indices made
since `begin`, `abort(false)` succeeds, and afterwards the document equals
its state immediately before `begin`, the undo stack is exactly what it was
before `begin`, and no group is active. -/
theorem C14_abort_rolls_back (dflt : Defaults) (b : Basis) (cmds : List Cmd) (hi : b.Idle)
    (hr : b.TxInRange dflt cmds) :
    ∃ bk b', b.bracket dflt cmds = some bk ∧ bk.abort false = some b' ∧ b'.doc = b.doc ∧
      b'.mUndoHistory = b.mUndoHistory ∧ b'.mCurrentGroup.isActive = false := by
  obtain ⟨bk, ops0, e, hact, hseg, hu, _⟩ := Basis.bracket_spec dflt cmds hi hr
  obtain ⟨b', e', hd, hi', hu', _⟩ := Basis.abort_rollback_spec hact hseg
  exact ⟨bk, b', e, e', hd, hu'.trans hu, hi'.not_active⟩

/-- C14, witness: the cascading bracket of the sample map, aborted. -/
theorem C14_abort_rolls_back_witness :
    ∃ bk b', (Basis.fresh Document.sample).bracket Defaults.sample
        [.del .sectors 0, .addNew .vertices, .changeLinedef 0 .flags 5, .del .vertices 1]
        = some bk ∧
      bk.abort false = some b' ∧ b'.doc = (Basis.fresh Document.sample).doc ∧
      b'.mUndoHistory = (Basis.fresh Document.sample).mUndoHistory ∧
      b'.mCurrentGroup.isActive = false :=
  C14_abort_rolls_back Defaults.sample (Basis.fresh Document.sample)
    [.del .sectors 0, .addNew .vertices, .changeLinedef 0 .flags 5, .del .vertices 1]
    (by decide) (by decide)

/-- C15.  `abort(true)` keeps the edits but records no history: in an open
group it succeeds; afterwards the document is exactly the one before the
call (the operations of the group still in effect), the undo stack and the
redo stack are the ones before the call, and no group is active.  The
aborted group is therefore not on the undo stack: a following `undo` acts
on the older top group, if there is one, and on an empty history it returns
false and leaves the edited document as it is. -/
theorem C15_abort_keeps_changes (b : Basis) (hact : b.mCurrentGroup.isActive = true) :
    ∃ b', b.abort true = some b' ∧ b'.doc = b.doc ∧ b'.mUndoHistory = b.mUndoHistory ∧
      b'.mRedoFuture = b.mRedoFuture ∧ b'.mCurrentGroup.isActive = false ∧
      (b'.undo.map fun r => (r.1, r.2.doc)) =
        (match b.mUndoHistory with
          | [] => some (false, b.doc)
          | g :: _ => (g.reapplyDoc b.doc).map fun r => (true, r.2)) ∧
      (b.mUndoHistory = [] → b'.undo = some (false, b') ∧ b'.doc = b.doc) := by
  obtain ⟨b', e, hd, hi, hu, hf⟩ := Basis.abort_keep_spec hact
  refine ⟨b', e, hd, hu, hf, hi.not_active, ?_, ?_⟩
  · rw [Basis.undo_result, hu, hd]
  · intro he
    exact ⟨by simp [Basis.undo, hu, he], hd⟩

/-- C15, witness: the sample map with a group open in which vertex 1 was
deleted; the document differs from the sample map and stays so. -/
theorem C15_abort_keeps_changes_witness :
    Basis.sampleOpenEdited.doc ≠ Document.sample ∧
    ∃ b', Basis.sampleOpenEdited.abort true = some b' ∧ b'.doc = Basis.sampleOpenEdited.doc ∧
      b'.mUndoHistory = Basis.sampleOpenEdited.mUndoHistory ∧
      b'.mRedoFuture = Basis.sampleOpenEdited.mRedoFuture ∧
      b'.mCurrentGroup.isActive = false ∧
      (b'.undo.map fun r => (r.1, r.2.doc)) =
        (match Basis.sampleOpenEdited.mUndoHistory with
          | [] => some (false, Basis.sampleOpenEdited.doc)
          | g :: _ => (g.reapplyDoc Basis.sampleOpenEdited.doc).map fun r => (true, r.2)) ∧
      (Basis.sampleOpenEdited.mUndoHistory = [] →
        b'.undo = some (false, b') ∧ b'.doc = Basis.sampleOpenEdited.doc) :=
  ⟨by decide, C15_abort_keeps_changes Basis.sampleOpenEdited (by decide)⟩

/-- C16.  Applying a change operation is a swap.  For every object type,
index in range, field (read through `getField`, which is defined exactly
when the index is in range and the selector is of the object's kind), field
value `a` and operation value `v` (equal or not): one `apply` leaves the
field equal to `v` and the value slot equal to `a`, every other field of
every object and every count as before; a second `apply` leaves the field
equal to `a`, the slot equal to `v` and the whole document as it was. -/
theorem C16_change_apply_is_swap (basis : Basis) (type : ObjType) (objnum : Int)
    (field : ItemField) (a v : Int) (h0 : 0 ≤ objnum)
    (hget : basis.doc.getField type objnum.toNat field = some a) :
    ∃ op1 b1 op2 b2,
      (Basis.changeOp type objnum field v).apply basis = some (op1, b1) ∧
      b1.doc.getField type objnum.toNat field = some v ∧ op1.payload = Payload.value a ∧
      op1.action = EditType.change ∧
      (∀ t m f, (t, m, f) ≠ (type, objnum.toNat, field) →
        b1.doc.getField t m f = basis.doc.getField t m f) ∧
      (∀ t, b1.doc.numObjects t = basis.doc.numObjects t) ∧
      op1.apply b1 = some (op2, b2) ∧
      b2.doc.getField type objnum.toNat field = some a ∧ op2.payload = Payload.value v ∧
      b2.doc = basis.doc := by
  obtain ⟨d1, h1, h2, g1, g2, g3⟩ :=
    EditOperation.changeOp_applyDoc_twice basis.doc type objnum field a v h0 hget
  refine ⟨Basis.changeOp type objnum field a,
    basis.moved d1 [(Basis.changeOp type objnum field v).event],
    Basis.changeOp type objnum field v,
    (basis.moved d1 [(Basis.changeOp type objnum field v).event]).moved basis.doc
      [(Basis.changeOp type objnum field a).event],
    by rw [EditOperation.apply_eq, h1]; rfl, g1, rfl, rfl, g2, g3,
    by rw [EditOperation.apply_eq, Basis.moved_doc, h2]; rfl, hget, rfl, rfl⟩

/-- C16, witness: `change(Sector, 0, floor height, 64)` on the sample map,
whose sector 0 has floor height 0, applied twice. -/
theorem C16_change_apply_is_swap_witness :
    ∃ op1 b1 op2 b2,
      (Basis.changeOp .sectors 0 (.sector .floorh) 64).apply (Basis.opened Document.sample)
        = some (op1, b1) ∧
      b1.doc.getField .sectors (0 : Int).toNat (.sector .floorh) = some 64 ∧
      op1.payload = Payload.value 0 ∧ op1.action = EditType.change ∧
      (∀ t m f, (t, m, f) ≠ (ObjType.sectors, (0 : Int).toNat, ItemField.sector .floorh) →
        b1.doc.getField t m f = (Basis.opened Document.sample).doc.getField t m f) ∧
      (∀ t, b1.doc.numObjects t = (Basis.opened Document.sample).doc.numObjects t) ∧
      op1.apply b1 = some (op2, b2) ∧
      b2.doc.getField .sectors (0 : Int).toNat (.sector .floorh) = some 0 ∧
      op2.payload = Payload.value 64 ∧
      b2.doc = (Basis.opened Document.sample).doc :=
  C16_change_apply_is_swap (Basis.opened Document.sample) .sectors 0 (.sector .floorh) 0 64
    (by decide) (by decide)

/-- C17.  For each of the five object types, `addNew(type)` inside an open
group succeeds and returns the number of objects of that type before the
call; the collection of that type is the old one with one new object
appended as its last element, so its count grows by exactly one; the other
four collections are the same lists as before; and every field of every
existing object, the cross-reference indices among them, reads as before. -/
theorem C17_addNew_appends (dflt : Defaults) (b : Basis) (type : ObjType)
    (hact : b.mCurrentGroup.isActive = true) :
    ∃ b', b.addNew dflt type = some (b.doc.numObjects type, b') ∧
      b'.doc.numObjects type = b.doc.numObjects type + 1 ∧
      (∀ t, t ≠ type → b'.doc.numObjects t = b.doc.numObjects t) ∧
      b'.doc.things = b.doc.things ++ (if type = .things then [dflt.thing] else []) ∧
      b'.doc.vertices = b.doc.vertices ++ (if type = .vertices then [dflt.vertex] else []) ∧
      b'.doc.sectors = b.doc.sectors ++ (if type = .sectors then [dflt.sector] else []) ∧
      b'.doc.sidedefs = b.doc.sidedefs ++ (if type = .sidedefs then [dflt.sidedef] else []) ∧
      b'.doc.linedefs = b.doc.linedefs ++ (if type = .linedefs then [dflt.linedef] else []) ∧
      ∀ t n f a, b.doc.getField t n f = some a → b'.doc.getField t n f = some a := by
  obtain ⟨b', e, -, hd⟩ := Basis.addNew_grew dflt type hact
  refine ⟨b', e, ?_, ?_, ?_, ?_, ?_, ?_, ?_, ?_⟩
  · rw [hd]; cases type <;> simp [Document.pushed, Document.numObjects, Document.numThings,
      Document.numVertices, Document.numSectors, Document.numSidedefs, Document.numLinedefs]
  · intro t ht
    rw [hd]; cases type <;> cases t <;> first
      | exact absurd rfl ht
      | rfl
  · rw [hd]; cases type <;> simp [Document.pushed]
  · rw [hd]; cases type <;> simp [Document.pushed]
  · rw [hd]; cases type <;> simp [Document.pushed]
  · rw [hd]; cases type <;> simp [Document.pushed]
  · rw [hd]; cases type <;> simp [Document.pushed]
  · intro t n f a h
    rw [hd]; exact Document.getField_pushed _ dflt type t n f a h

/-- C17, witness: a new sidedef in the open group of the sample map. -/
theorem C17_addNew_appends_witness :
    ∃ b', (Basis.opened Document.sample).addNew Defaults.sample .sidedefs =
        some ((Basis.opened Document.sample).doc.numObjects .sidedefs, b') ∧
      b'.doc.numObjects .sidedefs = (Basis.opened Document.sample).doc.numObjects .sidedefs + 1 ∧
      (∀ t, t ≠ ObjType.sidedefs →
        b'.doc.numObjects t = (Basis.opened Document.sample).doc.numObjects t) ∧
      b'.doc.things = (Basis.opened Document.sample).doc.things ++
        (if ObjType.sidedefs = .things then [Defaults.sample.thing] else []) ∧
      b'.doc.vertices = (Basis.opened Document.sample).doc.vertices ++
        (if ObjType.sidedefs = .vertices then [Defaults.sample.vertex] else []) ∧
      b'.doc.sectors = (Basis.opened Document.sample).doc.sectors ++
        (if ObjType.sidedefs = .sectors then [Defaults.sample.sector] else []) ∧
      b'.doc.sidedefs = (Basis.opened Document.sample).doc.sidedefs ++
        (if ObjType.sidedefs = .sidedefs then [Defaults.sample.sidedef] else []) ∧
      b'.doc.linedefs = (Basis.opened Document.sample).doc.linedefs ++
        (if ObjType.sidedefs = .linedefs then [Defaults.sample.linedef] else []) ∧
      ∀ t n f a, (Basis.opened Document.sample).doc.getField t n f = some a →
        b'.doc.getField t n f = some a :=
  C17_addNew_appends Defaults.sample (Basis.opened Document.sample) .sidedefs (by decide)

/-- C18.  `begin()` fails fatally if and only if a group is already active.
In particular a second `begin()` right after a successful one fails, and so
does a `begin()` after any in-range calls of an open bracket; `begin()`
after a successful `end()` (whether the group was empty or not) or after a
successful `abort(k)` succeeds.  A bracket of in-range calls started with
no group open can be closed by `end()` and by `abort(k)` for both values of
`k`, and `begin()` then succeeds.  So a group is opened only when none is
open: at most one group is ever open. -/
theorem C18_begin_fails_iff_active (dflt : Defaults) (b : Basis) (cmds : List Cmd)
    (hi : b.Idle) (hr : b.TxInRange dflt cmds) :
    (∀ x : Basis, x.begin = none ↔ x.mCurrentGroup.isActive = true) ∧
    (∀ x x1 : Basis, x.begin = some x1 → x1.begin = none) ∧
    (∀ x xe : Basis, x.end_ = some xe → ∃ x2, xe.begin = some x2) ∧
    (∀ (x : Basis) (k : Bool) (xa : Basis), x.abort k = some xa → ∃ x2, xa.begin = some x2) ∧
    ∃ bk, b.bracket dflt cmds = some bk ∧ bk.begin = none ∧
      (∃ be b2, bk.end_ = some be ∧ be.begin = some b2) ∧
      ∀ k, ∃ ba b2, bk.abort k = some ba ∧ ba.begin = some b2 := by
  refine ⟨Basis.begin_eq_none, ?_, ?_, ?_, ?_⟩
  · intro x x1 h
    have hx : x.mCurrentGroup.isActive = false := by
      cases ha : x.mCurrentGroup.isActive
      · rfl
      · rw [(Basis.begin_eq_none x).mpr ha] at h; cases h
    obtain ⟨b1, e, ha1⟩ := Basis.begin_of_not_active hx
    rw [e] at h; cases h
    exact (Basis.begin_eq_none _).mpr ha1
  · intro x xe h
    obtain ⟨x2, e, -⟩ := Basis.begin_of_not_active (Basis.end_not_active h)
    exact ⟨x2, e⟩
  · intro x k xa h
    obtain ⟨x2, e, -⟩ := Basis.begin_of_not_active (Basis.abort_not_active h)
    exact ⟨x2, e⟩
  · obtain ⟨bk, ops0, e, hact, hseg, -, -⟩ := Basis.bracket_spec dflt cmds hi hr
    refine ⟨bk, e, (Basis.begin_eq_none bk).mpr hact, ?_, ?_⟩
    · obtain ⟨be, ee, -, hie, -⟩ := Basis.end_spec hact
      obtain ⟨b2, e2, -⟩ := Basis.begin_of_not_active hie.not_active
      exact ⟨be, b2, ee, e2⟩
    · intro k
      cases k
      · obtain ⟨ba, ea, -, hia, -⟩ := Basis.abort_rollback_spec hact hseg
        obtain ⟨b2, e2, -⟩ := Basis.begin_of_not_active hia.not_active
        exact ⟨ba, b2, ea, e2⟩
      · obtain ⟨ba, ea, -, hia, -⟩ := Basis.abort_keep_spec hact
        obtain ⟨b2, e2, -⟩ := Basis.begin_of_not_active hia.not_active
        exact ⟨ba, b2, ea, e2⟩

/-- C18, witness: the cascading bracket of the sample map. -/
theorem C18_begin_fails_iff_active_witness :
    (∀ x : Basis, x.begin = none ↔ x.mCurrentGroup.isActive = true) ∧
    (∀ x x1 : Basis, x.begin = some x1 → x1.begin = none) ∧
    (∀ x xe : Basis, x.end_ = some xe → ∃ x2, xe.begin = some x2) ∧
    (∀ (x : Basis) (k : Bool) (xa : Basis), x.abort k = some xa → ∃ x2, xa.begin = some x2) ∧
    ∃ bk, (Basis.fresh Document.sample).bracket Defaults.sample
        [.del .sectors 0, .addNew .vertices, .changeLinedef 0 .flags 5] = some bk ∧
      bk.begin = none ∧
      (∃ be b2, bk.end_ = some be ∧ be.begin = some b2) ∧
      ∀ k, ∃ ba b2, bk.abort k = some ba ∧ ba.begin = some b2 :=
  C18_begin_fails_iff_active Defaults.sample (Basis.fresh Document.sample)
    [.del .sectors 0, .addNew .vertices, .changeLinedef 0 .flags 5] (by decide) (by decide)

/-- C19, counterexample to the claim as written.  On the sample map:
`begin()`, `addNew(things)`, `clearAll()`.  A group is active, `abort(true)`
succeeds, but `abort(false)` fails: the replay deletes the thing the group
inserted, at an index the emptied collection does not have. -/
theorem C19_counterexample_abort_after_clearAll :
    ((Basis.fresh Document.sample).begin.bind fun b1 =>
      (b1.addNew Defaults.sample .things).map fun r =>
        (r.2.clearAll.mCurrentGroup.isActive, r.2.clearAll.abort false,
          (r.2.clearAll.abort true).isSome)) = some (true, none, true) := by
  decide

/-- C19, amended.  `end()` and `abort(true)` each fail fatally if and only
if no group is active; `abort(false)` fails when no group is active.  Every
successful `end()` or `abort(k)` leaves no group active, so that a second
`end()` or `abort(k)` fails.  With no group open (before any `begin()`)
both fail; in a bracket of in-range calls started with no group open,
`end()` succeeds and `abort(k)` succeeds for both values of `k`. -/
theorem C19_end_abort_fail_iff_inactive (dflt : Defaults) (b : Basis) (cmds : List Cmd)
    (hi : b.Idle) (hr : b.TxInRange dflt cmds) :
    (∀ x : Basis, x.end_ = none ↔ x.mCurrentGroup.isActive = false) ∧
    (∀ x : Basis, x.abort true = none ↔ x.mCurrentGroup.isActive = false) ∧
    (∀ x : Basis, x.mCurrentGroup.isActive = false → x.abort false = none) ∧
    (∀ x xe : Basis, x.end_ = some xe →
      xe.mCurrentGroup.isActive = false ∧ xe.end_ = none ∧ ∀ k, xe.abort k = none) ∧
    (∀ (x : Basis) (k : Bool) (xa : Basis), x.abort k = some xa →
      xa.mCurrentGroup.isActive = false ∧ xa.end_ = none ∧ ∀ k2, xa.abort k2 = none) ∧
    (b.end_ = none ∧ ∀ k, b.abort k = none) ∧
    ∃ bk, b.bracket dflt cmds = some bk ∧ bk.mCurrentGroup.isActive = true ∧
      (∃ be, bk.end_ = some be) ∧ ∀ k, ∃ ba, bk.abort k = some ba := by
  refine ⟨Basis.end_eq_none, Basis.abort_true_eq_none,
    fun x h => Basis.abort_of_not_active h false, ?_, ?_,
    ⟨(Basis.end_eq_none b).mpr hi.not_active, Basis.abort_of_not_active hi.not_active⟩, ?_⟩
  · intro x xe h
    have ha := Basis.end_not_active h
    exact ⟨ha, (Basis.end_eq_none xe).mpr ha, Basis.abort_of_not_active ha⟩
  · intro x k xa h
    have ha := Basis.abort_not_active h
    exact ⟨ha, (Basis.end_eq_none xa).mpr ha, Basis.abort_of_not_active ha⟩
  · obtain ⟨bk, ops0, e, hact, hseg, -, -⟩ := Basis.bracket_spec dflt cmds hi hr
    refine ⟨bk, e, hact, ?_, ?_⟩
    · obtain ⟨be, ee, -⟩ := Basis.end_spec hact
      exact ⟨be, ee⟩
    · intro k
      cases k
      · obtain ⟨ba, ea, -⟩ := Basis.abort_rollback_spec hact hseg
        exact ⟨ba, ea⟩
      · obtain ⟨ba, ea, -⟩ := Basis.abort_keep_spec hact
        exact ⟨ba, ea⟩

/-- C19, witness: a bracket of the sample map that deletes a vertex and
adds a thing. -/
theorem C19_end_abort_fail_iff_inactive_witness :
    (∀ x : Basis, x.end_ = none ↔ x.mCurrentGroup.isActive = false) ∧
    (∀ x : Basis, x.abort true = none ↔ x.mCurrentGroup.isActive = false) ∧
    (∀ x : Basis, x.mCurrentGroup.isActive = false → x.abort false = none) ∧
    (∀ x xe : Basis, x.end_ = some xe →
      xe.mCurrentGroup.isActive = false ∧ xe.end_ = none ∧ ∀ k, xe.abort k = none) ∧
    (∀ (x : Basis) (k : Bool) (xa : Basis), x.abort k = some xa →
      xa.mCurrentGroup.isActive = false ∧ xa.end_ = none ∧ ∀ k2, xa.abort k2 = none) ∧
    ((Basis.fresh Document.sample).end_ = none ∧
      ∀ k, (Basis.fresh Document.sample).abort k = none) ∧
    ∃ bk, (Basis.fresh Document.sample).bracket Defaults.sample
        [.del .vertices 1, .addNew .things] = some bk ∧
      bk.mCurrentGroup.isActive = true ∧
      (∃ be, bk.end_ = some be) ∧ ∀ k, ∃ ba, bk.abort k = some ba :=
  C19_end_abort_fail_iff_inactive Defaults.sample (Basis.fresh Document.sample)
    [.del .vertices 1, .addNew .things] (by decide) (by decide)

/-- C20.  `clearAll()` leaves, from every prior state, all five collections
empty (count zero) and both the undo stack and the redo stack empty; a
following `undo()` returns false and changes nothing, and so does a
following `redo()`, in either order. -/
theorem C20_clearAll_empties (b : Basis) :
    (∀ t, b.clearAll.doc.numObjects t = 0) ∧
    b.clearAll.doc.things = [] ∧ b.clearAll.doc.vertices = [] ∧
    b.clearAll.doc.sectors = [] ∧ b.clearAll.doc.sidedefs = [] ∧
    b.clearAll.doc.linedefs = [] ∧
    b.clearAll.mUndoHistory = [] ∧ b.clearAll.mRedoFuture = [] ∧
    b.clearAll.undo = some (false, b.clearAll) ∧
    b.clearAll.redo = some (false, b.clearAll) ∧
    (b.clearAll.undo.bind fun r => r.2.redo.map fun s => (r.1, s.1)) = some (false, false) := by
  have hu : b.clearAll.undo = some (false, b.clearAll) := by
    simp [Basis.undo, Basis.clearAll]
  have hr : b.clearAll.redo = some (false, b.clearAll) := by
    simp [Basis.redo, Basis.clearAll]
  refine ⟨fun t => by cases t <;> rfl, rfl, rfl, rfl, rfl, rfl, rfl, rfl, hu, hr, ?_⟩
  rw [hu]; simp [hr]

/-- C21.  The string table is untouched by `clearAll()`: `clearAll` leaves
`basis_strtab` as it is, so for every string `s`, with `h` the handle
returned by interning `s`, after `clearAll()` resolving `h` still returns
`s`, and interning `s` again returns the same handle `h` and stores
nothing. -/
theorem C21_string_table_survives_clearAll (p : Program) (s : String) :
    (BA_InternaliseString s p).2.clearAll.basis_strtab =
        (BA_InternaliseString s p).2.basis_strtab ∧
    BA_GetString (BA_InternaliseString s p).1 (BA_InternaliseString s p).2.clearAll = s ∧
    (BA_InternaliseString s (BA_InternaliseString s p).2.clearAll).1 =
        (BA_InternaliseString s p).1 ∧
    (BA_InternaliseString s (BA_InternaliseString s p).2.clearAll).2.basis_strtab =
        (BA_InternaliseString s p).2.basis_strtab ∧
    (BA_InternaliseString s p).2.clearAll.basis.doc.things = [] := by
  refine ⟨rfl, ?_, ?_, ?_, rfl⟩
  · exact StringTable.get_add p.basis_strtab s
  · simp only [BA_InternaliseString, Program.clearAll]
    rw [StringTable.add_add]
  · simp only [BA_InternaliseString, Program.clearAll]
    rw [StringTable.add_add]

/-- C22, what the code does.  `change(type, index, field, value)` called in
an open group with the value the field already has: the document is
unchanged, but the operation is recorded in the current group all the
same, the change notification is made and the change flag is raised, so
that `end()` pushes the group onto the undo stack.  The check announced in
the comment above `Basis::change` is not in its body. -/
theorem C22_change_same_value_is_recorded (b : Basis) (type : ObjType) (objnum : Int)
    (field : ItemField) (a : Int) (hact : b.mCurrentGroup.isActive = true)
    (h0 : 0 ≤ objnum) (hget : b.doc.getField type objnum.toNat field = some a) :
    ∃ b', b.change type objnum field a = some b' ∧ b'.doc = b.doc ∧
      b'.mCurrentGroup.mOps = b.mCurrentGroup.mOps ++ [Basis.changeOp type objnum field a] ∧
      b'.listener = b.listener ++ [Event.basisNotifyChange type objnum field] ∧
      b'.mDidMakeChanges = true ∧
      ∃ be, b'.end_ = some be ∧ be.mUndoHistory.length = b.mUndoHistory.length + 1 := by
  obtain ⟨b', e, g, hd⟩ :=
    Basis.change_grew hact (EditOperation.changeOp_same b.doc type objnum field a h0 hget)
  obtain ⟨op', -, t, -⟩ := Basis.change_traced e
  have hact' : b'.mCurrentGroup.isActive = true := by rw [g.isActive]; exact hact
  obtain ⟨be, ee, -, -, -, hu⟩ := Basis.end_spec hact'
  have hne : b'.mCurrentGroup.mOps ≠ [] := by rw [g.mOps]; simp
  rw [if_neg hne] at hu
  refine ⟨b', e, hd, g.mOps, t.listener, ?_, be, ee, ?_⟩
  · rw [t.dirty]; simp
  · rw [hu, g.mUndoHistory]; simp

/-- C22, at the failing input: in the open group of the sample map, whose
sector 0 has floor height 0, `change(sectors, 0, floor height, 0)`. -/
theorem C22_change_same_value_is_recorded_witness :
    ∃ b', (Basis.opened Document.sample).change .sectors 0 (.sector .floorh) 0 = some b' ∧
      b'.doc = (Basis.opened Document.sample).doc ∧
      b'.mCurrentGroup.mOps = (Basis.opened Document.sample).mCurrentGroup.mOps ++
        [Basis.changeOp .sectors 0 (.sector .floorh) 0] ∧
      b'.listener = (Basis.opened Document.sample).listener ++
        [Event.basisNotifyChange .sectors 0 (.sector .floorh)] ∧
      b'.mDidMakeChanges = true ∧
      ∃ be, b'.end_ = some be ∧
        be.mUndoHistory.length = (Basis.opened Document.sample).mUndoHistory.length + 1 :=
  C22_change_same_value_is_recorded (Basis.opened Document.sample) .sectors 0
    (.sector .floorh) 0 (by decide) (by decide) (by decide)

/-- C23.  The signal that changes were made is raised once per group and
never per operation.  For a bracket `begin(); calls; end()` of in-range
calls started with no group open, with `n` the number of operations in the
group when `end()` is called (cascade operations included): between
`begin()` and `end()` the listener receives neither `basisMadeChanges` nor
`basisNotifyEnd`; during `end()` it receives `basisNotifyEnd` exactly once
and `basisMadeChanges` exactly once when `n ≥ 1` and not at all when
`n = 0`, which is the bracket without calls. -/
theorem C23_made_changes_once_per_group (dflt : Defaults) (b : Basis) (cmds : List Cmd)
    (hi : b.Idle) (hr : b.TxInRange dflt cmds) :
    ∃ bk b' evs evsEnd, b.bracket dflt cmds = some bk ∧ bk.end_ = some b' ∧
      b.transaction dflt cmds = some b' ∧
      bk.listener = b.listener ++ evs ∧ b'.listener = bk.listener ++ evsEnd ∧
      evs.count Event.basisMadeChanges = 0 ∧ evs.count Event.basisNotifyEnd = 0 ∧
      evsEnd.count Event.basisNotifyEnd = 1 ∧
      evsEnd.count Event.basisMadeChanges =
        (if bk.mCurrentGroup.mOps.length = 0 then 0 else 1) ∧
      (bk.mCurrentGroup.mOps.length = 0 ↔ cmds = []) := by
  obtain ⟨bk, ops0, e, hact, -⟩ := Basis.bracket_spec dflt cmds hi hr
  obtain ⟨b1, e1, hl1, hm1, ho1, -⟩ := Basis.begin_listener hi
  have hrun : Cmd.runAll dflt cmds b1 = some bk := by
    simpa [Basis.bracket, e1] using e
  obtain ⟨ops, evs, t, hnil⟩ := Cmd.runAll_traced dflt cmds hrun
  obtain ⟨b', ee, hle⟩ := Basis.end_listener hact
  have hops : bk.mCurrentGroup.mOps = ops := by rw [t.mOps, ho1]; rfl
  have hdirty : bk.mDidMakeChanges = !ops.isEmpty := by rw [t.dirty, hm1]; rfl
  refine ⟨bk, b', Event.basisNotifyBegin :: evs, _, e, ee, ?_, ?_, hle, ?_, ?_, ?_, ?_, ?_⟩
  · have : b.transaction dflt cmds = (b.bracket dflt cmds).bind Basis.end_ := rfl
    rw [this, e]; exact ee
  · rw [t.listener, hl1]; simp
  · rw [List.count_cons_of_ne (by simp),
      List.count_eq_zero_of_isEdit t.edits Event.basisMadeChanges rfl]
  · rw [List.count_cons_of_ne (by simp),
      List.count_eq_zero_of_isEdit t.edits Event.basisNotifyEnd rfl]
  · by_cases h0 : bk.mCurrentGroup.mOps = [] <;> cases hm : bk.mDidMakeChanges <;>
      simp [h0, hm]
  · rw [hdirty, hops]
    cases ops <;> simp
  · rw [hops]
    simp only [List.length_eq_zero]
    exact hnil.symm

/-- C23, witness: the bracket of the sample map that deletes sector 0, a
delete with a cascade. -/
theorem C23_made_changes_once_per_group_witness :
    ∃ bk b' evs evsEnd,
      (Basis.fresh Document.sample).bracket Defaults.sample [.del .sectors 0] = some bk ∧
      bk.end_ = some b' ∧
      (Basis.fresh Document.sample).transaction Defaults.sample [.del .sectors 0] = some b' ∧
      bk.listener = (Basis.fresh Document.sample).listener ++ evs ∧
      b'.listener = bk.listener ++ evsEnd ∧
      evs.count Event.basisMadeChanges = 0 ∧ evs.count Event.basisNotifyEnd = 0 ∧
      evsEnd.count Event.basisNotifyEnd = 1 ∧
      evsEnd.count Event.basisMadeChanges =
        (if bk.mCurrentGroup.mOps.length = 0 then 0 else 1) ∧
      (bk.mCurrentGroup.mOps.length = 0 ↔ [Cmd.del .sectors 0] = []) :=
  C23_made_changes_once_per_group Defaults.sample (Basis.fresh Document.sample)
    [.del .sectors 0] (by decide) (by decide)

/-- C24.  `EditOperation::apply` is a two-state flip for the structural
operations.  A delete operation applied at an index in range removes that
object from its collection and is left with action insert, the same type
and index, and the removed object as its payload; applied again it puts the
object back and is a delete operation with a null payload again.  An insert
operation holding an object of its kind, applied at an index in range,
inserts its payload at the index and is left with action delete and a null
payload; applied again it removes the object and holds it again.  A change
operation keeps its action.  Whenever two applies succeed, the action tag is
back at its original value. -/
theorem C24_apply_is_two_state_flip (b : Basis) (op : EditOperation) :
    (op.action = .del → 0 ≤ op.objnum ∧ op.objnum < b.doc.numObjects op.objtype →
      ∃ p b1 b2, op.apply b = some ({ op with action := .insert, payload := p }, b1) ∧
        (b.doc.objects op.objtype)[op.objnum.toNat]? = some p ∧
        b1.doc.objects op.objtype = (b.doc.objects op.objtype).eraseIdx op.objnum.toNat ∧
        EditOperation.apply { op with action := .insert, payload := p } b1 =
          some ({ op with action := .del, payload := .null }, b2) ∧
        b2.doc.objects op.objtype = b.doc.objects op.objtype) ∧
    (op.action = .insert → 0 ≤ op.objnum ∧ op.objnum ≤ b.doc.numObjects op.objtype →
      op.payload.kind = some op.objtype →
      ∃ b1 b2, op.apply b = some ({ op with action := .del, payload := .null }, b1) ∧
        b1.doc.objects op.objtype =
          (b.doc.objects op.objtype).insertIdx op.objnum.toNat op.payload ∧
        EditOperation.apply { op with action := .del, payload := .null } b1 =
          some ({ op with action := .insert, payload := op.payload }, b2) ∧
        b2.doc.objects op.objtype = b.doc.objects op.objtype) ∧
    (∀ op1 b1, op.apply b = some (op1, b1) →
      op1.action = op.action.flip ∧ op1.objtype = op.objtype ∧ op1.objnum = op.objnum ∧
        (op.action = .change → op1.action = .change)) ∧
    (∀ op1 b1 op2 b2, op.apply b = some (op1, b1) → op1.apply b1 = some (op2, b2) →
      op2.action = op.action) := by
  refine ⟨?_, ?_, ?_, ?_⟩
  · intro ha hr
    obtain ⟨p, b1, e1, hp, ho⟩ := EditOperation.apply_del op b ha hr
    have hlt : op.objnum.toNat < (b.doc.objects op.objtype).length :=
      (List.getElem?_eq_some_iff.mp hp).1
    have hr1 : 0 ≤ op.objnum ∧ op.objnum ≤ b1.doc.numObjects op.objtype := by
      rw [Document.numObjects_eq, ho, List.length_eraseIdx, if_pos hlt]
      omega
    obtain ⟨b2, e2, ho2⟩ := EditOperation.apply_insert
      { op with action := .insert, payload := p } b1 rfl hr1
      (Document.objects_kind (List.getElem?_mem hp))
    refine ⟨p, b1, b2, e1, hp, ho, e2, ?_⟩
    simp only at ho2
    rw [ho2, ho, List.insertIdx_eraseIdx_of_getElem? hp]
  · intro ha hr hk
    obtain ⟨b1, e1, ho⟩ := EditOperation.apply_insert op b ha hr hk
    have hle : op.objnum.toNat ≤ (b.doc.objects op.objtype).length := by
      have := hr.2
      rw [Document.numObjects_eq] at this
      omega
    have hr1 : 0 ≤ op.objnum ∧ op.objnum < b1.doc.numObjects op.objtype := by
      rw [Document.numObjects_eq, ho, List.length_insertIdx _ _ hle]
      push_cast
      omega
    obtain ⟨p, b2, e2, hp, ho2⟩ := EditOperation.apply_del
      { op with action := .del, payload := .null } b1 rfl hr1
    simp only at hp ho2 e2
    have hp' : p = op.payload := by
      rw [ho] at hp
      have hlt : op.objnum.toNat < ((b.doc.objects op.objtype).insertIdx op.objnum.toNat
          op.payload).length := by
        rw [List.length_insertIdx _ _ hle]; omega
      rw [List.getElem?_eq_getElem hlt, List.getElem_insertIdx_self _ _ _ hle hlt] at hp
      exact (Option.some.inj hp).symm
    subst hp'
    refine ⟨b1, b2, e1, ho, e2, ?_⟩
    rw [ho2, ho, List.eraseIdx_insertIdx]
  · intro op1 b1 h
    obtain ⟨h1, h2, -, h4⟩ := EditOperation.apply_shape h
    exact ⟨h4, h1, h2, fun hc => by rw [h4, hc]; rfl⟩
  · intro op1 b1 op2 b2 h1 h2
    rw [(EditOperation.apply_shape h2).2.2.2, (EditOperation.apply_shape h1).2.2.2,
      EditType.flip_flip]

/-- C24, witness: the delete operation for sidedef 1 of the sample map,
applied twice. -/
theorem C24_apply_is_two_state_flip_witness :
    ∃ p b1 b2, (Basis.delOp .sidedefs 1).apply (Basis.opened Document.sample) =
        some ({ Basis.delOp .sidedefs 1 with action := .insert, payload := p }, b1) ∧
      ((Basis.opened Document.sample).doc.objects (Basis.delOp .sidedefs 1).objtype)[
        (Basis.delOp .sidedefs 1).objnum.toNat]? = some p ∧
      b1.doc.objects (Basis.delOp .sidedefs 1).objtype =
        ((Basis.opened Document.sample).doc.objects (Basis.delOp .sidedefs 1).objtype).eraseIdx
          (Basis.delOp .sidedefs 1).objnum.toNat ∧
      EditOperation.apply { Basis.delOp .sidedefs 1 with action := .insert, payload := p } b1 =
        some ({ Basis.delOp .sidedefs 1 with action := .del, payload := .null }, b2) ∧
      b2.doc.objects (Basis.delOp .sidedefs 1).objtype =
        (Basis.opened Document.sample).doc.objects (Basis.delOp .sidedefs 1).objtype :=
  (C24_apply_is_two_state_flip (Basis.opened Document.sample) (Basis.delOp .sidedefs 1)).1
    rfl (by decide)

/-- C25.  Cascade repairs are recorded before the primary deletion.  For
every `del(type, i)` with `i` in range in an open group, the operations the
call appends to the current group are a cascade followed by the deletion of
the object itself, which is the last one (stored flipped, with action
insert, as `apply` leaves it).  The cascade consists of changes of linedef
sides, deletions of linedefs and deletions of sidedefs only, in the form
`CascadeOk` fixes for each type, and the deletions in it come in strictly
decreasing index order. -/
theorem C25_cascade_before_primary (b : Basis) (type : ObjType) (i : Int)
    (hact : b.mCurrentGroup.isActive = true) (hr : 0 ≤ i ∧ i < b.doc.numObjects type) :
    ∃ b' casc prim, Basis.del type i b = some b' ∧
      b'.mCurrentGroup.mOps = b.mCurrentGroup.mOps ++ casc ++ [prim] ∧
      prim.isDeletion type = true ∧ prim.objnum = i ∧
      (∀ op ∈ casc, op.isSideChange = true ∨ op.isDeletion .linedefs = true ∨
        op.isDeletion .sidedefs = true) ∧
      (casc.filter fun op => op.action == EditType.insert).Pairwise
        (fun a c => a.objnum > c.objnum) ∧
      CascadeOk type casc := by
  obtain ⟨b', -, -, e, -⟩ := Basis.del_spec type hact hr
  obtain ⟨casc, prim, evs, t, hp, hn, hc⟩ := Basis.del_shaped _ _ _ _ e
  refine ⟨b', casc, prim, e, by rw [t.mOps, List.append_assoc], hp, hn, ?_, ?_, hc⟩
  · cases type <;> simp only [CascadeOk] at hc
    · subst hc; simp
    · subst hc; simp
    · exact fun op hop => Or.inl (hc op hop)
    · exact fun op hop => Or.inr (Or.inl (hc.1 op hop))
    · intro op hop
      rcases hc.1 op hop with h | h
      · exact Or.inl h
      · exact Or.inr (Or.inr h)
  · cases type <;> simp only [CascadeOk] at hc
    · subst hc; simp
    · subst hc; simp
    · have : casc.filter (fun op => op.action == EditType.insert) = [] := by
        rw [List.filter_eq_nil_iff]
        intro op hop
        have h := hc op hop
        simp only [EditOperation.isSideChange, Bool.and_eq_true, beq_iff_eq] at h
        simp [h.1.1]
      rw [this]
      exact List.Pairwise.nil
    · have : casc.filter (fun op => op.action == EditType.insert) = casc := by
        rw [List.filter_eq_self]
        intro op hop
        have h := hc.1 op hop
        simp only [EditOperation.isDeletion, Bool.and_eq_true, beq_iff_eq] at h
        simp [h.1]
      rw [this]
      exact hc.2
    · have : casc.filter (fun op => op.action == EditType.insert) =
          casc.filter (EditOperation.isDeletion .sidedefs) := by
        apply List.filter_congr
        intro op hop
        rcases hc.1 op hop with h | h
        · rw [EditOperation.not_isDeletion_of_isSideChange _ h]
          simp only [EditOperation.isSideChange, Bool.and_eq_true, beq_iff_eq] at h
          simp [h.1.1]
        · rw [h]
          simp only [EditOperation.isDeletion, Bool.and_eq_true, beq_iff_eq] at h
          simp [h.1]
      rw [this]
      exact hc.2

/-- C25, witness: deleting sector 0 of the sample map, whose cascade
deletes four sidedefs and unbinds them from their linedefs. -/
theorem C25_cascade_before_primary_witness :
    ∃ b' casc prim, Basis.del .sectors 0 (Basis.opened Document.sample) = some b' ∧
      b'.mCurrentGroup.mOps =
        (Basis.opened Document.sample).mCurrentGroup.mOps ++ casc ++ [prim] ∧
      prim.isDeletion .sectors = true ∧ prim.objnum = 0 ∧
      (∀ op ∈ casc, op.isSideChange = true ∨ op.isDeletion .linedefs = true ∨
        op.isDeletion .sidedefs = true) ∧
      (casc.filter fun op => op.action == EditType.insert).Pairwise
        (fun a c => a.objnum > c.objnum) ∧
      CascadeOk .sectors casc :=
  C25_cascade_before_primary (Basis.opened Document.sample) .sectors 0 (by decide) (by decide)

/-- C26, counterexample to the claim as written.  On the sample map, which
has four vertices: the bracket `begin(); addNew(vertices); end()` records a
group built from one in-range call; then `begin(); del(vertices, 4);
abort(true)`, a bracket of one in-range call, removes the new vertex and
keeps the change without touching the history.  The undo stack still holds
the first group, and `undo()` fails: its replay deletes vertex 4 of a
document that has four vertices. -/
theorem C26_counterexample_undo_after_kept_abort :
    (((Basis.fresh Document.sample).transaction Defaults.sample [.addNew .vertices]).bind
      fun b1 => (b1.bracket Defaults.sample [.del .vertices 4]).bind
        fun bk => (bk.abort true).map
          fun b2 => (decide (b1.TxInRange Defaults.sample [.del .vertices 4]),
            b2.doc.numVertices, b2.mUndoHistory.length, b2.undo)) =
      some (true, 4, 1, none) := by
  decide

/-- C26, amended.  Indices stay valid for every enqueued operation.  For
every document and every `del(type, i)` with `0 ≤ i < count(type)` issued in
an open group the call succeeds: no range assertion fails for the primary
operation or for a cascade operation.  And for every bracket of in-range
`addNew` / `del` / `change` calls started with no group open: the calls
succeed, `abort(false)` in place of `end()` succeeds, and after `end()` the
group, when the bracket has a call, is replayed by `undo` and then by `redo`
without a failure, both returning true; on a basis whose history was built
by brackets closed by `end()`, `undo` and `redo`, every further run of `undo`
and `redo` calls succeeds as well. -/
theorem C26_indices_stay_valid (dflt : Defaults) (b : Basis) (type : ObjType) (i : Int)
    (hact : b.mCurrentGroup.isActive = true) (hr : 0 ≤ i ∧ i < b.doc.numObjects type)
    (b0 : Basis) (cmds : List Cmd) (hi : b0.Idle) (htx : b0.TxInRange dflt cmds) :
    (∃ b', Basis.del type i b = some b') ∧
    (∃ bk ba, b0.bracket dflt cmds = some bk ∧ bk.abort false = some ba) ∧
    ∃ b1, b0.transaction dflt cmds = some b1 ∧
      (cmds ≠ [] → ∃ b2 b3, b1.undo = some (true, b2) ∧ b2.redo = some (true, b3) ∧
        b3.doc = b1.doc) ∧
      (b0.Consistent → ∀ steps, ∃ b', Basis.replay steps b1 = some b') := by
  refine ⟨?_, ?_, ?_⟩
  · obtain ⟨b', -, -, e, -⟩ := Basis.del_spec type hact hr
    exact ⟨b', e⟩
  · obtain ⟨bk, ops0, e, hact', hseg, -⟩ := Basis.bracket_spec dflt cmds hi htx
    obtain ⟨ba, ea, -⟩ := Basis.abort_rollback_spec hact' hseg
    exact ⟨bk, ba, e, ea⟩
  · obtain ⟨b1, ops0, ops, e1, hseg, hops, -, -, hu1⟩ :=
      Basis.transaction_spec dflt cmds hi htx
    refine ⟨b1, e1, fun hne => ?_, fun hc steps => ?_⟩
    · rw [if_neg (hops hne)] at hu1
      obtain ⟨b2, e2, hd2, -, hf2, -⟩ := Basis.undo_spec hu1 rfl hseg
      have hseg2 : Seg b2.doc ops0 ops b1.doc := by rw [hd2]; exact hseg
      obtain ⟨b3, e3, hd3, -⟩ := Basis.redo_spec hf2 rfl hseg2
      exact ⟨b2, b3, e2, e3, hd3⟩
    · obtain ⟨b1', e1', hc1⟩ := Basis.transaction_consistent dflt cmds hc htx
      rw [e1] at e1'
      cases e1'
      obtain ⟨b', e, -⟩ := Basis.replay_consistent steps hc1
      exact ⟨b', e⟩

/-- C26, witness: deleting sector 0 in the open group of the sample map, and
the cascading bracket on a new basis over the sample map. -/
theorem C26_indices_stay_valid_witness :
    (∃ b', Basis.del .sectors 0 (Basis.opened Document.sample) = some b') ∧
    (∃ bk ba, (Basis.fresh Document.sample).bracket Defaults.sample
        [.del .sectors 0, .addNew .vertices, .changeLinedef 0 .flags 5, .del .vertices 1]
          = some bk ∧ bk.abort false = some ba) ∧
    ∃ b1, (Basis.fresh Document.sample).transaction Defaults.sample
        [.del .sectors 0, .addNew .vertices, .changeLinedef 0 .flags 5, .del .vertices 1]
          = some b1 ∧
      ([Cmd.del .sectors 0, .addNew .vertices, .changeLinedef 0 .flags 5, .del .vertices 1]
        ≠ [] → ∃ b2 b3, b1.undo = some (true, b2) ∧ b2.redo = some (true, b3) ∧
          b3.doc = b1.doc) ∧
      ((Basis.fresh Document.sample).Consistent →
        ∀ steps, ∃ b', Basis.replay steps b1 = some b') :=
  C26_indices_stay_valid Defaults.sample (Basis.opened Document.sample) .sectors 0
    (by decide) (by decide) (Basis.fresh Document.sample)
    [.del .sectors 0, .addNew .vertices, .changeLinedef 0 .flags 5, .del .vertices 1]
    (by decide) (by decide)

/-- C27.  The cascade must precede the physical deletion, because a raw
delete followed by the raw insert of the same object is not an identity
while a reference to the deleted index remains.  In the sample map linedef 0
still references vertex 1 and vertices 2 and 3 lie above it: the raw
deletion of vertex 1 followed by the raw insertion of that vertex at 1
restores the vertices but leaves start/end indices different from the
original ones.  Whereas for every document and index in range, when no
linedef references vertex `n` (resp. no sidedef references sector `n`, no
linedef references sidedef `n`), the raw delete followed by the raw insert
restores the document exactly. -/
theorem C27_raw_delete_insert_needs_cascade (d : Document) (n : Int) :
    (∃ L x d1 d2, Document.sample.linedefs[0]? = some L ∧ L.end_ = 1 ∧
      (1 : Int) + 1 < Document.sample.numVertices ∧
      (Basis.delOp .vertices 1).rawDeleteVertex Document.sample = some (x, d1) ∧
      (Basis.delOp .vertices 1).rawInsertVertex x d1 = some d2 ∧
      d2.vertices = Document.sample.vertices ∧
      (d2.linedefs.map fun L => (L.start, L.end_)) ≠
        (Document.sample.linedefs.map fun L => (L.start, L.end_))) ∧
    (0 ≤ n ∧ n < d.numVertices → d.Unreferenced .vertices n →
      ∃ x d1, (Basis.delOp .vertices n).rawDeleteVertex d = some (x, d1) ∧
        (Basis.delOp .vertices n).rawInsertVertex x d1 = some d) ∧
    (0 ≤ n ∧ n < d.numSectors → d.Unreferenced .sectors n →
      ∃ x d1, (Basis.delOp .sectors n).rawDeleteSector d = some (x, d1) ∧
        (Basis.delOp .sectors n).rawInsertSector x d1 = some d) ∧
    (0 ≤ n ∧ n < d.numSidedefs → d.Unreferenced .sidedefs n →
      ∃ x d1, (Basis.delOp .sidedefs n).rawDeleteSidedef d = some (x, d1) ∧
        (Basis.delOp .sidedefs n).rawInsertSidedef x d1 = some d) := by
  refine ⟨⟨_, _, _, _, rfl, rfl, by decide, rfl, rfl, by decide, by decide⟩, ?_, ?_, ?_⟩
  · intro hr hfree
    obtain ⟨p, d', hd, -, hi⟩ := Inverts.del (Basis.delOp .vertices n) d rfl rfl hr hfree
    simp only [EditOperation.deleteDoc, Basis.delOp, Option.map_eq_some', Prod.mk.injEq] at hd
    obtain ⟨r, hr1, rfl, rfl⟩ := hd
    refine ⟨r.1, r.2, hr1, ?_⟩
    simp only [EditOperation.applyDoc, EditOperation.insertDoc, Basis.delOp,
      Option.map_eq_some', Prod.mk.injEq] at hi
    obtain ⟨d2, h2, -, rfl⟩ := hi
    exact h2
  · intro hr hfree
    obtain ⟨p, d', hd, -, hi⟩ := Inverts.del (Basis.delOp .sectors n) d rfl rfl hr hfree
    simp only [EditOperation.deleteDoc, Basis.delOp, Option.map_eq_some', Prod.mk.injEq] at hd
    obtain ⟨r, hr1, rfl, rfl⟩ := hd
    refine ⟨r.1, r.2, hr1, ?_⟩
    simp only [EditOperation.applyDoc, EditOperation.insertDoc, Basis.delOp,
      Option.map_eq_some', Prod.mk.injEq] at hi
    obtain ⟨d2, h2, -, rfl⟩ := hi
    exact h2
  · intro hr hfree
    obtain ⟨p, d', hd, -, hi⟩ := Inverts.del (Basis.delOp .sidedefs n) d rfl rfl hr hfree
    simp only [EditOperation.deleteDoc, Basis.delOp, Option.map_eq_some', Prod.mk.injEq] at hd
    obtain ⟨r, hr1, rfl, rfl⟩ := hd
    refine ⟨r.1, r.2, hr1, ?_⟩
    simp only [EditOperation.applyDoc, EditOperation.insertDoc, Basis.delOp,
      Option.map_eq_some', Prod.mk.injEq] at hi
    obtain ⟨d2, h2, -, rfl⟩ := hi
    exact h2

/-- C27, witness: in the sample map without its linedefs no linedef
references vertex 1, and the raw delete followed by the raw insert restores
the document. -/
theorem C27_raw_delete_insert_needs_cascade_witness :
    ∃ x d1,
      (Basis.delOp .vertices 1).rawDeleteVertex { Document.sample with linedefs := [] }
        = some (x, d1) ∧
      (Basis.delOp .vertices 1).rawInsertVertex x d1
        = some { Document.sample with linedefs := [] } :=
  (C27_raw_delete_insert_needs_cascade { Document.sample with linedefs := [] } 1).2.1
    (by decide) (by simp [Document.Unreferenced])

/-- C28.  `begin()` discards the redo future unconditionally, even when no
edit follows.  After an `undo()` that returned true, outside a bracket, the
redo stack is not empty; `begin()` succeeds, and `end()` with no operation
in between, and likewise `abort(k)` for either `k`, succeeds and leaves the
redo stack empty, so that `redo()` returns false and changes nothing: the
undone group can no longer be restored, although the document and the undo
stack are as the `undo()` left them. -/
theorem C28_begin_discards_redo (b0 b : Basis) (hi : b0.Idle)
    (hu : b0.undo = some (true, b)) :
    b.mRedoFuture ≠ [] ∧
    ∃ b1, b.begin = some b1 ∧
      (∃ be, b1.end_ = some be ∧ be.mRedoFuture = [] ∧ be.redo = some (false, be) ∧
        be.doc = b.doc ∧ be.mUndoHistory = b.mUndoHistory) ∧
      ∀ k, ∃ ba, b1.abort k = some ba ∧ ba.mRedoFuture = [] ∧ ba.redo = some (false, ba) ∧
        ba.doc = b.doc ∧ ba.mUndoHistory = b.mUndoHistory := by
  have hg := Basis.undo_mCurrentGroup hu
  have hib : b.Idle := by
    unfold Basis.Idle
    rw [hg]
    exact hi
  have hne : b.mRedoFuture ≠ [] := by
    rcases Basis.undo_cases b0 with ⟨-, e⟩ | ⟨g, rest, -, hcase⟩
    · rw [e] at hu; simp at hu
    · rcases hcase with e | ⟨g', b', e, -, hf⟩
      · rw [e] at hu; cases hu
      · rw [e] at hu
        cases hu
        rw [hf]
        simp
  obtain ⟨b1, e1, hd1, ho1, hdir1, -, hu1, hf1⟩ := Basis.begin_spec hib
  have hact1 : b1.mCurrentGroup.isActive = true := by simp [UndoGroup.isActive, hdir1]
  refine ⟨hne, b1, e1, ?_, ?_⟩
  · obtain ⟨be, ee, hde, -, hfe, hue⟩ := Basis.end_spec hact1
    rw [if_pos ho1] at hue
    have hfe' : be.mRedoFuture = [] := hfe.trans hf1
    exact ⟨be, ee, hfe', by simp [Basis.redo, hfe'], hde.trans hd1, hue.trans hu1⟩
  · intro k
    cases k
    · have hseg : Seg b1.doc [] b1.mCurrentGroup.mOps b1.doc := by
        rw [ho1]; exact Seg.nil _
      obtain ⟨ba, ea, hda, -, hua, hfa⟩ := Basis.abort_rollback_spec hact1 hseg
      have hfa' : ba.mRedoFuture = [] := hfa.trans hf1
      exact ⟨ba, ea, hfa', by simp [Basis.redo, hfa'], hda.trans hd1, hua.trans hu1⟩
    · obtain ⟨ba, ea, hda, -, hua, hfa⟩ := Basis.abort_keep_spec hact1
      have hfa' : ba.mRedoFuture = [] := hfa.trans hf1
      exact ⟨ba, ea, hfa', by simp [Basis.redo, hfa'], hda.trans hd1, hua.trans hu1⟩

/-- C28, witness: the sample state with one bracket on its undo stack,
undone. -/
theorem C28_begin_discards_redo_witness :
    Basis.sampleUndone.mRedoFuture ≠ [] ∧
    ∃ b1, Basis.sampleUndone.begin = some b1 ∧
      (∃ be, b1.end_ = some be ∧ be.mRedoFuture = [] ∧ be.redo = some (false, be) ∧
        be.doc = Basis.sampleUndone.doc ∧ be.mUndoHistory = Basis.sampleUndone.mUndoHistory) ∧
      ∀ k, ∃ ba, b1.abort k = some ba ∧ ba.mRedoFuture = [] ∧ ba.redo = some (false, ba) ∧
        ba.doc = Basis.sampleUndone.doc ∧ ba.mUndoHistory = Basis.sampleUndone.mUndoHistory :=
  C28_begin_discards_redo Basis.sampleEdited Basis.sampleUndone (by decide) (by decide)

/-- C29.  `abort` never raises the signal that changes were made.  Every
`abort(k)` that returns, for either `k`, makes the listener calls of its
replay, which report edits, and then `basisNotifyEnd`: `basisNotifyEnd`
exactly once and `basisMadeChanges` not at all.  `abort(true)` returns for
every open group, and in a bracket of in-range calls started with no group
open `abort(k)` returns for both `k`; with `k = true` and at least one
applied operation the signal is not raised although the document may differ
from its state at `begin()`. -/
theorem C29_abort_never_signals (dflt : Defaults) (b0 : Basis) (cmds : List Cmd)
    (hi : b0.Idle) (htx : b0.TxInRange dflt cmds) :
    (∀ (b : Basis) (k : Bool) (b' : Basis), b.abort k = some b' →
      ∃ evs, b'.listener = b.listener ++ evs ∧ evs.count Event.basisNotifyEnd = 1 ∧
        evs.count Event.basisMadeChanges = 0) ∧
    (∀ b : Basis, b.mCurrentGroup.isActive = true →
      ∃ b', b.abort true = some b' ∧ b'.doc = b.doc ∧
        b'.listener = b.listener ++ [Event.basisNotifyEnd]) ∧
    ∃ bk, b0.bracket dflt cmds = some bk ∧
      ∀ k, ∃ ba evs, bk.abort k = some ba ∧ ba.listener = bk.listener ++ evs ∧
        evs.count Event.basisNotifyEnd = 1 ∧ evs.count Event.basisMadeChanges = 0 := by
  have key : ∀ (b : Basis) (k : Bool) (b' : Basis), b.abort k = some b' →
      ∃ evs, b'.listener = b.listener ++ evs ∧ evs.count Event.basisNotifyEnd = 1 ∧
        evs.count Event.basisMadeChanges = 0 := by
    intro b k b' h
    obtain ⟨evs, hl, hed⟩ := Basis.abort_listener h
    refine ⟨evs ++ [Event.basisNotifyEnd], hl, ?_, ?_⟩
    · rw [List.count_append, List.count_eq_zero_of_isEdit hed Event.basisNotifyEnd rfl]
      simp
    · rw [List.count_append, List.count_eq_zero_of_isEdit hed Event.basisMadeChanges rfl]
      simp
  refine ⟨key, ?_, ?_⟩
  · intro b hact
    obtain ⟨b', e, hd, -⟩ := Basis.abort_keep_spec hact
    refine ⟨b', e, hd, ?_⟩
    unfold Basis.abort at e
    simp only [hact, Bool.not_true, Bool.false_eq_true, if_false, Bool.false_and,
      Option.map_some', Option.some.injEq] at e
    rw [← e]
    simp [Basis.doProcessChangeStatus]
  · obtain ⟨bk, ops0, e, hact, hseg, -⟩ := Basis.bracket_spec dflt cmds hi htx
    refine ⟨bk, e, fun k => ?_⟩
    have hs : ∃ ba, bk.abort k = some ba := by
      cases k
      · obtain ⟨ba, ea, -⟩ := Basis.abort_rollback_spec hact hseg
        exact ⟨ba, ea⟩
      · obtain ⟨ba, ea, -⟩ := Basis.abort_keep_spec hact
        exact ⟨ba, ea⟩
    obtain ⟨ba, ea⟩ := hs
    obtain ⟨evs, h1, h2, h3⟩ := key bk k ba ea
    exact ⟨ba, evs, ea, h1, h2, h3⟩

/-- C29, witness: the bracket of the sample map that deletes vertex 1,
aborted; with `abort(true)` the document differs from the one at `begin()`
and the listener never received `basisMadeChanges`. -/
theorem C29_abort_never_signals_witness :
    (∃ b', Basis.sampleOpenEdited.abort true = some b' ∧ b'.doc ≠ Document.sample ∧
      b'.listener.count Event.basisMadeChanges = 0) ∧
    (∀ (b : Basis) (k : Bool) (b' : Basis), b.abort k = some b' →
      ∃ evs, b'.listener = b.listener ++ evs ∧ evs.count Event.basisNotifyEnd = 1 ∧
        evs.count Event.basisMadeChanges = 0) ∧
    (∀ b : Basis, b.mCurrentGroup.isActive = true →
      ∃ b', b.abort true = some b' ∧ b'.doc = b.doc ∧
        b'.listener = b.listener ++ [Event.basisNotifyEnd]) ∧
    ∃ bk, (Basis.fresh Document.sample).bracket Defaults.sample [.del .vertices 1] = some bk ∧
      ∀ k, ∃ ba evs, bk.abort k = some ba ∧ ba.listener = bk.listener ++ evs ∧
        evs.count Event.basisNotifyEnd = 1 ∧ evs.count Event.basisMadeChanges = 0 :=
  ⟨⟨_, rfl, by decide, by decide⟩,
    C29_abort_never_signals Defaults.sample (Basis.fresh Document.sample) [.del .vertices 1]
      (by decide) (by decide)⟩

/-- C30.  Deleting a thing or a linedef has no cascade and no renumbering
side effect: for every document and index `i` in range, `del(things, i)`
(resp. `del(linedefs, i)`) in an open group appends exactly one operation to
the current group, the deletion of that object, and the document afterwards
is the one before with element `i` removed from that collection, the
remaining elements in order, and everything else, the other four
collections with every field and reference index of their objects, as it
was. -/
theorem C30_del_thing_or_linedef_is_local (b : Basis) (type : ObjType) (i : Int)
    (ht : type = .things ∨ type = .linedefs)
    (hact : b.mCurrentGroup.isActive = true) (hr : 0 ≤ i ∧ i < b.doc.numObjects type) :
    ∃ b' prim, Basis.del type i b = some b' ∧
      b'.mCurrentGroup.mOps = b.mCurrentGroup.mOps ++ [prim] ∧
      prim.isDeletion type = true ∧ prim.objnum = i ∧
      (b.doc.objects type)[i.toNat]? = some prim.payload ∧
      (type = .things → b'.doc = { b.doc with things := b.doc.things.eraseIdx i.toNat }) ∧
      (type = .linedefs →
        b'.doc = { b.doc with linedefs := b.doc.linedefs.eraseIdx i.toNat }) := by
  obtain ⟨b', -, -, e, -, -, hd⟩ := Basis.del_spec type hact hr
  obtain ⟨casc, prim, evs, t, hp, hn, hc⟩ := Basis.del_shaped _ _ _ _ e
  have hcasc : casc = [] := by
    rcases ht with rfl | rfl <;> exact hc
  subst hcasc
  have hpay : (b.doc.objects type)[i.toNat]? = some prim.payload := by
    have e' := e
    rw [Basis.del_unfold, Basis.delWith_eq] at e'
    simp only [hact, Bool.not_true, Bool.false_eq_true, if_false] at e'
    rcases ht with rfl | rfl
    · simp only [Option.some_bind, hact, Bool.not_true, Bool.false_eq_true, if_false] at e'
      obtain ⟨op', ha, t'⟩ := Basis.addApply_traced e'
      have hop : op' = prim := by
        have h1 := t.mOps
        rw [t'.mOps] at h1
        simpa using h1
      subst hop
      simp only [EditOperation.applyDoc, Basis.delOp, Option.map_eq_some', Prod.mk.injEq] at ha
      obtain ⟨r, hr1, rfl, -⟩ := ha
      exact @EditOperation.deleteDoc_payload (Basis.delOp .things i) _ _ _ hr1
    · simp only [Option.some_bind, hact, Bool.not_true, Bool.false_eq_true, if_false] at e'
      obtain ⟨op', ha, t'⟩ := Basis.addApply_traced e'
      have hop : op' = prim := by
        have h1 := t.mOps
        rw [t'.mOps] at h1
        simpa using h1
      subst hop
      simp only [EditOperation.applyDoc, Basis.delOp, Option.map_eq_some', Prod.mk.injEq] at ha
      obtain ⟨r, hr1, rfl, -⟩ := ha
      exact @EditOperation.deleteDoc_payload (Basis.delOp .linedefs i) _ _ _ hr1
  refine ⟨b', prim, e, by simpa using t.mOps, hp, hn, hpay, ?_, ?_⟩
  · rintro rfl
    rw [hd]
    simp [Document.deleted, Document.cascaded, Document.erased]
  · rintro rfl
    rw [hd]
    simp [Document.deleted, Document.cascaded, Document.erased]

/-- C30, witness: deleting linedef 1 in the open group of the sample map. -/
theorem C30_del_thing_or_linedef_is_local_witness :
    ∃ b' prim, Basis.del .linedefs 1 (Basis.opened Document.sample) = some b' ∧
      b'.mCurrentGroup.mOps = (Basis.opened Document.sample).mCurrentGroup.mOps ++ [prim] ∧
      prim.isDeletion .linedefs = true ∧ prim.objnum = 1 ∧
      ((Basis.opened Document.sample).doc.objects .linedefs)[(1 : Int).toNat]?
        = some prim.payload ∧
      (ObjType.linedefs = .things →
        b'.doc = { (Basis.opened Document.sample).doc with
          things := (Basis.opened Document.sample).doc.things.eraseIdx (1 : Int).toNat }) ∧
      (ObjType.linedefs = .linedefs →
        b'.doc = { (Basis.opened Document.sample).doc with
          linedefs := (Basis.opened Document.sample).doc.linedefs.eraseIdx (1 : Int).toNat }) :=
  C30_del_thing_or_linedef_is_local (Basis.opened Document.sample) .linedefs 1 (Or.inr rfl)
    (by decide) (by decide)

end Eureka
